import Mathlib

/-!
# Flip-flop report pipeline: a shallow embedding

Go strings and byte slices of `internal/summary` are modelled as lists of byte
values (`List Nat`, every element of a well-formed input being below 256); the
strings of `internal/puzzletext` are modelled as lists of runes (`List Char`).
File-system outcomes are explicit inputs of the patcher.
-/

namespace Summary

/-- A Go `[]byte` / `string`, as the list of its byte values. -/
abbrev Bytes := List Nat

/-- The bytes of an ASCII string literal of the source. -/
def ascii (s : String) : Bytes := s.toList.map Char.toNat

/-- Constant `readmeStart` of summary.go. -/
def readmeStart : Bytes := ascii "<!-- GOFF:POINTERS:START -->"

/-- Constant `readmeEnd` of summary.go. -/
def readmeEnd : Bytes := ascii "<!-- GOFF:POINTERS:END -->"

/-- Search of `bytes.Index`: the first offset at which `sep` is a prefix of the
rest of `data`, if there is one. -/
def index? (sep : Bytes) : Bytes → Option Nat
  | [] => if sep = [] then some 0 else none
  | x :: xs => if sep.isPrefixOf (x :: xs) then some 0 else (index? sep xs).map (· + 1)

/-- Go `bytes.Index(data, sep)`: the index of the first instance of `sep` in
`data`, or `-1` when `sep` is not present. -/
def bytesIndex (data sep : Bytes) : Int :=
  match index? sep data with
  | some i => (i : Int)
  | none => -1

/-- Go `strings.TrimRight(s, cutset)` for a cutset of one ASCII byte `b`:
all trailing bytes equal to `b` are removed. -/
def TrimRight (s : Bytes) (b : Nat) : Bytes :=
  (s.reverse.dropWhile (fun x => x == b)).reverse

/-- Decimal digits of `n`, most significant first, with `fuel` bounding the
number of digits. -/
def digitsAux : Nat → Nat → Bytes → Bytes
  | 0, _, acc => acc
  | fuel + 1, n, acc =>
    if n < 10 then (48 + n) :: acc else digitsAux fuel (n / 10) ((48 + n % 10) :: acc)

/-- Rendering of a natural number by the verb `%d`. -/
def fmtNat (n : Nat) : Bytes := digitsAux (n + 1) n []

/-- Rendering of a Go `int` by the verb `%d` of `fmt.Sprintf`. -/
def fmtInt : Int → Bytes
  | Int.ofNat n => fmtNat n
  | Int.negSucc n => 45 :: fmtNat (n + 1)

/-- Outcome of `os.ReadFile(path)`: the bytes of the document, an error for
which `os.IsNotExist` holds, or any other error. -/
inductive ReadFile where
  | data (d : Bytes)
  | notExist
  | failed
deriving DecidableEq, Repr

/-- The two errors `UpdateReadme` returns: "read README: ..." and
"write README: ...". -/
inductive PatchError where
  | read
  | write
deriving DecidableEq, Repr

/-- Outcome of `os.WriteFile(path, content, 0o644)` followed by the error
wrapping of the callers: on success the document now holds `content`. -/
def WriteFile (writeOk : Bool) (content : Bytes) : Except PatchError Bytes :=
  if writeOk then .ok content else .error .write

/-- Function `appendMissingBlock` of summary.go. -/
def appendMissingBlock (data content : Bytes) : Bytes :=
  TrimRight data 10 ++ ascii "\n\n" ++ readmeStart ++ ascii "\n" ++ content ++ ascii "\n"
    ++ readmeEnd ++ ascii "\n"

/-- Function `writeNewReadme` of summary.go; `year` is `summary.Year` and
`content` the value of `formatSummary(summary)`. -/
def writeNewReadme (writeOk : Bool) (year : Int) (content : Bytes) : Except PatchError Bytes :=
  WriteFile writeOk
    (ascii "# FlipFlop " ++ fmtInt year ++ ascii "\n\n" ++ readmeStart ++ ascii "\n" ++ content
      ++ ascii "\n" ++ readmeEnd ++ ascii "\n")

/-- Guard of line 71 of summary.go: `start == -1 || end == -1 || end < start`. -/
def markersMissing (data : Bytes) : Bool :=
  decide (bytesIndex data readmeStart = -1 ∨ bytesIndex data readmeEnd = -1
    ∨ bytesIndex data readmeEnd < bytesIndex data readmeStart)

/-- Function `UpdateReadme` of summary.go. The result of `os.ReadFile`, the
success of `os.WriteFile`, `summary.Year` and the value of
`formatSummary(summary)` are inputs; `.ok w` means that `nil` was returned and
the document now holds `w`. -/
def UpdateReadme (file : ReadFile) (writeOk : Bool) (year : Int) (content : Bytes) :
    Except PatchError Bytes :=
  match file with
  | .notExist => writeNewReadme writeOk year content
  | .failed => .error .read
  | .data data =>
    let start := bytesIndex data readmeStart
    let «end» := bytesIndex data readmeEnd
    if markersMissing data then
      WriteFile writeOk (appendMissingBlock data content)
    else
      let replacement := readmeStart ++ ascii "\n" ++ content ++ ascii "\n" ++ readmeEnd
      WriteFile writeOk
        (data.take start.toNat ++ replacement ++ data.drop («end».toNat + readmeEnd.length))

/-- Scan of a document for its managed region. The markers are located the
way `UpdateReadme` locates them (lines 69 to 71); the content of the region is
what stands between the line of the first start marker and the line of the first
end marker, that is between `START ++ "\n"` and `"\n" ++ END`. The result is
`none` when the markers are reported missing or do not end and begin a line. -/
def scanRegion (data : Bytes) : Option Bytes :=
  if markersMissing data then none
  else
    let mid := (data.take (bytesIndex data readmeEnd).toNat).drop
      ((bytesIndex data readmeStart).toNat + readmeStart.length)
    if mid.head? = some 10 ∧ mid.getLast? = some 10 ∧ 2 ≤ mid.length then
      some (mid.drop 1).dropLast
    else none

/-- First occurrence: `sep` occurs in `data` at offset `i` and at no smaller
offset. -/
def FirstOcc (sep data : Bytes) (i : Nat) : Prop :=
  sep <+: data.drop i ∧ ∀ j < i, ¬ sep <+: data.drop j

instance (sep d : Bytes) (i : Nat) : Decidable (FirstOcc sep d i) := by
  unfold FirstOcc
  infer_instance

/-- No occurrence of `sep` in `A ++ B` starts inside `A`. -/
def NoOcc (sep A B : Bytes) : Prop := ∀ j < A.length, ¬ sep <+: (A ++ B).drop j

/-- The managed block `start ++ "\n" ++ content ++ "\n" ++ end` followed by `T`. -/
def block (c T : Bytes) : Bytes := readmeStart ++ 10 :: (c ++ 10 :: (readmeEnd ++ T))

end Summary

namespace Puzzletext

/-- A Go `string`, as the list of its runes. -/
abbrev Str := List Char

/-- Go `html.NodeType`. -/
inductive NodeType where
  | ErrorNode
  | TextNode
  | DocumentNode
  | ElementNode
  | CommentNode
  | DoctypeNode
  | RawNode
deriving DecidableEq, Repr

/-- Go `html.Attribute` (fields `Key` and `Val`). -/
structure Attribute where
  Key : Str
  Val : Str
deriving DecidableEq, Repr

/-- Go `html.Node`: node type, `Data`, `Attr` and the children in sibling order
(`FirstChild`, then `NextSibling`). -/
inductive Node where
  | mk (type : NodeType) (Data : Str) (Attr : List Attribute) (children : List Node)

/-- Field `Type` of a node. -/
def Node.type : Node → NodeType
  | .mk t _ _ _ => t

/-- Field `Data` of a node. -/
def Node.Data : Node → Str
  | .mk _ d _ _ => d

/-- Field `Attr` of a node. -/
def Node.Attr : Node → List Attribute
  | .mk _ _ a _ => a

/-- The children of a node, first child first. -/
def Node.children : Node → List Node
  | .mk _ _ _ cs => cs

/-- Go `unicode.IsSpace`. -/
def isSpace (c : Char) : Bool :=
  let n := c.toNat
  n == 0x09 || n == 0x0A || n == 0x0B || n == 0x0C || n == 0x0D || n == 0x20 || n == 0x85
    || n == 0xA0 || n == 0x1680 || (0x2000 ≤ n && n ≤ 0x200A) || n == 0x2028 || n == 0x2029
    || n == 0x202F || n == 0x205F || n == 0x3000

/-- Go `strings.TrimSpace`. -/
def TrimSpace (s : Str) : Str :=
  (((s.dropWhile isSpace).reverse).dropWhile isSpace).reverse

/-- Splitting loop of `strings.Fields`: `cur` is the current field, reversed. -/
def fieldsAux : Str → Str → List Str
  | [], cur => if cur = [] then [] else [cur.reverse]
  | c :: cs, cur =>
    if isSpace c then
      if cur = [] then fieldsAux cs [] else cur.reverse :: fieldsAux cs []
    else fieldsAux cs (c :: cur)

/-- Go `strings.Fields`. -/
def Fields (s : Str) : List Str := fieldsAux s []

/-- Go `strings.HasPrefix`. -/
def HasPrefix (s pre : Str) : Bool := pre.isPrefixOf s

/-- Go `strings.HasSuffix`. -/
def HasSuffix (s suf : Str) : Bool := suf.isSuffixOf s

/-- Go `strings.TrimPrefix`. -/
def TrimPrefix (s pre : Str) : Str := if HasPrefix s pre then s.drop pre.length else s

/-- A decimal digit `'0'`..`'9'`. -/
def isDigit (c : Char) : Bool := 48 ≤ c.toNat && c.toNat ≤ 57

/-- Go `strconv.Atoi` on a 64-bit platform: an optional sign, then one or more
decimal digits, the value within the range of `int`; `none` is an error. -/
def Atoi (s : Str) : Option Int :=
  let neg := s.head? = some '-'
  let ds := if s.head? = some '-' ∨ s.head? = some '+' then s.drop 1 else s
  if ds = [] ∨ ¬ ds.all isDigit then none
  else
    let n : Nat := ds.foldl (fun acc c => acc * 10 + (c.toNat - 48)) 0
    if neg then
      if n > 2 ^ 63 then none else some (-(n : Int))
    else
      if n ≥ 2 ^ 63 then none else some (n : Int)

/-- Assignment `parts[part] = struct{}{}` on a `map[int]struct{}`, the map
being the list of its keys. -/
def mapSet (parts : List Int) (part : Int) : List Int :=
  if part ∈ parts then parts else parts ++ [part]

/-- Loop over `n.Attr` in `collectParts`. -/
def collectAttrs (attrs : List Attribute) (parts : List Int) : List Int :=
  attrs.foldl (fun parts attr =>
    if attr.Key = "id".toList ∧ HasPrefix attr.Val "part-".toList then
      match Atoi (TrimPrefix attr.Val "part-".toList) with
      | some part => mapSet parts part
      | none => parts
    else parts) parts

mutual
/-- Function `collectParts` of puzzletext.go; the map is threaded through. -/
def collectParts : Node → List Int → List Int
  | .mk type Data Attr children, parts =>
    collectPartsChildren children
      (if type = .ElementNode ∧ Data = "h3".toList then collectAttrs Attr parts else parts)
/-- Loop over the children in `collectParts`. -/
def collectPartsChildren : List Node → List Int → List Int
  | [], parts => parts
  | child :: rest, parts => collectPartsChildren rest (collectParts child parts)
end

/-- Function `availableParts` of puzzletext.go: the keys of the map, sorted by
`sort.Ints`. -/
def availableParts (n : Node) : List Int :=
  (collectParts n []).insertionSort (· ≤ ·)

/-- Function `hasClass` of puzzletext.go. -/
def hasClass (n : Node) (className : Str) : Bool :=
  n.Attr.any (fun attr =>
    if attr.Key ≠ "class".toList then false
    else (Fields attr.Val).any (fun item => item = className))

mutual
/-- Function `containsPartHeader` of puzzletext.go. -/
def containsPartHeader : Node → Str → Bool
  | .mk type Data Attr children, partID =>
    if type = .ElementNode ∧ Data = "h3".toList
        ∧ Attr.any (fun attr => attr.Key = "id".toList ∧ attr.Val = partID) then true
    else containsPartHeaderChildren children partID
/-- Loop over the children in `containsPartHeader`. -/
def containsPartHeaderChildren : List Node → Str → Bool
  | [], _ => false
  | child :: rest, partID =>
    if containsPartHeader child partID then true else containsPartHeaderChildren rest partID
end

mutual
/-- Function `findArticleWithPart` of puzzletext.go; `none` is the nil node. -/
def findArticleWithPart : Node → Str → Option Node
  | .mk type Data Attr children, partID =>
    if type = .ElementNode ∧ Data = "article".toList
        ∧ hasClass (.mk type Data Attr children) "description".toList
        ∧ containsPartHeader (.mk type Data Attr children) partID then
      some (.mk type Data Attr children)
    else findArticleWithPartChildren children partID
/-- Loop over the children in `findArticleWithPart`. -/
def findArticleWithPartChildren : List Node → Str → Option Node
  | [], _ => none
  | child :: rest, partID =>
    match findArticleWithPart child partID with
    | some found => some found
    | none => findArticleWithPartChildren rest partID
end

mutual
/-- Function `renderNode` of puzzletext.go; the builder `b` is threaded
through and its final content returned. -/
def renderNode (b : Str) : Node → Bool → Str
  | .mk type Data _ children, inPre =>
    match type with
    | .TextNode =>
      if inPre then b ++ Data
      else
        let text := TrimSpace Data
        if text = [] then b
        else
          let b1 :=
            if b.length > 0 ∧ ¬ HasSuffix b "\n".toList ∧ ¬ HasSuffix b " ".toList then
              b ++ " ".toList
            else b
          renderChildren (b1 ++ text) children inPre
    | .ElementNode =>
      if Data = "script".toList ∨ Data = "style".toList then b
      else if Data = "br".toList then b ++ "\n".toList
      else if Data = "p".toList ∨ Data = "h3".toList then
        renderChildren (if b.length > 0 then b ++ "\n\n".toList else b) children inPre
      else if Data = "pre".toList then
        renderChildren (if b.length > 0 then b ++ "\n\n".toList else b) children true
      else renderChildren b children inPre
    | _ => renderChildren b children inPre
/-- A loop `for child := n.FirstChild; child != nil; child = child.NextSibling`
of `renderNode`. -/
def renderChildren (b : Str) : List Node → Bool → Str
  | [], _ => b
  | child :: rest, inPre => renderChildren (renderNode b child inPre) rest inPre
end

/-- Function `renderText` of puzzletext.go. -/
def renderText (n : Node) : Str := TrimSpace (renderNode [] n false)

mutual
/-- The nodes of a tree in depth-first document order, the root first. -/
def nodes : Node → List Node
  | .mk type Data Attr children => .mk type Data Attr children :: nodesList children
/-- The nodes of a sequence of sibling trees in document order. -/
def nodesList : List Node → List Node
  | [] => []
  | child :: rest => nodes child ++ nodesList rest
end

/-- An element node with tag `tag`, attributes `attrs` and children `cs`. -/
def elem (tag : String) (attrs : List (String × String)) (cs : List Node) : Node :=
  .mk .ElementNode tag.toList (attrs.map fun p => ⟨p.1.toList, p.2.toList⟩) cs

/-- A text node with data `s`. -/
def text (s : String) : Node := .mk .TextNode s.toList [] []

/-- Node `m` is an `h3` element with an `id` attribute made of `part-` and a
remainder that `strconv.Atoi` parses to `x`. -/
def H3Part (m : Node) (x : Int) : Prop :=
  m.type = .ElementNode ∧ m.Data = "h3".toList
    ∧ ∃ a ∈ m.Attr, a.Key = "id".toList ∧ ∃ v, a.Val = "part-".toList ++ v ∧ Atoi v = some x

/-- Node `m` is an `h3` element with an `id` attribute equal to `partID`. -/
def IsH3WithId (partID : Str) (m : Node) : Prop :=
  m.type = .ElementNode ∧ m.Data = "h3".toList
    ∧ ∃ a ∈ m.Attr, a.Key = "id".toList ∧ a.Val = partID

instance (partID : Str) (m : Node) : Decidable (IsH3WithId partID m) := by
  unfold IsH3WithId
  infer_instance

/-- Node `m` is an `article` element, has `description` among the
white-space-separated tokens of a `class` attribute, and has a descendant `h3`
element whose `id` attribute equals `partID`. -/
def ArticleWithPart (partID : Str) (m : Node) : Prop :=
  m.type = .ElementNode ∧ m.Data = "article".toList
    ∧ (∃ a ∈ m.Attr, a.Key = "class".toList ∧ "description".toList ∈ Fields a.Val)
    ∧ ∃ h ∈ nodesList m.children, IsH3WithId partID h

instance (partID : Str) (m : Node) : Decidable (ArticleWithPart partID m) := by
  unfold ArticleWithPart
  infer_instance

/-- The string `s` has no two consecutive space characters. -/
def NoDoubleSpace (s : Str) : Prop := List.Chain' (fun a b => ¬ (a = ' ' ∧ b = ' ')) s

/-- Node `m` is not a `pre` element and, if it is a text node, its trimmed text
has no two consecutive space characters. -/
def PlainNode (m : Node) : Prop :=
  ¬ (m.type = .ElementNode ∧ m.Data = "pre".toList)
    ∧ (m.type = .TextNode → NoDoubleSpace (TrimSpace m.Data))

/-- Rendering of a Go `int` by the verb `%d`, as a string of runes. -/
def fmtInt (i : Int) : Str := (Summary.fmtInt i).map Char.ofNat

/-- Outcome of the request, status check, body read and `html.Parse` of
`FetchPart` and `AvailableParts`: the parsed document, or a failure of one of
these steps. -/
inductive Page where
  | doc (root : Node)
  | failed

/-- Errors returned by `FetchPart`: "invalid part: N", a failure of the request
or of the parse, "part N not found" with the available parts (listed in the
message when there are any), and "part N is empty". -/
inductive FetchPartError where
  | invalidPart (part : Int)
  | request
  | partNotFound (part : Int) (available : List Int)
  | empty (part : Int)
deriving DecidableEq, Repr

/-- Function `FetchPart` of puzzletext.go; the outcome of the network request
and of the parse is the input `page`. -/
def FetchPart (part : Int) (page : Page) : Except FetchPartError Str :=
  if part < 1 then .error (.invalidPart part)
  else
    match page with
    | .failed => .error .request
    | .doc doc =>
      let partID := "part-".toList ++ fmtInt part
      match findArticleWithPart doc partID with
      | none => .error (.partNotFound part (availableParts doc))
      | some article =>
        let text := renderText article
        if TrimSpace text = [] then .error (.empty part) else .ok text

/-- Node `n` is a `script` or a `style` element. -/
def isScriptOrStyle (n : Node) : Bool :=
  decide (n.type = .ElementNode ∧ (n.Data = "script".toList ∨ n.Data = "style".toList))

mutual
/-- The tree `n` with every `script` and `style` element below its root deleted
together with its whole subtree. -/
def stripNode : Node → Node
  | .mk type Data Attr children => .mk type Data Attr (stripList children)
/-- A sequence of sibling trees with every `script` and `style` element deleted
together with its whole subtree. -/
def stripList : List Node → List Node
  | [] => []
  | c :: cs => if isScriptOrStyle c then stripList cs else stripNode c :: stripList cs
end

end Puzzletext

namespace Bench

open Puzzletext

/-- Go `bench.Result`. -/
structure Result where
  PuzzleID : Int
  Part1 : Str
  Part2 : Str
  Part3 : Str
deriving DecidableEq, Repr

/-- A finite non-negative `float64` value, as the exact fraction `num / den`.
The texts `formatDuration` receives hold no sign, so no other value occurs. -/
structure F64 where
  num : Nat
  den : Nat
deriving DecidableEq, Repr

/-- The quotient `a / b` rounded to the nearest integer, ties to even. -/
def roundHalfEven (a b : Nat) : Nat :=
  let q := a / b
  let r := a % b
  if 2 * r < b then q else if b < 2 * r then q + 1 else if q % 2 = 0 then q else q + 1

/-- Loop of `log2`. -/
def log2Aux : Nat → Nat → Nat
  | 0, _ => 0
  | fuel + 1, n => if n < 2 then 0 else log2Aux fuel (n / 2) + 1

/-- The number `k` with `2 ^ k ≤ n < 2 ^ (k + 1)`, for positive `n`. -/
def log2 (n : Nat) : Nat := log2Aux n n

/-- Test `2 ^ k ≤ n / d`. -/
def geTwoPow (n d : Nat) : Int → Bool
  | .ofNat k => decide (d * 2 ^ k ≤ n)
  | .negSucc k => decide (d ≤ n * 2 ^ (k + 1))

/-- The exponent `e` with `2 ^ e ≤ n / d < 2 ^ (e + 1)`, for positive `n`, `d`. -/
def floorLog2 (n d : Nat) : Int :=
  let k : Int := (log2 n : Int) - (log2 d : Int)
  if geTwoPow n d k then k else k - 1

/-- IEEE 754 rounding of the fraction `n / d` to binary64, to nearest with ties
to even: 53 significant bits, the least exponent being `-1074`. The exponent is
not bounded above here; see `isInf`. -/
def roundF64 (n d : Nat) : F64 :=
  if n = 0 then ⟨0, 1⟩
  else
    match max (floorLog2 n d - 52) (-1074) with
    | .ofNat p => ⟨roundHalfEven n (d * 2 ^ p) * 2 ^ p, 1⟩
    | .negSucc p => ⟨roundHalfEven (n * 2 ^ (p + 1)) d, 2 ^ (p + 1)⟩

/-- The rounded value is `2 ^ 1024` or more: the binary64 result is `+Inf`. -/
def isInf (v : F64) : Bool := v.num ≠ 0 && decide (1024 ≤ floorLog2 v.num v.den)

/-- Value of a run of decimal digits. -/
def digitsValue (ds : Str) : Nat := ds.foldl (fun acc c => acc * 10 + (c.toNat - 48)) 0

/-- Go `strconv.ParseFloat(s, 64)` on the texts that capture group 2 of
`benchLineRe` can hold, those made of the characters `0`..`9` and `.`: digits
with at most one point and at least one digit are read as the nearest binary64
value; `none` is an error (a syntax error, or the range error of a value that
rounds to infinity). Texts with other characters are outside this model. -/
def ParseFloat (s : Str) : Option F64 :=
  let ip := s.takeWhile isDigit
  let rest := s.dropWhile isDigit
  let fp := if rest.head? = some '.' then (rest.drop 1).takeWhile isDigit else []
  let tail := if rest.head? = some '.' then (rest.drop 1).dropWhile isDigit else rest
  if tail ≠ [] ∨ (ip = [] ∧ fp = []) then none
  else
    let v := roundF64 (digitsValue (ip ++ fp)) (10 ^ fp.length)
    if isInf v then none else some v

/-- Comparison `value >= k` of a `float64` with the integer constant `k`. -/
def fge (value : F64) (k : Nat) : Bool := decide (k * value.den ≤ value.num)

/-- Division `value / k` of a `float64` by the integer constant `k`, rounded to
binary64. -/
def fdiv (value : F64) (k : Nat) : F64 := roundF64 value.num (value.den * k)

/-- Go `strconv.FormatFloat(value, 'f', 2, 64)`: the exact value rounded to two
decimal places, ties to even, printed with its two decimals. -/
def FormatFloat (value : F64) : Str :=
  let q := roundHalfEven (100 * value.num) value.den
  (Summary.fmtNat (q / 100)).map Char.ofNat
    ++ ['.', Char.ofNat (48 + q % 100 / 10), Char.ofNat (48 + q % 10)]

/-- Go `strings.TrimRight(s, cutset)` for a cutset of one character `c`. -/
def TrimRight (s : Str) (c : Char) : Str := (s.reverse.dropWhile (fun x => x == c)).reverse

/-- Function `formatDuration` of bench.go; `none` is the error of
`strconv.ParseFloat`. -/
def formatDuration (nsText : Str) : Option Str :=
  match ParseFloat nsText with
  | none => none
  | some value =>
    let scaled : F64 × Str :=
      if fge value (10 ^ 9) then (fdiv value (10 ^ 9), "s".toList)
      else if fge value (10 ^ 6) then (fdiv value (10 ^ 6), "ms".toList)
      else if fge value (10 ^ 3) then (fdiv value (10 ^ 3), "us".toList)
      else (value, "ns".toList)
    let text := FormatFloat scaled.1
    let text := TrimRight (TrimRight text '0') '.'
    some (text ++ " ".toList ++ scaled.2)

/-- The number of `x` as the specification describes it: `x` rendered with two
decimal places, then without trailing fractional zeros and without a bare
decimal point; `q` is `x` in hundredths. -/
def strippedDecimal (x : F64) : Str :=
  let q := roundHalfEven (100 * x.num) x.den
  let int := (Summary.fmtNat (q / 100)).map Char.ofNat
  if q % 100 = 0 then int
  else if q % 10 = 0 then int ++ ['.', Char.ofNat (48 + q % 100 / 10)]
  else int ++ ['.', Char.ofNat (48 + q % 100 / 10), Char.ofNat (48 + q % 10)]

/-- Class `\s` of Go regular expressions: tab, newline, form feed, carriage
return and space. -/
def isReSpace (c : Char) : Bool :=
  c = '\t' || c = '\n' || c = Char.ofNat 12 || c = '\r' || c = ' '

/-- Class `[0-9.]` of capture group 2 of `benchLineRe`. -/
def isValueChar (c : Char) : Bool := isDigit c || c = '.'

/-- Pattern `benchLineRe` of bench.go applied by `FindStringSubmatch`,
`^BenchmarkSolve/part([1-3])-[0-9]+\s+\d+\s+([0-9.]+)\s+(ns/op)$`: capture groups
1 and 2 of the match, or `none` when the line does not match. Every class of the
pattern is disjoint from what must follow it, so each repetition takes the
longest run. -/
def benchLineRe (line : Str) : Option (Str × Str) :=
  if "BenchmarkSolve/part".toList.isPrefixOf line then
    match line.drop "BenchmarkSolve/part".toList.length with
    | k :: '-' :: r1 =>
      let r2 := r1.dropWhile isDigit
      let r3 := r2.dropWhile isReSpace
      let r4 := r3.dropWhile isDigit
      let r5 := r4.dropWhile isReSpace
      let r6 := r5.dropWhile isValueChar
      let r7 := r6.dropWhile isReSpace
      if (k = '1' ∨ k = '2' ∨ k = '3') ∧ r1.takeWhile isDigit ≠ [] ∧ r2.takeWhile isReSpace ≠ []
          ∧ r3.takeWhile isDigit ≠ [] ∧ r4.takeWhile isReSpace ≠ []
          ∧ r5.takeWhile isValueChar ≠ [] ∧ r6.takeWhile isReSpace ≠ []
          ∧ r7 = "ns/op".toList then
        some ([k], r5.takeWhile isValueChar)
      else none
    | _ => none
  else none

/-- Splitting of `bufio.ScanLines`: the text is cut after every newline; `cur`
is the current line, reversed. A last line without newline counts when it is
not empty. -/
def rawLinesAux : Str → Str → List Str
  | [], cur => if cur = [] then [] else [cur.reverse]
  | c :: cs, cur => if c = '\n' then cur.reverse :: rawLinesAux cs [] else rawLinesAux cs (c :: cur)

/-- The lines of a text as `bufio.Scanner` cuts them, each without its newline
and before its trailing carriage return is dropped. -/
def rawLines (text : Str) : List Str := rawLinesAux text []

/-- Function `dropCR` of the package bufio: one trailing carriage return is
removed from a line. -/
def dropCR (line : Str) : Str := if line.getLast? = some '\r' then line.dropLast else line

/-- Length in bytes of the UTF-8 encoding of a string. -/
def utf8Len (s : Str) : Nat := (s.map Char.utf8Size).sum

/-- Constant `bufio.MaxScanTokenSize`: a line of this many bytes or more does
not fit the buffer of a `bufio.Scanner`, whose `Scan` then stops with the error
`bufio.ErrTooLong`. -/
def MaxScanTokenSize : Nat := 64 * 1024

/-- Errors returned by `Collect` and `runBench`: "list PATH: ..." when the
directory cannot be read, "bench PATH: ..." when the command fails,
"parse bench duration: ..." and "parse bench output: ...". -/
inductive BenchError where
  | list
  | command
  | duration
  | output
deriving DecidableEq, Repr

/-- Assignment of the `switch matches[1]` of `runBench`. -/
def setPart (row : Result) (part : Str) (value : Str) : Result :=
  if part = "1".toList then { row with Part1 := value }
  else if part = "2".toList then { row with Part2 := value }
  else if part = "3".toList then { row with Part3 := value }
  else row

/-- The loop `for scanner.Scan()` of `runBench` over the remaining lines,
followed by the test of `scanner.Err()`. -/
def scanLoop : List Str → Result → Except BenchError Result
  | [], row => .ok row
  | raw :: rest, row =>
    if MaxScanTokenSize ≤ utf8Len raw then .error .output
    else
      match benchLineRe (dropCR raw) with
      | none => scanLoop rest row
      | some (part, nsText) =>
        match formatDuration nsText with
        | none => .error .duration
        | some value => scanLoop rest (setPart row part value)

/-- Outcome of `cmd.CombinedOutput()`: the output of the benchmark run, or a
failure of the command. -/
inductive CmdOutput where
  | output (text : Str)
  | failed

/-- Function `runBench` of bench.go; the outcome of the command run in `path`
is the input `cmd`. -/
def runBench (cmd : CmdOutput) (puzzleID : Int) : Except BenchError Result :=
  match cmd with
  | .failed => .error .command
  | .output text =>
    scanLoop (rawLines text) { PuzzleID := puzzleID, Part1 := [], Part2 := [], Part3 := [] }

/-- The matching lines of a benchmark output, in order: capture groups 1 and 2
of each line that `benchLineRe` matches. -/
def matchedLines (text : Str) : List (Str × Str) :=
  (rawLines text).filterMap (fun raw => benchLineRe (dropCR raw))

/-- The duration text of the last matching line for part `k`, if there is one. -/
def lastFor (k : Str) (ms : List (Str × Str)) : Option Str :=
  ((ms.filter (fun m => m.1 = k)).getLast?).map (fun m => m.2)

/-- Field of a result for the part `k` (`"1"`, `"2"` or `"3"`). -/
def Result.part (row : Result) (k : Str) : Str :=
  if k = "1".toList then row.Part1
  else if k = "2".toList then row.Part2
  else if k = "3".toList then row.Part3
  else []

/-- Go `bench.dirEntry`, also used for `os.DirEntry`: the name of an entry of a
directory and whether it is a directory. -/
structure dirEntry where
  name : Str
  isDir : Bool
deriving DecidableEq, Repr

/-- Function `parsePuzzleID` of bench.go; `none` is the error of `strconv.Atoi`. -/
def parsePuzzleID (name : Str) : Option Int := Atoi (TrimPrefix name "puzzle".toList)

/-- The comparison `less` is a strict weak ordering, which is what `sort.Slice`
asks of its argument: it is asymmetric, and when `a` is less than `c`, any `b`
is greater than `a` or less than `c`. -/
def StrictWeak {α : Type} (less : α → α → Bool) : Prop :=
  (∀ a b, less a b = true → less b a = false)
    ∧ ∀ a b c, less a c = true → less a b = true ∨ less b c = true

/-- What Go guarantees of `sort.Slice(x, less)`, for a function `sortSlice` that
stands for it: the result is a permutation of the slice and, when `less` is a
strict weak ordering, no element of the result is less than an element that
comes before it. The order of the elements that `less` does not tell apart is
not specified, the sort not being stable. -/
def SortSliceContract (sortSlice : (α : Type) → (α → α → Bool) → List α → List α) : Prop :=
  ∀ (α : Type) (less : α → α → Bool) (l : List α),
    (sortSlice α less l).Perm l
      ∧ (StrictWeak less → (sortSlice α less l).Sorted (fun a b => less b a = false))

/-- A function that meets the contract of `sort.Slice`: an insertion sort by
`less`. -/
def sortSliceInsertion (α : Type) (less : α → α → Bool) (l : List α) : List α :=
  l.insertionSort (fun a b => less b a = false)

/-- Function `readDirSorted` of bench.go. The listing `os.ReadDir` returns is an
input (`none` when it fails), and so is the library function `sort.Slice`, which
is called with the comparison `results[i].name < results[j].name`. -/
def readDirSorted (sortSlice : (α : Type) → (α → α → Bool) → List α → List α)
    (listing : Option (List dirEntry)) : Except BenchError (List dirEntry) :=
  match listing with
  | none => .error .list
  | some entries => .ok (sortSlice dirEntry (fun a b => decide (a.name < b.name)) entries)

/-- The loop over the entries in `Collect`; `run name` is the outcome of the
benchmark command in the directory of the entry `name`. -/
def collectLoop (run : Str → CmdOutput) :
    List dirEntry → List Result → Except BenchError (List Result)
  | [], results => .ok results
  | entry :: rest, results =>
    if !entry.isDir || !HasPrefix entry.name "puzzle".toList then collectLoop run rest results
    else
      match parsePuzzleID entry.name with
      | none => collectLoop run rest results
      | some puzzleID =>
        match runBench (run entry.name) puzzleID with
        | .error e => .error e
        | .ok row => collectLoop run rest (results ++ [row])

/-- Function `Collect` of bench.go; `sortSlice` is the library function
`sort.Slice`, which is called on the rows with the comparison
`results[i].PuzzleID < results[j].PuzzleID`. -/
def Collect (sortSlice : (α : Type) → (α → α → Bool) → List α → List α)
    (listing : Option (List dirEntry)) (run : Str → CmdOutput) :
    Except BenchError (List Result) :=
  match readDirSorted sortSlice listing with
  | .error e => .error e
  | .ok entries =>
    match collectLoop run entries [] with
    | .error e => .error e
    | .ok results =>
      .ok (sortSlice Result (fun a b => decide (a.PuzzleID < b.PuzzleID)) results)

/-- The identifier under which an entry of the year directory contributes a
row: the test of lines 32 to 38 of bench.go, which lines 187 to 193 of
summary.go repeat. -/
def puzzleDirID (entry : dirEntry) : Option Int :=
  if !entry.isDir || !HasPrefix entry.name "puzzle".toList then none
  else parsePuzzleID entry.name

end Bench

namespace Score

open Puzzletext

/-- Leftmost search of `FindStringSubmatch` for a pattern without `^`: the
match function `m` is tried at every offset of the text, the first success being
the result. -/
def findFirst {α : Type} (m : Str → Option α) : Str → Option α
  | [] => m []
  | c :: cs =>
    match m (c :: cs) with
    | some x => some x
    | none => findFirst m cs

/-- Pattern `scoreRe` of score.go, `const score = ([0-9]+);`, matched at the
beginning of `s`: capture group 1. The digits are followed by `;`, so the
repetition takes the whole run of digits. -/
def scoreReAt (s : Str) : Option Str :=
  if "const score = ".toList.isPrefixOf s then
    let r := s.drop "const score = ".toList.length
    if r.takeWhile isDigit ≠ [] ∧ (r.dropWhile isDigit).head? = some ';' then
      some (r.takeWhile isDigit)
    else none
  else none

/-- Call `scoreRe.FindStringSubmatch(text)`: capture group 1 of the leftmost
match, or `none` when there is no match. -/
def scoreRe (text : Str) : Option Str := findFirst scoreReAt text

/-- Pattern `totalRe` of score.go,
`completed <span class="score">\?</span>/([0-9]+) parts`, matched at the
beginning of `s`: capture group 1. -/
def totalReAt (s : Str) : Option Str :=
  if "completed <span class=\"score\">?</span>/".toList.isPrefixOf s then
    let r := s.drop "completed <span class=\"score\">?</span>/".toList.length
    if r.takeWhile isDigit ≠ [] ∧ " parts".toList.isPrefixOf (r.dropWhile isDigit) then
      some (r.takeWhile isDigit)
    else none
  else none

/-- Call `totalRe.FindStringSubmatch(text)`: capture group 1 of the leftmost
match, or `none` when there is no match. -/
def totalRe (text : Str) : Option Str := findFirst totalReAt text

/-- The integer `strconv.Atoi` returns, whether or not it also returns an
error: the value when the text is accepted, 0 on a syntax error, and the nearest
bound of `int` on a range error. -/
def AtoiValue (s : Str) : Int :=
  match Atoi s with
  | some v => v
  | none =>
    let ds := if s.head? = some '-' ∨ s.head? = some '+' then s.drop 1 else s
    if ds = [] ∨ ¬ ds.all isDigit then 0
    else if s.head? = some '-' then -(2 ^ 63) else 2 ^ 63 - 1

/-- Outcome of the request of `Fetch` up to `io.ReadAll`: the body of the year
page, or a failure (request error, status other than 200, read error). -/
inductive YearPage where
  | body (text : Str)
  | failed

/-- Errors returned by `Fetch`: "invalid year: N", a failure of the request,
"score not found; are you logged in?" and "parse score: ...". -/
inductive FetchError where
  | invalidYear
  | request
  | scoreNotFound
  | parseScore
deriving DecidableEq, Repr

/-- Function `Fetch` of score.go; the outcome of the request is the input
`page`. The result is the pair of the score and the total. -/
def Fetch (year : Int) (page : YearPage) : Except FetchError (Int × Int) :=
  if year < 1000 then .error .invalidYear
  else
    match page with
    | .failed => .error .request
    | .body text =>
      match scoreRe text with
      | none => .error .scoreNotFound
      | some digits =>
        match Atoi digits with
        | none => .error .parseScore
        | some score =>
          let total : Int :=
            match totalRe text with
            | some t => AtoiValue t
            | none => 0
          .ok (score, total)

/-- Function `formatPointerLine` of score/readme.go. -/
def formatPointerLine (year score total : Int) : Str :=
  let totalText := if total > 0 then fmtInt total else "?".toList
  TrimSpace ("Pointers (".toList ++ fmtInt year ++ "): ".toList ++ fmtInt score ++ "/".toList
    ++ totalText)

/-- The text `s` begins with a match of `scoreRe` whose digits are `d`. -/
def ScoreAt (s d : Str) : Prop :=
  ∃ post, s = "const score = ".toList ++ d ++ ';' :: post ∧ d ≠ [] ∧ d.all isDigit = true

/-- The text `s` begins with a match of `totalRe` whose digits are `d`. -/
def TotalAt (s d : Str) : Prop :=
  ∃ post, s = "completed <span class=\"score\">?</span>/".toList ++ d ++ " parts".toList ++ post
    ∧ d ≠ [] ∧ d.all isDigit = true

end Score

namespace Summary

open Puzzletext

/-- Go `summary.PuzzlePointers`. -/
structure PuzzlePointers where
  PuzzleID : Int
  Part1 : Bool
  Part2 : Bool
  Part3 : Bool
deriving DecidableEq, Repr

/-- Go `summary.YearSummary`. -/
structure YearSummary where
  Year : Int
  Score : Int
  Total : Int
  Bench : List Bench.Result
  Puzzles : List PuzzlePointers
deriving DecidableEq, Repr

/-- Go `strings.Join`. -/
def Join : List Str → Str → Str
  | [], _ => []
  | [a], _ => a
  | a :: b :: rest, sep => a ++ sep ++ Join (b :: rest) sep

/-- Rendering of a Go `int` by the verb `%02d`: at least two characters, padded
on the left with a zero. -/
def fmtInt02 (i : Int) : Str :=
  if (Puzzletext.fmtInt i).length < 2 then '0' :: Puzzletext.fmtInt i else Puzzletext.fmtInt i

/-- Function `marker` of summary.go. -/
def marker (ok : Bool) : Str := if ok then "Y".toList else "-".toList

/-- Function `defaultBench` of summary.go. -/
def defaultBench (value : Str) : Str := if TrimSpace value = [] then "-".toList else value

/-- Function `formatPointerTable` of summary.go. -/
def formatPointerTable (puzzles : List PuzzlePointers) : Str :=
  if puzzles.length = 0 then []
  else
    Join (["| Puzzle | Part 1 | Part 2 | Part 3 |".toList, "| --- | --- | --- | --- |".toList]
      ++ puzzles.map (fun row =>
        "| ".toList ++ fmtInt02 row.PuzzleID ++ " | ".toList ++ marker row.Part1 ++ " | ".toList
          ++ marker row.Part2 ++ " | ".toList ++ marker row.Part3 ++ " |".toList)) "\n".toList

/-- The lines `formatSummary` joins; `badges` is the value of
`formatBadges(summary)` and `otherYears` the value of
`formatOtherYears(summary)`, which read the repository and the network. -/
def summaryLines (summary : YearSummary) (badges otherYears : Str) : List Str :=
  (if badges ≠ [] then [badges, []] else [])
    ++ ["# Flip Flop".toList, [], "## Year : ".toList ++ Puzzletext.fmtInt summary.Year, [],
        "### Pointers".toList, []]
    ++ ["Pointers (".toList ++ Puzzletext.fmtInt summary.Year ++ "): ".toList
        ++ Puzzletext.fmtInt summary.Score ++ "/".toList ++ Puzzletext.fmtInt summary.Total]
    ++ (if formatPointerTable summary.Puzzles ≠ [] then [[], formatPointerTable summary.Puzzles]
        else [])
    ++ [[], "### Benchmarks".toList, []]
    ++ (if summary.Bench.length = 0 then ["No benchmarks yet.".toList]
        else
          ["| Puzzle | Part 1 | Part 2 | Part 3 |".toList, "| --- | --- | --- | --- |".toList]
            ++ summary.Bench.map (fun row =>
              "| ".toList ++ fmtInt02 row.PuzzleID ++ " | ".toList ++ defaultBench row.Part1
                ++ " | ".toList ++ defaultBench row.Part2 ++ " | ".toList
                ++ defaultBench row.Part3 ++ " |".toList))
    ++ (if otherYears ≠ [] then [[], otherYears] else [])

/-- Function `formatSummary` of summary.go. -/
def formatSummary (summary : YearSummary) (badges otherYears : Str) : Str :=
  Join (summaryLines summary badges otherYears) "\n".toList

/-- The row `collectPointers` builds for a puzzle from the list of its
available parts: the loop with the `switch part`. -/
def pointersRow (puzzleID : Int) (parts : List Int) : PuzzlePointers :=
  parts.foldl
    (fun row part =>
      if part = 1 then { row with Part1 := true }
      else if part = 2 then { row with Part2 := true }
      else if part = 3 then { row with Part3 := true }
      else row)
    { PuzzleID := puzzleID, Part1 := false, Part2 := false, Part3 := false }

/-- Errors of `Build`: an error of `score.Fetch`, of `bench.Collect`, of the
listing of the year directory by `collectPointers`, or of
`puzzletext.AvailableParts`. -/
inductive BuildError where
  | score (e : Score.FetchError)
  | bench (e : Bench.BenchError)
  | list
  | parts
deriving DecidableEq, Repr

/-- The loop over the entries in `collectPointers`; `available puzzleID` is the
result of `puzzletext.AvailableParts` for the puzzle, `none` when it fails. -/
def pointersLoop (available : Int → Option (List Int)) :
    List Bench.dirEntry → List PuzzlePointers → Except BuildError (List PuzzlePointers)
  | [], puzzles => .ok puzzles
  | entry :: rest, puzzles =>
    if !entry.isDir || !HasPrefix entry.name "puzzle".toList then
      pointersLoop available rest puzzles
    else
      match Atoi (TrimPrefix entry.name "puzzle".toList) with
      | none => pointersLoop available rest puzzles
      | some puzzleID =>
        match available puzzleID with
        | none => .error .parts
        | some parts => pointersLoop available rest (puzzles ++ [pointersRow puzzleID parts])

/-- Function `collectPointers` of summary.go; `sortSlice` is the library function
`sort.Slice`, which is called on the rows with the comparison
`puzzles[i].PuzzleID < puzzles[j].PuzzleID`. -/
def collectPointers (sortSlice : (α : Type) → (α → α → Bool) → List α → List α)
    (listing : Option (List Bench.dirEntry)) (available : Int → Option (List Int)) :
    Except BuildError (List PuzzlePointers) :=
  match listing with
  | none => .error .list
  | some entries =>
    match pointersLoop available entries [] with
    | .error e => .error e
    | .ok puzzles =>
      .ok (sortSlice PuzzlePointers (fun a b => decide (a.PuzzleID < b.PuzzleID)) puzzles)

/-- Function `Build` of summary.go. Inputs: the year page `score.Fetch` reads,
the listing of the year directory (the same for the two calls of `os.ReadDir`),
the outcome of the benchmark command per directory, the available parts per
puzzle, and the library function `sort.Slice` of the three sorts. -/
def Build (year : Int) (page : Score.YearPage)
    (sortSlice : (α : Type) → (α → α → Bool) → List α → List α)
    (listing : Option (List Bench.dirEntry)) (run : Str → Bench.CmdOutput)
    (available : Int → Option (List Int)) : Except BuildError YearSummary :=
  match Score.Fetch year page with
  | .error e => .error (.score e)
  | .ok (scoreValue, total) =>
    match Bench.Collect sortSlice listing run with
    | .error e => .error (.bench e)
    | .ok benchResults =>
      match collectPointers sortSlice listing available with
      | .error e => .error e
      | .ok puzzles =>
        .ok { Year := year, Score := scoreValue, Total := total, Bench := benchResults,
              Puzzles := puzzles }

/-- The end of the pattern `repoSlugRe`, `([^/]+)/([^/.]+)`, matched at the
beginning of `s`: capture groups 1 and 2. Group 1 must be followed by `/`, which
is outside its class, so it takes the whole run of characters other than `/`;
group 2 ends the pattern and takes the longest run of its class. -/
def slugTail (s : Str) : Option (Str × Str) :=
  let owner := s.takeWhile (fun c => decide (c ≠ '/'))
  match s.dropWhile (fun c => decide (c ≠ '/')) with
  | [] => none
  | _ :: r =>
    let repo := r.takeWhile (fun c => decide (c ≠ '/' ∧ c ≠ '.'))
    if owner ≠ [] ∧ repo ≠ [] then some (owner, repo) else none

/-- The repetition `[:/]+` of `repoSlugRe` followed by the end of the pattern,
with `n` the number of characters the repetition may still take: it first takes
the `n` characters and gives them back one at a time while the rest of the
pattern fails to match. -/
def slugSeps (s : Str) : Nat → Option (Str × Str)
  | 0 => none
  | n + 1 =>
    match slugTail (s.drop (n + 1)) with
    | some m => some m
    | none => slugSeps s n

/-- Pattern `repoSlugRe` of summary.go (and of workflow/main.go),
`github\\.com[:/]+([^/]+)/([^/.]+)` in a raw string literal, matched at the
beginning of `s`: the text `github`, a backslash (the pattern `\\`), any
character other than a newline (the pattern `.`), the text `com`, one or more
of `:` and `/`, then the two capture groups around a `/`. -/
def repoSlugReAt (s : Str) : Option (Str × Str) :=
  if ("github".toList ++ [Char.ofNat 92]).isPrefixOf s then
    match s.drop 7 with
    | [] => none
    | c :: r =>
      if c ≠ '\n' ∧ "com".toList.isPrefixOf r then
        slugSeps (r.drop 3) ((r.drop 3).takeWhile (fun c => decide (c = ':' ∨ c = '/'))).length
      else none
  else none

/-- Result of `repoSlugRe.FindStringSubmatch(url)`: capture groups 1 and 2 of
the leftmost match, `none` when there is no match. -/
def repoSlugRe (url : Str) : Option (Str × Str) := Score.findFirst repoSlugReAt url

/-- Function `parseRepoSlug` of summary.go. -/
def parseRepoSlug (url : Str) : Str :=
  if url = [] then []
  else
    match repoSlugRe url with
    | none => []
    | some (owner, repo) => owner ++ "/".toList ++ repo

end Summary

namespace Workflow

open Puzzletext

/-- Loop over `n.Attr` in `collectParts` of workflow/main.go: a part number is
stored only when `part > 0` ("part-0 is prologue, skip it"). -/
def collectAttrs (attrs : List Attribute) (parts : List Int) : List Int :=
  attrs.foldl (fun parts attr =>
    if attr.Key = "id".toList ∧ HasPrefix attr.Val "part-".toList then
      match Atoi (TrimPrefix attr.Val "part-".toList) with
      | some part => if part > 0 then mapSet parts part else parts
      | none => parts
    else parts) parts

mutual
/-- Function `collectParts` of workflow/main.go; the map is threaded through. -/
def collectParts : Node → List Int → List Int
  | .mk type Data Attr children, parts =>
    collectPartsChildren children
      (if type = .ElementNode ∧ Data = "h3".toList then collectAttrs Attr parts else parts)
/-- Loop over the children in `collectParts` of workflow/main.go. -/
def collectPartsChildren : List Node → List Int → List Int
  | [], parts => parts
  | child :: rest, parts => collectPartsChildren rest (collectParts child parts)
end

/-- Function `extractAvailableParts` of workflow/main.go: the keys of the map,
sorted by `sort.Ints`. -/
def extractAvailableParts (n : Node) : List Int :=
  (collectParts n []).insertionSort (· ≤ ·)

/-- The row `collectPointers` of workflow/main.go builds for a puzzle from the
list of its available parts (the loop with the `switch part`); the struct
`PuzzlePointers` of the workflow has the fields of `summary.PuzzlePointers`. -/
def pointersRow (puzzleID : Int) (parts : List Int) : Summary.PuzzlePointers :=
  parts.foldl
    (fun row part =>
      if part = 1 then { row with Part1 := true }
      else if part = 2 then { row with Part2 := true }
      else if part = 3 then { row with Part3 := true }
      else row)
    { PuzzleID := puzzleID, Part1 := false, Part2 := false, Part3 := false }

end Workflow

namespace Filepath

open Puzzletext

/-- The elements of a path: the texts between its separators `/`. -/
def splitSlash : Str → List Str
  | [] => [[]]
  | c :: cs =>
    if c = '/' then [] :: splitSlash cs
    else
      match splitSlash cs with
      | [] => [[c]]
      | e :: es => (c :: e) :: es

/-- The treatment of one element by `filepath.Clean`; `out` holds the elements
kept so far, the last one first. An empty element and `.` are dropped; `..`
removes the element before it, is dropped at the root of a rooted path, and is
kept at the beginning of a path that is not rooted. -/
def cleanStep (rooted : Bool) (out : List Str) (e : Str) : List Str :=
  if e = [] ∨ e = ".".toList then out
  else if e = "..".toList then
    match out with
    | [] => if rooted then out else e :: out
    | top :: rest => if top = "..".toList then e :: out else rest
  else e :: out

/-- The path made of the elements `out` (the last one first), separated by `/`,
after a leading `/` when it is rooted; the path without elements is `/` when it
is rooted and `.` otherwise. -/
def pathOf (rooted : Bool) : List Str → Str
  | [] => if rooted then "/".toList else ".".toList
  | [a] => if rooted then '/' :: a else a
  | a :: b :: rest => pathOf rooted (b :: rest) ++ '/' :: a

/-- Go `filepath.Clean` with the separator `/`: multiple separators count as
one, `.` elements are eliminated, each inner `..` is eliminated with the element
before it, `..` elements that begin a rooted path are eliminated, and the empty
result is `.`. -/
def Clean (path : Str) : Str :=
  let rooted : Bool := decide (path.head? = some '/')
  pathOf rooted ((splitSlash path).foldl (cleanStep rooted) [])

/-- Go `filepath.Base` with the separator `/`: the last element of the path,
trailing separators removed first; `.` for the empty path and `/` for a path of
separators only. -/
def Base (path : Str) : Str :=
  if path = [] then ".".toList
  else
    let stripped := (path.reverse.dropWhile (fun c => decide (c = '/'))).reverse
    let last := (stripped.reverse.takeWhile (fun c => decide (c ≠ '/'))).reverse
    if last = [] then "/".toList else last

/-- Go `filepath.Dir` with the separator `/`: `Clean` of the path up to and
including its last separator. -/
def Dir (path : Str) : Str :=
  Clean (path.reverse.dropWhile (fun c => decide (c ≠ '/'))).reverse

/-- Go `filepath.Join` with the separator `/`: the elements from the first
non-empty one on, joined by `/` and cleaned; the empty string when all are
empty. -/
def Join (elem : List Str) : Str :=
  match elem.dropWhile (fun e => decide (e = [])) with
  | [] => []
  | e :: es => Clean (Summary.Join (e :: es) "/".toList)

/-- An element of a clean path: not empty, without separator, and not `.`. -/
def IsElem (e : Str) : Prop := e ≠ [] ∧ '/' ∉ e ∧ e ≠ ".".toList

/-- Clean form of the elements of a path (the last one first): every element is
not empty, holds no separator and is not `.`; a rooted path has no element `..`;
and below an element `..` there are only elements `..`. -/
def CleanForm (rooted : Bool) (st : List Str) : Prop :=
  (∀ e ∈ st, IsElem e) ∧ (rooted = true → "..".toList ∉ st)
    ∧ st.Chain' (fun top below => top = "..".toList → below = "..".toList)

end Filepath

namespace Puzzle

open Puzzletext

/-- Pattern `yearRe` of `InferFromDir`, `^[0-9]{4}$`, applied by `MatchString`. -/
def yearRe (s : Str) : Bool := decide (s.length = 4) && s.all isDigit

/-- Pattern `puzzleRe` of `InferFromDir`, `^puzzle([0-9]{2})$`, applied by
`FindStringSubmatch`: capture group 1, or `none` when there is no match. -/
def puzzleRe (s : Str) : Option Str :=
  if HasPrefix s "puzzle".toList ∧ (s.drop 6).length = 2 ∧ (s.drop 6).all isDigit = true then
    some (s.drop 6)
  else none

/-- Function `Dir` of puzzle.go; `root` is the path `config.RepoRoot()`
returned. -/
def Dir (root : Str) (year day : Int) : Str :=
  Filepath.Join [root, fmtInt year, "puzzle".toList ++ Summary.fmtInt02 day]

/-- Errors returned by `InferFromDir`: "invalid year: ...", "invalid puzzle id:
..." and "could not infer puzzle id from current directory". -/
inductive InferError where
  | invalidYear
  | invalidPuzzle
  | notFound
deriving DecidableEq, Repr

/-- The test of one directory in the loop of `InferFromDir` (lines 169 to 184):
the value the function returns from there, or `none` when the loop goes on. -/
def inferStep (dir : Str) : Option (Except InferError (Int × Int)) :=
  match puzzleRe (Filepath.Base dir) with
  | none => none
  | some day =>
    let parent := Filepath.Base (Filepath.Dir dir)
    if yearRe parent then
      match Atoi parent with
      | none => some (.error .invalidYear)
      | some year =>
        match Atoi day with
        | none => some (.error .invalidPuzzle)
        | some day => some (.ok (year, day))
    else none

/-- The loop of `InferFromDir` with at most `fuel` iterations; `none` when the
iterations do not suffice. -/
def inferLoop : Nat → Str → Option (Except InferError (Int × Int))
  | 0, _ => none
  | fuel + 1, dir =>
    match inferStep dir with
    | some r => some r
    | none =>
      if Filepath.Dir dir = dir then some (.error .notFound)
      else inferLoop fuel (Filepath.Dir dir)

/-- Function `InferFromDir` of puzzle.go. The loop is given two iterations more
than the path has characters, which always suffice (`inferFromDir_returns`). -/
def InferFromDir (path : Str) : Option (Except InferError (Int × Int)) :=
  inferLoop (path.length + 2) (Filepath.Clean path)

/-- The directory reached from `path` by going down through the directories
`names`, in this order. -/
def subPath (path : Str) (names : List Str) : Str :=
  names.foldl (fun p name => p ++ '/' :: name) path

/-- The name of an ordinary directory: not empty, without separator, and neither
`.` nor `..`. -/
def IsName (e : Str) : Prop :=
  e ≠ [] ∧ '/' ∉ e ∧ e ≠ ".".toList ∧ e ≠ "..".toList

instance (e : Str) : Decidable (IsName e) := by
  unfold IsName
  infer_instance

end Puzzle

namespace Summary

theorem ascii_nl : ascii "\n" = [10] := rfl

theorem ascii_nlnl : ascii "\n\n" = [10, 10] := rfl

theorem firstOcc_nil (sep : Bytes) (i : Nat) : FirstOcc sep [] i ↔ sep = [] ∧ i = 0 := by
  unfold FirstOcc
  constructor
  · rintro ⟨h1, h2⟩
    have hs : sep = [] := by simpa using h1
    refine ⟨hs, ?_⟩
    by_contra hi
    exact h2 0 (Nat.pos_of_ne_zero hi) (by simp [hs])
  · rintro ⟨rfl, rfl⟩
    simp

theorem firstOcc_zero (sep l : Bytes) : FirstOcc sep l 0 ↔ sep <+: l := by
  simp [FirstOcc]

theorem firstOcc_succ (sep : Bytes) (x : Nat) (xs : Bytes) (k : Nat) :
    FirstOcc sep (x :: xs) (k + 1) ↔ ¬ sep <+: x :: xs ∧ FirstOcc sep xs k := by
  unfold FirstOcc
  constructor
  · rintro ⟨h1, h2⟩
    refine ⟨by simpa using h2 0 (Nat.succ_pos k), by simpa using h1, ?_⟩
    intro j hj
    simpa using h2 (j + 1) (by omega)
  · rintro ⟨h0, h1, h2⟩
    refine ⟨by simpa using h1, ?_⟩
    intro j hj
    cases j with
    | zero => simpa using h0
    | succ j => simpa using h2 j (by omega)

/-- The search of `bytes.Index` returns the first occurrence. -/
theorem index?_eq_some_iff (sep : Bytes) :
    ∀ (l : Bytes) (i : Nat), index? sep l = some i ↔ FirstOcc sep l i := by
  intro l
  induction l with
  | nil =>
    intro i
    rw [firstOcc_nil]
    by_cases hs : sep = []
    · simp [index?, hs, eq_comm]
    · simp [index?, hs]
  | cons x xs ih =>
    intro i
    by_cases hp : sep <+: x :: xs
    · have hb : sep.isPrefixOf (x :: xs) = true := List.isPrefixOf_iff_prefix.mpr hp
      cases i with
      | zero => simp [index?, hb, firstOcc_zero, hp]
      | succ k => simp [index?, hb, firstOcc_succ, hp]
    · have hb : sep.isPrefixOf (x :: xs) = false := by
        rw [Bool.eq_false_iff]
        intro h
        exact hp (List.isPrefixOf_iff_prefix.mp h)
      cases i with
      | zero => simp [index?, hb, firstOcc_zero, hp]
      | succ k => simp [index?, hb, firstOcc_succ, hp, ih]

theorem index?_eq_none_iff (sep : Bytes) :
    ∀ l : Bytes, index? sep l = none ↔ ∀ j, ¬ sep <+: l.drop j := by
  intro l
  induction l with
  | nil =>
    by_cases hs : sep = []
    · simp [index?, hs]
    · simp [index?, hs]
  | cons x xs ih =>
    by_cases hp : sep <+: x :: xs
    · have hb : sep.isPrefixOf (x :: xs) = true := List.isPrefixOf_iff_prefix.mpr hp
      simp only [index?, hb, if_true]
      constructor
      · intro h
        cases h
      · intro h
        exact absurd hp (by simpa using h 0)
    · have hb : sep.isPrefixOf (x :: xs) = false := by
        rw [Bool.eq_false_iff]
        intro h
        exact hp (List.isPrefixOf_iff_prefix.mp h)
      have hstep : index? sep (x :: xs) = (index? sep xs).map (· + 1) := by
        simp [index?, hb]
      rw [hstep, Option.map_eq_none', ih]
      constructor
      · intro h j
        cases j with
        | zero => simpa using hp
        | succ j => simpa using h j
      · intro h j
        simpa using h (j + 1)

theorem noOcc_nil (sep B : Bytes) : NoOcc sep [] B := by
  intro j hj
  simp at hj

theorem noOcc_cons {sep A B : Bytes} {a : Nat} (h0 : ¬ sep <+: a :: (A ++ B))
    (h : NoOcc sep A B) : NoOcc sep (a :: A) B := by
  intro j hj
  cases j with
  | zero => simpa using h0
  | succ j =>
    have := h j (by simpa using hj)
    simpa using this

theorem drop_append_lt {A B : Bytes} {j : Nat} (hj : j ≤ A.length) :
    (A ++ B).drop j = A.drop j ++ B := by
  rw [List.drop_append_eq_append_drop]
  have : j - A.length = 0 := by omega
  simp [this]

theorem drop_length_add (A B : Bytes) (k : Nat) : (A ++ B).drop (A.length + k) = B.drop k := by
  rw [List.drop_append_eq_append_drop]
  simp

theorem noOcc_append {sep A B X : Bytes} (hA : NoOcc sep A (B ++ X)) (hB : NoOcc sep B X) :
    NoOcc sep (A ++ B) X := by
  intro j hj
  by_cases hlt : j < A.length
  · have := hA j hlt
    simpa [List.append_assoc] using this
  · obtain ⟨k, rfl⟩ : ∃ k, j = A.length + k := ⟨j - A.length, by omega⟩
    have hk : k < B.length := by
      simp at hj
      omega
    have := hB k hk
    rw [List.append_assoc, drop_length_add]
    exact this

theorem noOcc_of_head_not_mem {h : Nat} {t A : Bytes} (B : Bytes) (hA : h ∉ A) :
    NoOcc (h :: t) A B := by
  induction A with
  | nil => exact noOcc_nil _ _
  | cons a A ih =>
    refine noOcc_cons ?_ (ih (fun hm => hA (List.mem_cons_of_mem _ hm)))
    intro hp
    rw [List.cons_prefix_cons] at hp
    exact hA (by simp [hp.1])

theorem noOcc_sentinel {sep c : Bytes} {z : Nat} (B : Bytes) (hc : ¬ sep <:+: c)
    (hz : z ∉ sep) : NoOcc sep c (z :: B) := by
  intro j hj hp
  rw [drop_append_lt (Nat.le_of_lt hj)] at hp
  by_cases hlen : sep.length ≤ (c.drop j).length
  · have h1 : sep <+: c.drop j :=
      List.prefix_of_prefix_length_le hp (List.prefix_append _ _) hlen
    exact hc (h1.isInfix.trans (List.drop_suffix j c).isInfix)
  · have h2 : c.drop j ++ [z] <+: c.drop j ++ z :: B := by
      have : c.drop j ++ z :: B = (c.drop j ++ [z]) ++ B := by simp
      rw [this]
      exact List.prefix_append _ _
    have h3 : c.drop j ++ [z] <+: sep :=
      List.prefix_of_prefix_length_le h2 hp (by simp at hlen ⊢; omega)
    exact hz (h3.subset (by simp))

theorem noOcc_transfer {sep A Z : Bytes} (Y Y' : Bytes) (hlen : sep.length ≤ Z.length)
    (h : NoOcc sep A (Z ++ Y)) : NoOcc sep A (Z ++ Y') := by
  intro j hj hp
  apply h j hj
  rw [drop_append_lt (Nat.le_of_lt hj)] at hp ⊢
  rw [← List.append_assoc] at hp ⊢
  have h1 : sep <+: A.drop j ++ Z :=
    List.prefix_of_prefix_length_le hp (List.prefix_append _ _) (by simp; omega)
  exact h1.trans (List.prefix_append _ _)

theorem firstOcc_append_of_noOcc {sep A B : Bytes} {k : Nat} (hA : NoOcc sep A B)
    (hB : FirstOcc sep B k) : FirstOcc sep (A ++ B) (A.length + k) := by
  refine ⟨by rw [drop_length_add]; exact hB.1, ?_⟩
  intro j hj
  by_cases hlt : j < A.length
  · exact hA j hlt
  · obtain ⟨i, rfl⟩ : ∃ i, j = A.length + i := ⟨j - A.length, by omega⟩
    rw [drop_length_add]
    exact hB.2 i (by omega)

theorem not_infix_iff_forall_drop (sep l : Bytes) :
    ¬ sep <:+: l ↔ ∀ j, ¬ sep <+: l.drop j := by
  constructor
  · intro h j hp
    exact h (hp.isInfix.trans (List.drop_suffix j l).isInfix)
  · intro h hin
    obtain ⟨a, b, hab⟩ := hin
    apply h a.length
    rw [← hab, List.append_assoc, List.drop_left]
    exact List.prefix_append _ _

theorem readmeStart_length : readmeStart.length = 28 := by decide

theorem readmeEnd_length : readmeEnd.length = 26 := by decide

theorem noOcc_start_of_not_mem {A : Bytes} (B : Bytes) (h : 60 ∉ A) : NoOcc readmeStart A B :=
  noOcc_of_head_not_mem (t := readmeStart.tail) B h

theorem noOcc_end_of_not_mem {A : Bytes} (B : Bytes) (h : 60 ∉ A) : NoOcc readmeEnd A B :=
  noOcc_of_head_not_mem (t := readmeEnd.tail) B h

theorem end_not_prefix_start (Y : Bytes) : ¬ readmeEnd <+: readmeStart ++ Y := by
  intro h
  have h1 : readmeEnd <+: readmeStart :=
    List.prefix_of_prefix_length_le h (List.prefix_append _ _) (by decide)
  revert h1
  decide

theorem start_not_prefix_end (Y : Bytes) : ¬ readmeStart <+: readmeEnd ++ Y := by
  intro h
  have h0 : readmeStart.take 26 <+: readmeEnd ++ Y := (List.take_prefix 26 readmeStart).trans h
  have h1 : readmeStart.take 26 <+: readmeEnd :=
    List.prefix_of_prefix_length_le h0 (List.prefix_append _ _) (by decide)
  revert h1
  decide

/-- Neither marker literal is a prefix of a list that starts with the other. -/
theorem markers_differ {l : Bytes} (hs : readmeStart <+: l) (he : readmeEnd <+: l) : False := by
  obtain ⟨t, rfl⟩ := hs
  exact end_not_prefix_start t he

theorem noOcc_end_start (Y : Bytes) : NoOcc readmeEnd readmeStart Y := by
  have h : NoOcc readmeEnd (60 :: readmeStart.tail) Y :=
    noOcc_cons (end_not_prefix_start Y) (noOcc_end_of_not_mem Y (by decide))
  exact h

theorem noOcc_start_end (Y : Bytes) : NoOcc readmeStart readmeEnd Y := by
  have h : NoOcc readmeStart (60 :: readmeEnd.tail) Y :=
    noOcc_cons (start_not_prefix_end Y) (noOcc_start_of_not_mem Y (by decide))
  exact h

theorem firstOcc_start_block {P : Bytes} (c T : Bytes) (hS : NoOcc readmeStart P (block c T)) :
    FirstOcc readmeStart (P ++ block c T) P.length := by
  have h := firstOcc_append_of_noOcc hS
    ((firstOcc_zero readmeStart (block c T)).mpr (List.prefix_append _ _))
  simpa using h

theorem firstOcc_end_block {P c : Bytes} (T : Bytes) (hE : NoOcc readmeEnd P (block c T))
    (hc : ¬ readmeEnd <:+: c) :
    FirstOcc readmeEnd (P ++ block c T) (P.length + (28 + (1 + (c.length + 1)))) := by
  have h5 : FirstOcc readmeEnd (readmeEnd ++ T) 0 :=
    (firstOcc_zero _ _).mpr (List.prefix_append _ _)
  have h4 : FirstOcc readmeEnd ([10] ++ (readmeEnd ++ T)) 1 :=
    firstOcc_append_of_noOcc (noOcc_end_of_not_mem _ (by decide)) h5
  have h3 : FirstOcc readmeEnd (c ++ ([10] ++ (readmeEnd ++ T))) (c.length + 1) :=
    firstOcc_append_of_noOcc (noOcc_sentinel _ hc (by decide)) h4
  have h2 : FirstOcc readmeEnd ([10] ++ (c ++ ([10] ++ (readmeEnd ++ T)))) (1 + (c.length + 1)) :=
    firstOcc_append_of_noOcc (noOcc_end_of_not_mem _ (by decide)) h3
  have h1 : FirstOcc readmeEnd (block c T) (28 + (1 + (c.length + 1))) := by
    have := firstOcc_append_of_noOcc (noOcc_end_start _) h2
    rw [readmeStart_length] at this
    exact this
  exact firstOcc_append_of_noOcc hE h1

theorem bytesIndex_of_firstOcc {sep d : Bytes} {i : Nat} (h : FirstOcc sep d i) :
    bytesIndex d sep = (i : Int) := by
  have := (index?_eq_some_iff sep d i).mpr h
  simp [bytesIndex, this]

theorem bytesIndex_eq_neg_one_iff (sep d : Bytes) :
    bytesIndex d sep = -1 ↔ ¬ sep <:+: d := by
  rw [not_infix_iff_forall_drop, ← index?_eq_none_iff]
  unfold bytesIndex
  cases h : index? sep d with
  | none => simp
  | some i =>
    simp only [reduceCtorEq, iff_false]

theorem exists_firstOcc_of_infix {sep d : Bytes} (h : sep <:+: d) : ∃ i, FirstOcc sep d i := by
  cases hi : index? sep d with
  | none =>
    exact absurd h ((not_infix_iff_forall_drop sep d).mpr ((index?_eq_none_iff sep d).mp hi))
  | some i => exact ⟨i, (index?_eq_some_iff sep d i).mp hi⟩

/-- The guard of line 71 fails exactly when both markers occur and the first
start marker begins before the first end marker. -/
theorem markersMissing_eq_false_iff (d : Bytes) :
    markersMissing d = false ↔
      ∃ s e, FirstOcc readmeStart d s ∧ FirstOcc readmeEnd d e ∧ s < e := by
  unfold markersMissing
  rw [decide_eq_false_iff_not]
  constructor
  · intro h
    have hs : readmeStart <:+: d := by
      by_contra hc
      exact h (Or.inl ((bytesIndex_eq_neg_one_iff _ _).mpr hc))
    have he : readmeEnd <:+: d := by
      by_contra hc
      exact h (Or.inr (Or.inl ((bytesIndex_eq_neg_one_iff _ _).mpr hc)))
    obtain ⟨s, hs⟩ := exists_firstOcc_of_infix hs
    obtain ⟨e, he⟩ := exists_firstOcc_of_infix he
    refine ⟨s, e, hs, he, ?_⟩
    rcases Nat.lt_trichotomy s e with hlt | heq | hgt
    · exact hlt
    · subst heq
      exact (markers_differ hs.1 he.1).elim
    · exfalso
      apply h
      right; right
      rw [bytesIndex_of_firstOcc hs, bytesIndex_of_firstOcc he]
      exact_mod_cast hgt
  · rintro ⟨s, e, hs, he, hlt⟩
    rw [bytesIndex_of_firstOcc hs, bytesIndex_of_firstOcc he]
    omega

theorem updateReadme_replace {d : Bytes} {s e : Nat} (y : Int) (c : Bytes)
    (hs : FirstOcc readmeStart d s) (he : FirstOcc readmeEnd d e) (hlt : s < e) :
    UpdateReadme (.data d) true y c = .ok (d.take s ++ block c (d.drop (e + 26))) := by
  have hm : markersMissing d = false := (markersMissing_eq_false_iff d).mpr ⟨s, e, hs, he, hlt⟩
  simp [UpdateReadme, hm, WriteFile, bytesIndex_of_firstOcc hs, bytesIndex_of_firstOcc he,
    block, ascii_nl, readmeEnd_length]

theorem updateReadme_append {d : Bytes} (y : Int) (c : Bytes) (hm : markersMissing d = true) :
    UpdateReadme (.data d) true y c = .ok (TrimRight d 10 ++ [10, 10] ++ block c [10]) := by
  simp [UpdateReadme, hm, WriteFile, appendMissingBlock, block, ascii_nl, ascii_nlnl]

theorem updateReadme_create (y : Int) (c : Bytes) :
    UpdateReadme .notExist true y c
      = .ok (ascii "# FlipFlop " ++ fmtInt y ++ [10, 10] ++ block c [10]) := by
  simp [UpdateReadme, writeNewReadme, WriteFile, block, ascii_nl, ascii_nlnl]

theorem noOcc_take {sep d : Bytes} {s : Nat} (Y : Bytes) (hs : FirstOcc readmeStart d s)
    (hsep : ∀ j < s, ¬ sep <+: d.drop j) (hlen : sep.length ≤ readmeStart.length) :
    NoOcc sep (d.take s) (readmeStart ++ Y) := by
  obtain ⟨t, ht⟩ := hs.1
  apply noOcc_transfer t Y hlen
  intro j hj
  have hd : d.take s ++ (readmeStart ++ t) = d := by
    rw [ht, List.take_append_drop]
  rw [hd]
  exact hsep j (lt_of_lt_of_le hj (by simp))

theorem firstOcc_lt_length {sep d : Bytes} {i : Nat} (h : FirstOcc sep d i) (hne : sep ≠ []) :
    i < d.length := by
  by_contra hge
  have : d.drop i = [] := List.drop_eq_nil_of_le (by omega)
  have h1 := h.1
  rw [this, List.prefix_nil] at h1
  exact hne h1

theorem take_drop_block (P c T : Bytes) :
    ((P ++ block c T).take (P.length + (28 + (1 + (c.length + 1))))).drop (P.length + 28)
      = 10 :: (c ++ [10]) := by
  have h1 : P ++ block c T = (P ++ readmeStart) ++ ((10 :: (c ++ [10])) ++ (readmeEnd ++ T)) := by
    simp [block]
  have h2 : P.length + (28 + (1 + (c.length + 1)))
      = (P ++ readmeStart).length + (10 :: (c ++ [10])).length := by
    simp [readmeStart_length]
    omega
  have h3 : P.length + 28 = (P ++ readmeStart).length := by
    simp [readmeStart_length]
  rw [h1, h2, h3, List.take_append, List.take_left, List.drop_left]

theorem scanRegion_block {P c : Bytes} (T : Bytes) (hS : NoOcc readmeStart P (block c T))
    (hE : NoOcc readmeEnd P (block c T)) (hc : ¬ readmeEnd <:+: c) :
    scanRegion (P ++ block c T) = some c := by
  have h1 := firstOcc_start_block c T hS
  have h2 := firstOcc_end_block T hE hc
  have hm : markersMissing (P ++ block c T) = false :=
    (markersMissing_eq_false_iff _).mpr ⟨_, _, h1, h2, by omega⟩
  unfold scanRegion
  rw [hm, bytesIndex_of_firstOcc h1, bytesIndex_of_firstOcc h2]
  simp only [Bool.false_eq_true, if_false, Int.toNat_ofNat, readmeStart_length]
  rw [take_drop_block]
  have hl : (10 :: (c ++ [10])).getLast? = some 10 := by
    have : (10 :: (c ++ [10])) = (10 :: c) ++ [10] := by simp
    rw [this, List.getLast?_append]
    rfl
  simp [hl]

/-- A document that already ends its first region with the content `c` is left
unchanged by a patch with `c`. -/
theorem updateReadme_block_fixed {P c : Bytes} (T : Bytes) (y : Int)
    (hS : NoOcc readmeStart P (block c T)) (hE : NoOcc readmeEnd P (block c T))
    (hc : ¬ readmeEnd <:+: c) :
    UpdateReadme (.data (P ++ block c T)) true y c = .ok (P ++ block c T) := by
  have h1 := firstOcc_start_block c T hS
  have h2 := firstOcc_end_block T hE hc
  rw [updateReadme_replace y c h1 h2 (by omega)]
  congr 2
  · simp
  · congr 1
    have h3 : P ++ block c T
        = (P ++ (readmeStart ++ (10 :: (c ++ [10])) ++ readmeEnd)) ++ T := by
      simp [block]
    have h4 : P.length + (28 + (1 + (c.length + 1))) + 26
        = (P ++ (readmeStart ++ (10 :: (c ++ [10])) ++ readmeEnd)).length := by
      simp [readmeStart_length, readmeEnd_length]
      omega
    rw [h3, h4, List.drop_left]

theorem digitsAux_mem (fuel : Nat) :
    ∀ (n : Nat) (acc : Bytes) (x : Nat), x ∈ digitsAux fuel n acc → x ∈ acc ∨ (48 ≤ x ∧ x ≤ 57) := by
  induction fuel with
  | zero =>
    intro n acc x hx
    exact Or.inl hx
  | succ fuel ih =>
    intro n acc x hx
    unfold digitsAux at hx
    split at hx
    · rcases List.mem_cons.mp hx with h | h
      · right; omega
      · exact Or.inl h
    · rcases ih _ _ _ hx with h | h
      · rcases List.mem_cons.mp h with h | h
        · right; omega
        · exact Or.inl h
      · exact Or.inr h

theorem lt_not_mem_fmtInt (y : Int) : 60 ∉ fmtInt y := by
  intro h
  cases y with
  | ofNat n =>
    rcases digitsAux_mem _ _ _ _ h with h | h
    · simp at h
    · omega
  | negSucc n =>
    rcases List.mem_cons.mp h with h | h
    · omega
    · rcases digitsAux_mem _ _ _ _ h with h | h
      · simp at h
      · omega

theorem lt_not_mem_header (y : Int) : 60 ∉ ascii "# FlipFlop " ++ fmtInt y ++ [10, 10] := by
  intro h
  rcases List.mem_append.mp h with h | h
  · rcases List.mem_append.mp h with h | h
    · revert h
      decide
    · exact lt_not_mem_fmtInt y h
  · revert h
    decide

theorem trimRight_pre (d : Bytes) (b : Nat) : TrimRight d b <+: d := by
  unfold TrimRight
  have h := List.dropWhile_suffix (fun x => x == b) (l := d.reverse)
  have h2 := List.reverse_prefix.mpr h
  simpa using h2

theorem noOcc_trim {sep d : Bytes} (B : Bytes) (h : ¬ sep <:+: d) (h60 : sep.head? = some 60)
    (h10 : 10 ∉ sep) : NoOcc sep (TrimRight d 10 ++ [10, 10]) B := by
  have ht : ¬ sep <:+: TrimRight d 10 := fun hin => h (hin.trans (trimRight_pre d 10).isInfix)
  apply noOcc_append
  · exact noOcc_sentinel _ ht h10
  · cases sep with
    | nil => simp at h60
    | cons a t =>
      simp at h60
      subst h60
      exact noOcc_of_head_not_mem B (by decide)

/-- C1 (amended): replace branch of `UpdateReadme`. For every document `d` whose
first start marker is at `s` and whose first end marker is at `e` with `s < e`,
and every content `c`, the written document is
`d[0..s) ++ START ++ "\n" ++ c ++ "\n" ++ END ++ d[e+len(END)..)`; the bytes before
the start marker and after the end marker are those of `d`; and, when `c` does
not contain the end marker, scanning the result for the region yields exactly
`c`. -/
theorem C1_replace_branch (d c : Bytes) (s e : Nat) (y : Int)
    (hs : FirstOcc readmeStart d s) (he : FirstOcc readmeEnd d e) (hlt : s < e) :
    ∃ w, UpdateReadme (.data d) true y c = .ok w
      ∧ w = d.take s ++ readmeStart ++ ascii "\n" ++ c ++ ascii "\n" ++ readmeEnd
              ++ d.drop (e + readmeEnd.length)
      ∧ w.take s = d.take s
      ∧ w.drop (s + readmeStart.length + 1 + c.length + 1 + readmeEnd.length)
          = d.drop (e + readmeEnd.length)
      ∧ (¬ readmeEnd <:+: c → scanRegion w = some c) := by
  have hsl : s < d.length := firstOcc_lt_length hs (by decide)
  have hlen : (d.take s).length = s := by
    rw [List.length_take]
    omega
  refine ⟨_, updateReadme_replace y c hs he hlt, ?_, ?_, ?_, ?_⟩
  · simp [block, ascii_nl, readmeEnd_length]
  · rw [List.take_append_of_le_length (by omega), List.take_take]
    simp
  · have h3 : d.take s ++ block c (d.drop (e + 26))
        = (d.take s ++ (readmeStart ++ (10 :: (c ++ [10])) ++ readmeEnd)) ++ d.drop (e + 26) := by
      simp [block]
    have h4 : s + readmeStart.length + 1 + c.length + 1 + readmeEnd.length
        = (d.take s ++ (readmeStart ++ (10 :: (c ++ [10])) ++ readmeEnd)).length := by
      simp [readmeStart_length, readmeEnd_length, hlen]
      omega
    rw [h3, h4, List.drop_left, readmeEnd_length]
  · intro hc
    have hS : NoOcc readmeStart (d.take s) (block c (d.drop (e + 26))) :=
      noOcc_take _ hs hs.2 (le_refl _)
    have hE : NoOcc readmeEnd (d.take s) (block c (d.drop (e + 26))) :=
      noOcc_take _ hs (fun j hj => he.2 j (by omega)) (by decide)
    exact scanRegion_block _ hS hE hc

/-- Witness of `C1_replace_branch`: the document `a START \n old \n END z`
patched with `new`. -/
theorem C1_replace_branch_witness :
    FirstOcc readmeStart
        (ascii "a<!-- GOFF:POINTERS:START -->\nold\n<!-- GOFF:POINTERS:END -->z") 1
      ∧ FirstOcc readmeEnd
        (ascii "a<!-- GOFF:POINTERS:START -->\nold\n<!-- GOFF:POINTERS:END -->z") 34
      ∧ ¬ readmeEnd <:+: ascii "new"
      ∧ ∃ w, UpdateReadme
            (.data (ascii "a<!-- GOFF:POINTERS:START -->\nold\n<!-- GOFF:POINTERS:END -->z"))
            true 2025 (ascii "new") = .ok w
          ∧ w = ascii "a<!-- GOFF:POINTERS:START -->\nnew\n<!-- GOFF:POINTERS:END -->z"
          ∧ scanRegion w = some (ascii "new") :=
  ⟨by decide, by decide, by decide,
    (C1_replace_branch (ascii "a<!-- GOFF:POINTERS:START -->\nold\n<!-- GOFF:POINTERS:END -->z")
      (ascii "new") 1 34 2025 (by decide) (by decide) (by decide)).imp
      (fun _ h => ⟨h.1, h.2.1.trans (by decide), h.2.2.2.2 (by decide)⟩)⟩

/-- C1 as stated fails for a content that contains the end marker: the document
`START END` patched with a content of three lines, the second being the end
marker, is written as stated, but scanning the result for the region yields the
first line only. -/
theorem C1_counterexample :
    FirstOcc readmeStart (ascii "<!-- GOFF:POINTERS:START --><!-- GOFF:POINTERS:END -->") 0
      ∧ FirstOcc readmeEnd (ascii "<!-- GOFF:POINTERS:START --><!-- GOFF:POINTERS:END -->") 28
      ∧ UpdateReadme (.data (ascii "<!-- GOFF:POINTERS:START --><!-- GOFF:POINTERS:END -->"))
          true 2025 (ascii "a\n<!-- GOFF:POINTERS:END -->\nb")
        = .ok (ascii ("<!-- GOFF:POINTERS:START -->\na\n<!-- GOFF:POINTERS:END -->\nb\n"
            ++ "<!-- GOFF:POINTERS:END -->"))
      ∧ scanRegion (ascii ("<!-- GOFF:POINTERS:START -->\na\n<!-- GOFF:POINTERS:END -->\nb\n"
            ++ "<!-- GOFF:POINTERS:END -->")) = some (ascii "a")
      ∧ scanRegion (ascii ("<!-- GOFF:POINTERS:START -->\na\n<!-- GOFF:POINTERS:END -->\nb\n"
            ++ "<!-- GOFF:POINTERS:END -->"))
          ≠ some (ascii "a\n<!-- GOFF:POINTERS:END -->\nb") :=
  ⟨by decide, by decide, by rfl, by decide, by decide⟩

/-- C2 (amended): the patcher is idempotent when the document is absent, or
holds neither marker, or holds both with the first start marker before the first
end marker, and the content does not contain the end marker: the patch succeeds
and patching its result again with the same content writes the same bytes. -/
theorem C2_idempotent (f : ReadFile) (y : Int) (c : Bytes)
    (hf : f = .notExist ∨ ∃ d, f = .data d ∧
      ((¬ readmeStart <:+: d ∧ ¬ readmeEnd <:+: d) ∨ markersMissing d = false))
    (hc : ¬ readmeEnd <:+: c) :
    ∃ w, UpdateReadme f true y c = .ok w ∧ UpdateReadme (.data w) true y c = .ok w := by
  rcases hf with rfl | ⟨d, rfl, hd | hd⟩
  · refine ⟨_, updateReadme_create y c, ?_⟩
    exact updateReadme_block_fixed _ y (noOcc_start_of_not_mem _ (lt_not_mem_header y))
      (noOcc_end_of_not_mem _ (lt_not_mem_header y)) hc
  · have hm : markersMissing d = true := by
      unfold markersMissing
      rw [decide_eq_true_iff]
      exact Or.inl ((bytesIndex_eq_neg_one_iff _ _).mpr hd.1)
    refine ⟨_, updateReadme_append y c hm, ?_⟩
    exact updateReadme_block_fixed _ y (noOcc_trim _ hd.1 (by decide) (by decide))
      (noOcc_trim _ hd.2 (by decide) (by decide)) hc
  · obtain ⟨s, e, hs, he, hlt⟩ := (markersMissing_eq_false_iff d).mp hd
    refine ⟨_, updateReadme_replace y c hs he hlt, ?_⟩
    exact updateReadme_block_fixed _ y (noOcc_take _ hs hs.2 (le_refl _))
      (noOcc_take _ hs (fun j hj => he.2 j (by omega)) (by decide)) hc

/-- Witness of `C2_idempotent`: a document with a region in the middle of
hand-written text, patched twice with `new`. -/
theorem C2_idempotent_witness :
    markersMissing (ascii "intro\n<!-- GOFF:POINTERS:START -->\nold\n<!-- GOFF:POINTERS:END -->\nend\n")
        = false
      ∧ ¬ readmeEnd <:+: ascii "new"
      ∧ ∃ w, UpdateReadme
            (.data (ascii "intro\n<!-- GOFF:POINTERS:START -->\nold\n<!-- GOFF:POINTERS:END -->\nend\n"))
            true 2025 (ascii "new") = .ok w
          ∧ UpdateReadme (.data w) true 2025 (ascii "new") = .ok w :=
  ⟨by decide, by decide,
    C2_idempotent _ 2025 (ascii "new") (Or.inr ⟨_, rfl, Or.inr (by decide)⟩) (by decide)⟩

/-- C2 as stated fails on a document with malformed markers: a document that
holds only the end marker gets a region appended by the first patch, and the
second patch with the same content appends a second region. -/
theorem C2_counterexample :
    UpdateReadme (.data (ascii "notes\n<!-- GOFF:POINTERS:END -->\n")) true 2025 (ascii "x")
        = .ok (ascii ("notes\n<!-- GOFF:POINTERS:END -->\n\n"
            ++ "<!-- GOFF:POINTERS:START -->\nx\n<!-- GOFF:POINTERS:END -->\n"))
      ∧ UpdateReadme (.data (ascii ("notes\n<!-- GOFF:POINTERS:END -->\n\n"
            ++ "<!-- GOFF:POINTERS:START -->\nx\n<!-- GOFF:POINTERS:END -->\n"))) true 2025
          (ascii "x")
        = .ok (ascii ("notes\n<!-- GOFF:POINTERS:END -->\n\n"
            ++ "<!-- GOFF:POINTERS:START -->\nx\n<!-- GOFF:POINTERS:END -->\n\n"
            ++ "<!-- GOFF:POINTERS:START -->\nx\n<!-- GOFF:POINTERS:END -->\n"))
      ∧ ascii ("notes\n<!-- GOFF:POINTERS:END -->\n\n"
            ++ "<!-- GOFF:POINTERS:START -->\nx\n<!-- GOFF:POINTERS:END -->\n\n"
            ++ "<!-- GOFF:POINTERS:START -->\nx\n<!-- GOFF:POINTERS:END -->\n")
          ≠ ascii ("notes\n<!-- GOFF:POINTERS:END -->\n\n"
            ++ "<!-- GOFF:POINTERS:START -->\nx\n<!-- GOFF:POINTERS:END -->\n") :=
  ⟨by rfl, by rfl, by decide⟩

theorem occ_unique_append {sep A B : Bytes} {k0 : Nat} (hA : NoOcc sep A B)
    (hB : ∀ k, sep <+: B.drop k ↔ k = k0) :
    ∀ j, sep <+: (A ++ B).drop j ↔ j = A.length + k0 := by
  intro j
  by_cases hlt : j < A.length
  · constructor
    · intro h
      exact absurd h (hA j hlt)
    · intro h
      omega
  · obtain ⟨k, rfl⟩ : ∃ k, j = A.length + k := ⟨j - A.length, by omega⟩
    rw [drop_length_add, hB k]
    omega

theorem occ_none_append {sep A B : Bytes} (hA : NoOcc sep A B)
    (hB : ∀ k, ¬ sep <+: B.drop k) : ∀ j, ¬ sep <+: (A ++ B).drop j := by
  intro j
  by_cases hlt : j < A.length
  · exact hA j hlt
  · obtain ⟨k, rfl⟩ : ∃ k, j = A.length + k := ⟨j - A.length, by omega⟩
    rw [drop_length_add]
    exact hB k

theorem occ_marker_head {h : Nat} {t : Bytes} (B : Bytes) (ht : h ∉ t)
    (hB : ∀ k, ¬ (h :: t) <+: B.drop k) :
    ∀ k, (h :: t) <+: ((h :: t) ++ B).drop k ↔ k = 0 := by
  intro k
  cases k with
  | zero =>
    simp only [List.drop_zero, iff_true]
    exact List.prefix_append _ _
  | succ k =>
    have := occ_none_append (noOcc_of_head_not_mem (t := t) B ht) hB k
    simpa using this

theorem occ_start_self (B : Bytes) (hB : ∀ k, ¬ readmeStart <+: B.drop k) :
    ∀ k, readmeStart <+: (readmeStart ++ B).drop k ↔ k = 0 :=
  occ_marker_head (t := readmeStart.tail) B (by decide) hB

theorem occ_end_self (B : Bytes) (hB : ∀ k, ¬ readmeEnd <+: B.drop k) :
    ∀ k, readmeEnd <+: (readmeEnd ++ B).drop k ↔ k = 0 :=
  occ_marker_head (t := readmeEnd.tail) B (by decide) hB

/-- In `P ++ block c T` the start marker occurs only at the head of the block,
when none starts inside `P` and neither `c` nor `T` holds one. -/
theorem occ_block_start {P c T : Bytes} (hS : NoOcc readmeStart P (block c T))
    (hc : ¬ readmeStart <:+: c) (hT : ¬ readmeStart <:+: T) :
    ∀ j, readmeStart <+: (P ++ block c T).drop j ↔ j = P.length := by
  have h5 := (not_infix_iff_forall_drop _ _).mp hT
  have h4 := occ_none_append (noOcc_start_end T) h5
  have h3 : ∀ j, ¬ readmeStart <+: ([10] ++ (readmeEnd ++ T)).drop j :=
    occ_none_append (noOcc_start_of_not_mem _ (by decide)) h4
  have h2 : ∀ j, ¬ readmeStart <+: (c ++ ([10] ++ (readmeEnd ++ T))).drop j :=
    occ_none_append (noOcc_sentinel _ hc (by decide)) h3
  have h1 : ∀ j, ¬ readmeStart <+: ([10] ++ (c ++ ([10] ++ (readmeEnd ++ T)))).drop j :=
    occ_none_append (noOcc_start_of_not_mem _ (by decide)) h2
  have h0 := occ_unique_append hS (occ_start_self _ h1)
  simpa using h0

/-- In `P ++ block c T` the end marker occurs only at the end of the block,
when none starts inside `P` and neither `c` nor `T` holds one. -/
theorem occ_block_end {P c T : Bytes} (hE : NoOcc readmeEnd P (block c T))
    (hc : ¬ readmeEnd <:+: c) (hT : ¬ readmeEnd <:+: T) :
    ∀ j, readmeEnd <+: (P ++ block c T).drop j ↔ j = P.length + (28 + (1 + (c.length + 1))) := by
  have h5 := occ_end_self T ((not_infix_iff_forall_drop _ _).mp hT)
  have h4 : ∀ j, readmeEnd <+: ([10] ++ (readmeEnd ++ T)).drop j ↔ j = 1 + 0 :=
    occ_unique_append (noOcc_end_of_not_mem _ (by decide)) h5
  have h3 : ∀ j, readmeEnd <+: (c ++ ([10] ++ (readmeEnd ++ T))).drop j
      ↔ j = c.length + (1 + 0) :=
    occ_unique_append (noOcc_sentinel _ hc (by decide)) h4
  have h2 : ∀ j, readmeEnd <+: ([10] ++ (c ++ ([10] ++ (readmeEnd ++ T)))).drop j
      ↔ j = 1 + (c.length + (1 + 0)) :=
    occ_unique_append (noOcc_end_of_not_mem _ (by decide)) h3
  have h1 : ∀ j, readmeEnd <+: (block c T).drop j ↔ j = 28 + (1 + (c.length + (1 + 0))) := by
    have := occ_unique_append (noOcc_end_start _) h2
    rw [readmeStart_length] at this
    exact this
  have h0 := occ_unique_append hE h1
  simpa using h0

/-- Post-state of a block written after `P`: one occurrence of each marker,
start before end, and newline, content, newline between them. -/
theorem block_invariant {P c T : Bytes} (hS : NoOcc readmeStart P (block c T))
    (hE : NoOcc readmeEnd P (block c T))
    (hcS : ¬ readmeStart <:+: c) (hcE : ¬ readmeEnd <:+: c)
    (hTS : ¬ readmeStart <:+: T) (hTE : ¬ readmeEnd <:+: T) :
    ∃ s e, (∀ j, readmeStart <+: (P ++ block c T).drop j ↔ j = s)
      ∧ (∀ j, readmeEnd <+: (P ++ block c T).drop j ↔ j = e)
      ∧ s < e
      ∧ ((P ++ block c T).take e).drop (s + readmeStart.length)
          = ascii "\n" ++ c ++ ascii "\n" := by
  refine ⟨P.length, P.length + (28 + (1 + (c.length + 1))), occ_block_start hS hcS hTS,
    occ_block_end hE hcE hTE, by omega, ?_⟩
  rw [readmeStart_length, take_drop_block]
  simp [ascii_nl]

theorem trimRight_spec (d : Bytes) :
    (∃ k, d = TrimRight d 10 ++ List.replicate k 10) ∧ (TrimRight d 10).getLast? ≠ some 10 := by
  unfold TrimRight
  constructor
  · refine ⟨(d.reverse.takeWhile (fun x => x == 10)).length, ?_⟩
    have h1 : d.reverse.takeWhile (fun x => x == 10)
        = List.replicate (d.reverse.takeWhile (fun x => x == 10)).length 10 :=
      List.eq_replicate_of_mem (fun b hb => by simpa using List.mem_takeWhile_imp hb)
    have h2 := List.takeWhile_append_dropWhile (fun x => x == 10) (l := d.reverse)
    have h3 : d = (d.reverse.dropWhile (fun x => x == 10)).reverse
        ++ (d.reverse.takeWhile (fun x => x == 10)).reverse := by
      rw [← List.reverse_append, h2, List.reverse_reverse]
    rw [h1, List.reverse_replicate] at h3
    simpa using h3
  · rw [List.getLast?_reverse]
    have h := List.head?_dropWhile_not (fun x => x == 10) d.reverse
    intro hh
    rw [hh] at h
    simp at h

/-- Idempotence needs a content without the end marker: a new document created
with a content that holds the end marker is changed by a second patch with the
same content. -/
theorem idempotence_needs_clean_content :
    UpdateReadme .notExist true 2025 (ascii "a\n<!-- GOFF:POINTERS:END -->\nb")
        = .ok (ascii ("# FlipFlop 2025\n\n<!-- GOFF:POINTERS:START -->\na\n"
            ++ "<!-- GOFF:POINTERS:END -->\nb\n<!-- GOFF:POINTERS:END -->\n"))
      ∧ UpdateReadme (.data (ascii ("# FlipFlop 2025\n\n<!-- GOFF:POINTERS:START -->\na\n"
            ++ "<!-- GOFF:POINTERS:END -->\nb\n<!-- GOFF:POINTERS:END -->\n"))) true 2025
          (ascii "a\n<!-- GOFF:POINTERS:END -->\nb")
        = .ok (ascii ("# FlipFlop 2025\n\n<!-- GOFF:POINTERS:START -->\na\n"
            ++ "<!-- GOFF:POINTERS:END -->\nb\n<!-- GOFF:POINTERS:END -->"
            ++ "\nb\n<!-- GOFF:POINTERS:END -->\n")) :=
  ⟨by rfl, by rfl⟩

/-- C3 (amended): post-state of a successful patch. When the content holds
neither marker and the document is absent, or holds neither marker, or holds
both with the first start marker before the first end marker and no marker
after that end marker, the patch succeeds and the written document has exactly
one occurrence of the start marker and exactly one of the end marker, the start
marker comes first, and the bytes between them are a newline, the content and a
newline. -/
theorem C3_post_state (f : ReadFile) (y : Int) (c : Bytes)
    (hcS : ¬ readmeStart <:+: c) (hcE : ¬ readmeEnd <:+: c)
    (hf : f = .notExist ∨ ∃ d, f = .data d ∧
      ((¬ readmeStart <:+: d ∧ ¬ readmeEnd <:+: d)
        ∨ ∃ s e, FirstOcc readmeStart d s ∧ FirstOcc readmeEnd d e ∧ s < e
            ∧ ¬ readmeStart <:+: d.drop (e + readmeEnd.length)
            ∧ ¬ readmeEnd <:+: d.drop (e + readmeEnd.length))) :
    ∃ w, UpdateReadme f true y c = .ok w
      ∧ ∃ s e, (∀ j, readmeStart <+: w.drop j ↔ j = s)
          ∧ (∀ j, readmeEnd <+: w.drop j ↔ j = e)
          ∧ s < e
          ∧ (w.take e).drop (s + readmeStart.length) = ascii "\n" ++ c ++ ascii "\n" := by
  rcases hf with rfl | ⟨d, rfl, hd | ⟨s, e, hs, he, hlt, hTS, hTE⟩⟩
  · refine ⟨_, updateReadme_create y c, ?_⟩
    exact block_invariant (noOcc_start_of_not_mem _ (lt_not_mem_header y))
      (noOcc_end_of_not_mem _ (lt_not_mem_header y)) hcS hcE (by decide) (by decide)
  · have hm : markersMissing d = true := by
      unfold markersMissing
      rw [decide_eq_true_iff]
      exact Or.inl ((bytesIndex_eq_neg_one_iff _ _).mpr hd.1)
    refine ⟨_, updateReadme_append y c hm, ?_⟩
    exact block_invariant (noOcc_trim _ hd.1 (by decide) (by decide))
      (noOcc_trim _ hd.2 (by decide) (by decide)) hcS hcE (by decide) (by decide)
  · refine ⟨_, updateReadme_replace y c hs he hlt, ?_⟩
    rw [readmeEnd_length] at hTS hTE
    exact block_invariant (noOcc_take _ hs hs.2 (le_refl _))
      (noOcc_take _ hs (fun j hj => he.2 j (by omega)) (by decide)) hcS hcE hTS hTE

/-- Witness of `C3_post_state`: a new document is created. -/
theorem C3_post_state_witness :
    ¬ readmeStart <:+: ascii "new" ∧ ¬ readmeEnd <:+: ascii "new"
      ∧ ∃ w, UpdateReadme .notExist true 2025 (ascii "new") = .ok w
        ∧ ∃ s e, (∀ j, readmeStart <+: w.drop j ↔ j = s)
            ∧ (∀ j, readmeEnd <+: w.drop j ↔ j = e)
            ∧ s < e
            ∧ (w.take e).drop (s + readmeStart.length)
                = ascii "\n" ++ ascii "new" ++ ascii "\n" :=
  ⟨by decide, by decide,
    C3_post_state .notExist 2025 (ascii "new") (by decide) (by decide) (Or.inl rfl)⟩

/-- C3 as stated fails on a document that holds only the start marker: the
patch succeeds by appending a region, and the written document has two
occurrences of the start marker, at offsets 0 and 30. -/
theorem C3_counterexample :
    UpdateReadme (.data (ascii "<!-- GOFF:POINTERS:START -->\n")) true 2025 (ascii "x")
        = .ok (ascii ("<!-- GOFF:POINTERS:START -->\n\n"
            ++ "<!-- GOFF:POINTERS:START -->\nx\n<!-- GOFF:POINTERS:END -->\n"))
      ∧ readmeStart <+: (ascii ("<!-- GOFF:POINTERS:START -->\n\n"
            ++ "<!-- GOFF:POINTERS:START -->\nx\n<!-- GOFF:POINTERS:END -->\n")).drop 0
      ∧ readmeStart <+: (ascii ("<!-- GOFF:POINTERS:START -->\n\n"
            ++ "<!-- GOFF:POINTERS:START -->\nx\n<!-- GOFF:POINTERS:END -->\n")).drop 30 :=
  ⟨by rfl, by decide, by decide⟩

/-- C4: append branch of `UpdateReadme`. For every existing document in which
the start marker is absent, or the end marker is absent, or the first end marker
begins before the first start marker, the patch returns no error (the write
succeeding) and writes the document with its trailing newlines removed, then
`"\n\n"`, the start marker, `"\n"`, the content, `"\n"`, the end marker and `"\n"`;
the prior bytes without their trailing newlines are a prefix of the result. -/
theorem C4_append_branch (d c : Bytes) (y : Int)
    (hd : ¬ readmeStart <:+: d ∨ ¬ readmeEnd <:+: d
      ∨ ∃ s e, FirstOcc readmeStart d s ∧ FirstOcc readmeEnd d e ∧ e < s) :
    UpdateReadme (.data d) true y c
        = .ok (TrimRight d 10 ++ ascii "\n\n" ++ readmeStart ++ ascii "\n" ++ c ++ ascii "\n"
            ++ readmeEnd ++ ascii "\n")
      ∧ TrimRight d 10 <+: TrimRight d 10 ++ ascii "\n\n" ++ readmeStart ++ ascii "\n" ++ c
            ++ ascii "\n" ++ readmeEnd ++ ascii "\n"
      ∧ (∃ k, d = TrimRight d 10 ++ List.replicate k 10)
      ∧ (TrimRight d 10).getLast? ≠ some 10 := by
  have hm : markersMissing d = true := by
    unfold markersMissing
    rw [decide_eq_true_iff]
    rcases hd with h | h | ⟨s, e, hs, he, hlt⟩
    · exact Or.inl ((bytesIndex_eq_neg_one_iff _ _).mpr h)
    · exact Or.inr (Or.inl ((bytesIndex_eq_neg_one_iff _ _).mpr h))
    · right; right
      rw [bytesIndex_of_firstOcc hs, bytesIndex_of_firstOcc he]
      exact_mod_cast hlt
  refine ⟨?_, ?_, (trimRight_spec d).1, (trimRight_spec d).2⟩
  · simp [UpdateReadme, hm, WriteFile, appendMissingBlock]
  · simp only [List.append_assoc]
    exact List.prefix_append _ _

/-- Witness of `C4_append_branch`: a document without markers that ends in two
newlines. -/
theorem C4_append_branch_witness :
    ¬ readmeStart <:+: ascii "notes\n\n"
      ∧ UpdateReadme (.data (ascii "notes\n\n")) true 2025 (ascii "new")
        = .ok (ascii "notes\n\n<!-- GOFF:POINTERS:START -->\nnew\n<!-- GOFF:POINTERS:END -->\n") :=
  ⟨by decide,
    (C4_append_branch (ascii "notes\n\n") (ascii "new") 2025 (Or.inl (by decide))).1.trans
      (by rfl)⟩

/-- C5 (amended): the replace branch is taken exactly when both marker literals
occur in the document as byte sub-sequences, wherever they stand on their lines,
with the first start marker beginning before the first end marker; then the
region is replaced in place, and in every other case the append branch is
taken. -/
theorem C5_marker_placement (d c : Bytes) (y : Int) :
    (markersMissing d = false
        ↔ ∃ s e, FirstOcc readmeStart d s ∧ FirstOcc readmeEnd d e ∧ s < e)
      ∧ (∀ s e, FirstOcc readmeStart d s → FirstOcc readmeEnd d e → s < e →
          UpdateReadme (.data d) true y c
            = .ok (d.take s ++ readmeStart ++ ascii "\n" ++ c ++ ascii "\n" ++ readmeEnd
                ++ d.drop (e + readmeEnd.length)))
      ∧ ((¬ ∃ s e, FirstOcc readmeStart d s ∧ FirstOcc readmeEnd d e ∧ s < e) →
          UpdateReadme (.data d) true y c = .ok (appendMissingBlock d c)) := by
  refine ⟨markersMissing_eq_false_iff d, ?_, ?_⟩
  · intro s e hs he hlt
    rw [updateReadme_replace y c hs he hlt]
    simp [block, ascii_nl, readmeEnd_length]
  · intro h
    have hm : markersMissing d = true := by
      rw [← Bool.not_eq_false]
      exact fun hfalse => h ((markersMissing_eq_false_iff d).mp hfalse)
    simp [UpdateReadme, hm, WriteFile]

/-- Witness of `C5_marker_placement`: a one-line document with both markers in
the middle of prose is patched in place. -/
theorem C5_marker_placement_witness :
    FirstOcc readmeStart
        (ascii "see <!-- GOFF:POINTERS:START --> and <!-- GOFF:POINTERS:END --> inline") 4
      ∧ FirstOcc readmeEnd
        (ascii "see <!-- GOFF:POINTERS:START --> and <!-- GOFF:POINTERS:END --> inline") 37
      ∧ UpdateReadme
          (.data (ascii "see <!-- GOFF:POINTERS:START --> and <!-- GOFF:POINTERS:END --> inline"))
          true 2025 (ascii "x")
        = .ok (ascii "see <!-- GOFF:POINTERS:START -->\nx\n<!-- GOFF:POINTERS:END --> inline") :=
  ⟨by decide, by decide,
    ((C5_marker_placement
      (ascii "see <!-- GOFF:POINTERS:START --> and <!-- GOFF:POINTERS:END --> inline")
      (ascii "x") 2025).2.1 4 37 (by decide) (by decide) (by decide)).trans (by rfl)⟩

/-- C5 as stated fails: in a one-line document with both marker literals in the
middle of prose the markers are found and the region is replaced in place; the
result differs from what the append branch would write. -/
theorem C5_counterexample :
    markersMissing
        (ascii "see <!-- GOFF:POINTERS:START --> and <!-- GOFF:POINTERS:END --> inline") = false
      ∧ UpdateReadme
          (.data (ascii "see <!-- GOFF:POINTERS:START --> and <!-- GOFF:POINTERS:END --> inline"))
          true 2025 (ascii "x")
        = .ok (ascii "see <!-- GOFF:POINTERS:START -->\nx\n<!-- GOFF:POINTERS:END --> inline")
      ∧ ascii "see <!-- GOFF:POINTERS:START -->\nx\n<!-- GOFF:POINTERS:END --> inline"
        ≠ appendMissingBlock
            (ascii "see <!-- GOFF:POINTERS:START --> and <!-- GOFF:POINTERS:END --> inline")
            (ascii "x") :=
  ⟨by decide, by rfl, by decide⟩

end Summary

namespace Puzzletext

theorem hasPrefix_iff (s pre : Str) : HasPrefix s pre = true ↔ ∃ v, s = pre ++ v := by
  unfold HasPrefix
  rw [List.isPrefixOf_iff_prefix]
  constructor
  · rintro ⟨v, hv⟩
    exact ⟨v, hv.symm⟩
  · rintro ⟨v, hv⟩
    exact ⟨v, hv.symm⟩

theorem trimPrefix_append (pre v : Str) : TrimPrefix (pre ++ v) pre = v := by
  have h : HasPrefix (pre ++ v) pre = true := (hasPrefix_iff _ _).mpr ⟨v, rfl⟩
  simp [TrimPrefix, h]

theorem mem_mapSet (parts : List Int) (part x : Int) :
    x ∈ mapSet parts part ↔ x ∈ parts ∨ x = part := by
  unfold mapSet
  split
  · constructor
    · exact Or.inl
    · rintro (h | rfl)
      · exact h
      · assumption
  · simp

theorem nodup_mapSet {parts : List Int} (part : Int) (h : parts.Nodup) :
    (mapSet parts part).Nodup := by
  unfold mapSet
  split
  · exact h
  · rename_i hn
    rw [List.nodup_append]
    refine ⟨h, List.nodup_singleton _, ?_⟩
    intro a ha hb
    simp at hb
    subst hb
    exact hn ha

theorem collectAttrs_mem (x : Int) (attrs : List Attribute) :
    ∀ parts : List Int, x ∈ collectAttrs attrs parts ↔
      x ∈ parts ∨ ∃ a ∈ attrs, a.Key = "id".toList
        ∧ ∃ v, a.Val = "part-".toList ++ v ∧ Atoi v = some x := by
  induction attrs with
  | nil => intro parts; simp [collectAttrs]
  | cons a attrs ih =>
    intro parts
    have hstep : collectAttrs (a :: attrs) parts
        = collectAttrs attrs
            (if a.Key = "id".toList ∧ HasPrefix a.Val "part-".toList then
              match Atoi (TrimPrefix a.Val "part-".toList) with
              | some part => mapSet parts part
              | none => parts
            else parts) := by
      simp [collectAttrs]
    rw [hstep, ih]
    by_cases hk : a.Key = "id".toList ∧ HasPrefix a.Val "part-".toList = true
    · obtain ⟨v, hv⟩ := (hasPrefix_iff _ _).mp hk.2
      rw [if_pos hk, hv, trimPrefix_append]
      cases hA : Atoi v with
      | none =>
        simp only [List.mem_cons, exists_eq_or_imp]
        constructor
        · rintro (h | h)
          · exact Or.inl h
          · exact Or.inr (Or.inr h)
        · rintro (h | ⟨_, w, hw, hx⟩ | h)
          · exact Or.inl h
          · rw [hv] at hw
            have := List.append_cancel_left hw
            subst this
            rw [hA] at hx
            cases hx
          · exact Or.inr h
      | some part =>
        simp only [mem_mapSet, List.mem_cons, exists_eq_or_imp]
        constructor
        · rintro ((h | rfl) | h)
          · exact Or.inl h
          · exact Or.inr (Or.inl ⟨hk.1, v, hv, hA⟩)
          · exact Or.inr (Or.inr h)
        · rintro (h | ⟨_, w, hw, hx⟩ | h)
          · exact Or.inl (Or.inl h)
          · rw [hv] at hw
            have := List.append_cancel_left hw
            subst this
            rw [hA] at hx
            cases hx
            exact Or.inl (Or.inr rfl)
          · exact Or.inr h
    · rw [if_neg hk]
      simp only [List.mem_cons, exists_eq_or_imp]
      constructor
      · rintro (h | h)
        · exact Or.inl h
        · exact Or.inr (Or.inr h)
      · rintro (h | ⟨h1, w, hw, _⟩ | h)
        · exact Or.inl h
        · exact absurd ⟨h1, (hasPrefix_iff _ _).mpr ⟨w, hw⟩⟩ hk
        · exact Or.inr h

theorem collectAttrs_nodup (attrs : List Attribute) :
    ∀ parts : List Int, parts.Nodup → (collectAttrs attrs parts).Nodup := by
  induction attrs with
  | nil => intro parts h; simpa [collectAttrs] using h
  | cons a attrs ih =>
    intro parts h
    have hstep : collectAttrs (a :: attrs) parts
        = collectAttrs attrs
            (if a.Key = "id".toList ∧ HasPrefix a.Val "part-".toList then
              match Atoi (TrimPrefix a.Val "part-".toList) with
              | some part => mapSet parts part
              | none => parts
            else parts) := by
      simp [collectAttrs]
    rw [hstep]
    apply ih
    split
    · split
      · exact nodup_mapSet _ h
      · exact h
    · exact h

mutual
theorem collectParts_mem (x : Int) :
    ∀ (n : Node) (parts : List Int),
      x ∈ collectParts n parts ↔ x ∈ parts ∨ ∃ m ∈ nodes n, H3Part m x
  | .mk type Data Attr children, parts => by
    rw [collectParts, collectPartsChildren_mem x children, nodes]
    simp only [List.mem_cons, exists_eq_or_imp]
    by_cases h : type = .ElementNode ∧ Data = "h3".toList
    · have hroot : H3Part (.mk type Data Attr children) x ↔
          ∃ a ∈ Attr, a.Key = "id".toList
            ∧ ∃ v, a.Val = "part-".toList ++ v ∧ Atoi v = some x := by
        simp [H3Part, Node.type, Node.Data, Node.Attr, h.1, h.2]
      rw [if_pos h, collectAttrs_mem, hroot, or_assoc]
    · rw [if_neg h]
      have : ¬ H3Part (.mk type Data Attr children) x := fun hp => h ⟨hp.1, hp.2.1⟩
      tauto
theorem collectPartsChildren_mem (x : Int) :
    ∀ (cs : List Node) (parts : List Int),
      x ∈ collectPartsChildren cs parts ↔ x ∈ parts ∨ ∃ m ∈ nodesList cs, H3Part m x
  | [], parts => by simp [collectPartsChildren, nodesList]
  | c :: cs, parts => by
    rw [collectPartsChildren, collectPartsChildren_mem x cs, collectParts_mem x c, nodesList]
    simp only [List.mem_append]
    constructor
    · rintro ((h | ⟨m, hm, hp⟩) | ⟨m, hm, hp⟩)
      · exact Or.inl h
      · exact Or.inr ⟨m, Or.inl hm, hp⟩
      · exact Or.inr ⟨m, Or.inr hm, hp⟩
    · rintro (h | ⟨m, hm | hm, hp⟩)
      · exact Or.inl (Or.inl h)
      · exact Or.inl (Or.inr ⟨m, hm, hp⟩)
      · exact Or.inr ⟨m, hm, hp⟩
end

mutual
theorem collectParts_nodup :
    ∀ (n : Node) (parts : List Int), parts.Nodup → (collectParts n parts).Nodup
  | .mk type Data Attr children, parts, h => by
    rw [collectParts]
    apply collectPartsChildren_nodup children
    split
    · exact collectAttrs_nodup _ _ h
    · exact h
theorem collectPartsChildren_nodup :
    ∀ (cs : List Node) (parts : List Int), parts.Nodup → (collectPartsChildren cs parts).Nodup
  | [], parts, h => by simpa [collectPartsChildren] using h
  | c :: cs, parts, h => by
    rw [collectPartsChildren]
    exact collectPartsChildren_nodup cs _ (collectParts_nodup c parts h)
end

theorem mem_availableParts (t : Node) (x : Int) :
    x ∈ availableParts t ↔ ∃ m ∈ nodes t, H3Part m x := by
  unfold availableParts
  rw [(List.perm_insertionSort _ _).mem_iff, collectParts_mem]
  simp

theorem availableParts_sorted (t : Node) : (availableParts t).Sorted (· < ·) := by
  unfold availableParts
  apply (List.sorted_insertionSort (· ≤ ·) _).lt_of_le
  exact (List.perm_insertionSort _ _).nodup_iff.mpr (collectParts_nodup t [] List.nodup_nil)

/-- C6: on a tree whose `h3` headings have the ids `part-0`, `part-1` and
`part-2`, `availableParts` of puzzletext.go returns `[0, 1, 2]`: the part number
zero is not excluded. -/
theorem C6_part_zero_included :
    availableParts (elem "article" [("class", "description")]
      [elem "h3" [("id", "part-0")] [text "Prologue"],
       elem "h3" [("id", "part-1")] [text "Part 1"],
       elem "h3" [("id", "part-2")] [text "Part 2"]]) = [0, 1, 2] := by
  decide

/-- C7 (amended): the result of `availableParts` is strictly ascending (so it
has no duplicates); every number in it is the value that `strconv.Atoi` gives
for the remainder of an `id` attribute starting with `part-` of some `h3`
element of the tree; and every strictly positive such value is in the result. -/
theorem C7_available_parts (t : Node) :
    (availableParts t).Sorted (· < ·)
      ∧ (∀ n ∈ availableParts t, ∃ m ∈ nodes t, H3Part m n)
      ∧ (∀ n : Int, 0 < n → (∃ m ∈ nodes t, H3Part m n) → n ∈ availableParts t) :=
  ⟨availableParts_sorted t, fun n hn => (mem_availableParts t n).mp hn,
    fun n _ h => (mem_availableParts t n).mpr h⟩

/-- Witness of `C7_available_parts`: the heading id `part-+2` puts 2 in the
result. -/
theorem C7_available_parts_witness :
    (0 : Int) < 2 ∧ (2 : Int) ∈ availableParts (elem "h3" [("id", "part-+2")] []) :=
  ⟨by decide,
    (C7_available_parts (elem "h3" [("id", "part-+2")] [])).2.2 2 (by decide)
      ⟨elem "h3" [("id", "part-+2")] [], List.mem_cons_self _ _, rfl, rfl,
        ⟨"id".toList, "part-+2".toList⟩, List.mem_cons_self _ _, rfl, "+2".toList, rfl,
        by decide⟩⟩

/-- C7 as stated fails: for the single heading `<h3 id="part-+2">` the result is
`[2]`, although no id attribute of the tree is `part-` followed by decimal digits
only. -/
theorem C7_counterexample :
    availableParts (elem "h3" [("id", "part-+2")] []) = [2]
      ∧ ¬ ∃ m ∈ nodes (elem "h3" [("id", "part-+2")] []), ∃ a ∈ m.Attr,
          ∃ v, a.Val = "part-".toList ++ v ∧ v.all isDigit = true := by
  refine ⟨by decide, ?_⟩
  rintro ⟨m, hm, a, ha, v, hv, hd⟩
  have hm2 : m = elem "h3" [("id", "part-+2")] [] := by
    simpa [nodes, nodesList, elem] using hm
  subst hm2
  have ha2 : a = ⟨"id".toList, "part-+2".toList⟩ := by
    simpa [elem, Node.Attr] using ha
  subst ha2
  have hv2 : "part-".toList ++ "+2".toList = "part-".toList ++ v := hv
  have hv3 := List.append_cancel_left hv2
  subst hv3
  revert hd
  decide

theorem hasClass_iff (n : Node) (className : Str) :
    hasClass n className = true
      ↔ ∃ a ∈ n.Attr, a.Key = "class".toList ∧ className ∈ Fields a.Val := by
  unfold hasClass
  rw [List.any_eq_true]
  constructor
  · rintro ⟨a, ha, h⟩
    by_cases hk : a.Key = "class".toList
    · simp only [hk, ne_eq, not_true_eq_false, if_false, List.any_eq_true,
        decide_eq_true_eq] at h
      obtain ⟨item, hi, rfl⟩ := h
      exact ⟨a, ha, hk, hi⟩
    · simp [hk] at h
      exact absurd h.1 hk
  · rintro ⟨a, ha, hk, hi⟩
    refine ⟨a, ha, ?_⟩
    simp only [hk, ne_eq, not_true_eq_false, if_false, List.any_eq_true, decide_eq_true_eq]
    exact ⟨className, hi, rfl⟩

mutual
theorem containsPartHeader_iff (partID : Str) :
    ∀ n : Node, containsPartHeader n partID = true ↔ ∃ h ∈ nodes n, IsH3WithId partID h
  | .mk type Data Attr children => by
    rw [containsPartHeader, nodes]
    simp only [List.mem_cons, exists_eq_or_imp]
    have hroot : IsH3WithId partID (.mk type Data Attr children)
        ↔ (type = .ElementNode ∧ Data = "h3".toList
          ∧ (Attr.any fun attr => decide (attr.Key = "id".toList ∧ attr.Val = partID)) = true) := by
      simp [IsH3WithId, Node.type, Node.Data, Node.Attr]
    rw [hroot, ← containsPartHeaderChildren_iff partID children]
    split
    · simp_all
    · simp_all
theorem containsPartHeaderChildren_iff (partID : Str) :
    ∀ cs : List Node,
      containsPartHeaderChildren cs partID = true ↔ ∃ h ∈ nodesList cs, IsH3WithId partID h
  | [] => by simp [containsPartHeaderChildren, nodesList]
  | c :: cs => by
    rw [containsPartHeaderChildren, nodesList]
    simp only [List.mem_append, or_and_right, exists_or]
    rw [← containsPartHeader_iff partID c, ← containsPartHeaderChildren_iff partID cs]
    split
    · simp_all
    · simp_all
end

theorem articleWithPart_iff (partID : Str) (type : NodeType) (Data : Str) (Attr : List Attribute)
    (children : List Node) :
    ArticleWithPart partID (.mk type Data Attr children)
      ↔ (type = .ElementNode ∧ Data = "article".toList
          ∧ hasClass (.mk type Data Attr children) "description".toList = true
          ∧ containsPartHeader (.mk type Data Attr children) partID = true) := by
  unfold ArticleWithPart
  rw [hasClass_iff, containsPartHeader_iff, nodes]
  simp only [Node.type, Node.Data, Node.Attr, Node.children, List.mem_cons, exists_eq_or_imp]
  constructor
  · rintro ⟨h1, h2, h3, h4⟩
    exact ⟨h1, h2, h3, Or.inr h4⟩
  · rintro ⟨h1, h2, h3, h4 | h4⟩
    · exfalso
      have h5 : Data = "h3".toList := h4.2.1
      rw [h2] at h5
      revert h5
      decide
    · exact ⟨h1, h2, h3, h4⟩

mutual
theorem findArticleWithPart_eq (partID : Str) :
    ∀ n : Node, findArticleWithPart n partID
      = (nodes n).find? (fun m => decide (ArticleWithPart partID m))
  | .mk type Data Attr children => by
    rw [findArticleWithPart, nodes, List.find?_cons, findArticleWithPartChildren_eq partID children]
    by_cases h : ArticleWithPart partID (.mk type Data Attr children)
    · rw [if_pos ((articleWithPart_iff _ _ _ _ _).mp h)]
      simp [h]
    · rw [if_neg (fun hc => h ((articleWithPart_iff _ _ _ _ _).mpr hc))]
      simp [h]
theorem findArticleWithPartChildren_eq (partID : Str) :
    ∀ cs : List Node, findArticleWithPartChildren cs partID
      = (nodesList cs).find? (fun m => decide (ArticleWithPart partID m))
  | [] => by simp [findArticleWithPartChildren, nodesList]
  | c :: cs => by
    rw [findArticleWithPartChildren, nodesList, List.find?_append,
      ← findArticleWithPart_eq partID c, ← findArticleWithPartChildren_eq partID cs]
    cases findArticleWithPart c partID <;> simp
end

/-- C8: `findArticleWithPart` returns the first node, in depth-first document
order, that is an `article` element with `description` among the tokens of its
class attribute and with a descendant `h3` whose id attribute equals the
requested identifier; it returns no node exactly when the tree has no such
node. -/
theorem C8_find_article (t : Node) (partID : Str) :
    findArticleWithPart t partID = (nodes t).find? (fun m => decide (ArticleWithPart partID m))
      ∧ (∀ found, findArticleWithPart t partID = some found →
          ArticleWithPart partID found
            ∧ ∃ before after, nodes t = before ++ found :: after
                ∧ ∀ m ∈ before, ¬ ArticleWithPart partID m)
      ∧ (findArticleWithPart t partID = none ↔ ∀ m ∈ nodes t, ¬ ArticleWithPart partID m) := by
  refine ⟨findArticleWithPart_eq partID t, ?_, ?_⟩
  · intro found h
    rw [findArticleWithPart_eq, List.find?_eq_some] at h
    obtain ⟨h1, as, bs, h2, h3⟩ := h
    refine ⟨by simpa using h1, as, bs, h2, ?_⟩
    intro m hm
    simpa using h3 m hm
  · rw [findArticleWithPart_eq, List.find?_eq_none]
    simp

/-- Witness of `C8_find_article`: the second article of the page is the first
one that holds the heading `part-2`. -/
theorem C8_find_article_witness :
    findArticleWithPart
        (elem "body" []
          [elem "article" [("class", "day description")] [elem "h3" [("id", "part-1")] []],
           elem "article" [("class", "description")] [elem "h3" [("id", "part-2")] []]])
        "part-2".toList
      = some (elem "article" [("class", "description")] [elem "h3" [("id", "part-2")] []])
    ∧ ArticleWithPart "part-2".toList
        (elem "article" [("class", "description")] [elem "h3" [("id", "part-2")] []]) :=
  ⟨rfl,
    ((C8_find_article
      (elem "body" []
        [elem "article" [("class", "day description")] [elem "h3" [("id", "part-1")] []],
         elem "article" [("class", "description")] [elem "h3" [("id", "part-2")] []]])
      "part-2".toList).2.1 _ rfl).1⟩

theorem dropWhile_head_not (p : Char → Bool) (l : Str) (c : Char)
    (h : (l.dropWhile p).head? = some c) : p c = false := by
  have := List.head?_dropWhile_not p l
  rw [h] at this
  exact this

theorem trimSpace_getLast (s : Str) (c : Char) (h : (TrimSpace s).getLast? = some c) :
    isSpace c = false := by
  unfold TrimSpace at h
  rw [List.getLast?_reverse] at h
  exact dropWhile_head_not _ _ _ h

theorem rdrop_pre (l : Str) : (l.reverse.dropWhile isSpace).reverse <+: l := by
  have h := List.dropWhile_suffix isSpace (l := l.reverse)
  have h2 := List.reverse_prefix.mpr h
  simpa using h2

theorem trimSpace_head (s : Str) (c : Char) (h : (TrimSpace s).head? = some c) :
    isSpace c = false := by
  unfold TrimSpace at h
  obtain ⟨t, ht⟩ := rdrop_pre (s.dropWhile isSpace)
  apply dropWhile_head_not isSpace s c
  rw [← ht, List.head?_append, h]
  rfl

theorem trimSpace_isInfix (s : Str) : TrimSpace s <:+: s := by
  unfold TrimSpace
  exact (rdrop_pre _).isInfix.trans (List.dropWhile_suffix isSpace).isInfix

theorem dropWhile_eq_self (p : Char → Bool) (l : Str) (h : ∀ c, l.head? = some c → p c = false) :
    l.dropWhile p = l := by
  cases l with
  | nil => rfl
  | cons a l =>
    apply List.dropWhile_cons_of_neg
    rw [h a rfl]
    simp

theorem trimSpace_eq_self (s : Str) (h1 : ∀ c, s.head? = some c → isSpace c = false)
    (h2 : ∀ c, s.getLast? = some c → isSpace c = false) : TrimSpace s = s := by
  unfold TrimSpace
  rw [dropWhile_eq_self isSpace s h1, dropWhile_eq_self isSpace s.reverse, List.reverse_reverse]
  intro c hc
  rw [List.head?_reverse] at hc
  exact h2 c hc

theorem trimSpace_ne_nil_head (s : Str) (h : TrimSpace s ≠ []) :
    ∃ c, (TrimSpace s).head? = some c ∧ isSpace c = false := by
  cases hh : (TrimSpace s).head? with
  | none => exact absurd (List.head?_eq_none_iff.mp hh) h
  | some c => exact ⟨c, rfl, trimSpace_head s c hh⟩

theorem trimSpace_ne_nil_getLast (s : Str) (h : TrimSpace s ≠ []) :
    ∃ c, (TrimSpace s).getLast? = some c ∧ isSpace c = false := by
  cases hh : (TrimSpace s).getLast? with
  | none => exact absurd (List.getLast?_eq_none_iff.mp hh) h
  | some c => exact ⟨c, rfl, trimSpace_getLast s c hh⟩

theorem hasSuffix_singleton (b : Str) (x : Char) :
    HasSuffix b [x] = true ↔ b.getLast? = some x := by
  unfold HasSuffix
  rw [List.isSuffixOf_iff_suffix]
  constructor
  · rintro ⟨t, rfl⟩
    simp
  · intro h
    exact ⟨b.dropLast, List.dropLast_append_getLast? x h⟩

theorem ne_space_of_not_isSpace {c : Char} (h : isSpace c = false) : c ≠ ' ' := by
  rintro rfl
  revert h
  decide

theorem noDouble_append {b t : Str} (hb : NoDoubleSpace b) (ht : NoDoubleSpace t)
    (hh : ∀ y, t.head? = some y → y ≠ ' ') : NoDoubleSpace (b ++ t) := by
  unfold NoDoubleSpace at *
  rw [List.chain'_append]
  refine ⟨hb, ht, ?_⟩
  intro x _ y hy h
  exact hh y hy h.2

theorem noDouble_append_space {b : Str} (hb : NoDoubleSpace b) (hl : b.getLast? ≠ some ' ') :
    NoDoubleSpace (b ++ [' ']) := by
  unfold NoDoubleSpace at *
  rw [List.chain'_append]
  refine ⟨hb, List.chain'_singleton _, ?_⟩
  intro x hx y _ h
  rw [Option.mem_def, h.1] at hx
  exact hl hx

theorem noDouble_sep {b : Str} (hb : NoDoubleSpace b) :
    NoDoubleSpace (if b.length > 0 then b ++ "\n\n".toList else b) := by
  split
  · apply noDouble_append hb
    · unfold NoDoubleSpace
      simp
    · intro y hy
      have : y = '\n' := by simpa using hy.symm
      subst this
      decide
  · exact hb

mutual
theorem renderNode_noDouble :
    ∀ (n : Node) (b : Str), (∀ m ∈ nodes n, PlainNode m) → NoDoubleSpace b →
      NoDoubleSpace (renderNode b n false)
  | .mk type Data Attr children, b, hn, hb => by
    have hroot : PlainNode (.mk type Data Attr children) :=
      hn _ (by rw [nodes]; exact List.mem_cons_self _ _)
    have hch : ∀ m ∈ nodesList children, PlainNode m :=
      fun m hm => hn m (by rw [nodes]; exact List.mem_cons_of_mem _ hm)
    cases type with
    | TextNode =>
      rw [renderNode]
      simp only [Bool.false_eq_true, if_false]
      split
      · exact hb
      · rename_i hne
        apply renderChildren_noDouble children _ hch
        obtain ⟨c, hc, hsp⟩ := trimSpace_ne_nil_head Data hne
        apply noDouble_append _ (hroot.2 rfl)
        · intro y hy
          have hy2 : (TrimSpace Data).head? = some y := hy
          rw [hc] at hy2
          cases hy2
          exact ne_space_of_not_isSpace hsp
        · split
          · rename_i hcond
            apply noDouble_append_space hb
            intro hl
            exact hcond.2.2 ((hasSuffix_singleton b ' ').mpr hl)
          · exact hb
    | ElementNode =>
      rw [renderNode]
      split
      · exact hb
      · split
        · apply noDouble_append hb
          · unfold NoDoubleSpace
            simp
          · intro y hy
            have : y = '\n' := by simpa using hy.symm
            subst this
            decide
        · split
          · exact renderChildren_noDouble children _ hch (noDouble_sep hb)
          · split
            · rename_i hpre
              exact absurd ⟨rfl, hpre⟩ hroot.1
            · exact renderChildren_noDouble children _ hch hb
    | ErrorNode =>
      rw [renderNode] <;>
        first
        | exact renderChildren_noDouble children _ hch hb
        | (intro h; cases h)
    | DocumentNode =>
      rw [renderNode] <;>
        first
        | exact renderChildren_noDouble children _ hch hb
        | (intro h; cases h)
    | CommentNode =>
      rw [renderNode] <;>
        first
        | exact renderChildren_noDouble children _ hch hb
        | (intro h; cases h)
    | DoctypeNode =>
      rw [renderNode] <;>
        first
        | exact renderChildren_noDouble children _ hch hb
        | (intro h; cases h)
    | RawNode =>
      rw [renderNode] <;>
        first
        | exact renderChildren_noDouble children _ hch hb
        | (intro h; cases h)
theorem renderChildren_noDouble :
    ∀ (cs : List Node) (b : Str), (∀ m ∈ nodesList cs, PlainNode m) → NoDoubleSpace b →
      NoDoubleSpace (renderChildren b cs false)
  | [], b, _, hb => by
    rw [renderChildren]
    exact hb
  | c :: cs, b, hn, hb => by
    rw [renderChildren]
    apply renderChildren_noDouble cs _
      (fun m hm => hn m (by rw [nodesList]; exact List.mem_append_right _ hm))
    exact renderNode_noDouble c b
      (fun m hm => hn m (by rw [nodesList]; exact List.mem_append_left _ hm)) hb
end

theorem renderNode_text_first (data : Str) (h : TrimSpace data ≠ []) :
    renderNode [] (.mk .TextNode data [] []) false = TrimSpace data := by
  rw [renderNode]
  simp [h, renderChildren]

theorem renderNode_text_next (b data : Str) (h : TrimSpace data ≠ []) (hb : b ≠ [])
    (hl : ∀ c, b.getLast? = some c → isSpace c = false) :
    renderNode b (.mk .TextNode data [] []) false = b ++ " ".toList ++ TrimSpace data := by
  have h1 : HasSuffix b "\n".toList = false := by
    rw [Bool.eq_false_iff]
    intro hs
    have := hl _ ((hasSuffix_singleton b '\n').mp hs)
    revert this
    decide
  have h2 : HasSuffix b " ".toList = false := by
    rw [Bool.eq_false_iff]
    intro hs
    have := hl _ ((hasSuffix_singleton b ' ').mp hs)
    revert this
    decide
  have h3 : b.length > 0 := List.length_pos.mpr hb
  rw [renderNode]
  simp only [Bool.false_eq_true, if_false, h, h1, h2, h3, not_false_eq_true, and_self, if_true,
    renderChildren]

theorem renderNode_text_pre (b data : Str) (attrs : List Attribute) (cs : List Node) :
    renderNode b (.mk .TextNode data attrs cs) true = b ++ data := by
  rw [renderNode]
  simp

theorem renderNode_p_pre (a0 a1 a2 : List Attribute) (T X : Str) (hT : TrimSpace T ≠ []) :
    renderNode []
        (.mk .ElementNode "article".toList a0
          [.mk .ElementNode "p".toList a1 [.mk .TextNode T [] []],
           .mk .ElementNode "pre".toList a2 [.mk .TextNode X [] []]]) false
      = TrimSpace T ++ "\n\n".toList ++ X := by
  have hp : renderNode [] (.mk .ElementNode "p".toList a1 [.mk .TextNode T [] []]) false
      = TrimSpace T := by
    rw [renderNode]
    simp [renderChildren, renderNode_text_first T hT]
  have hpre : renderNode (TrimSpace T)
      (.mk .ElementNode "pre".toList a2 [.mk .TextNode X [] []]) false
      = TrimSpace T ++ "\n\n".toList ++ X := by
    rw [renderNode]
    simp [renderChildren, renderNode_text_pre, hT, List.length_pos]
  rw [renderNode, if_neg (by decide), if_neg (by decide), if_neg (by decide),
    if_neg (by decide), renderChildren, hp, renderChildren, hpre, renderChildren]

/-- C9 (amended): for every tree without a `pre` element whose text nodes hold
no two consecutive spaces inside their trimmed text, the output of `renderText`
has no two consecutive space characters; the output of `renderText` never
starts with a space; and two adjacent non-blank text nodes are rendered as their
trimmed texts joined by a single space. -/
theorem C9_whitespace_normalization (t : Node) (attrs : List Attribute) (t1 t2 : Str) :
    ((∀ m ∈ nodes t, PlainNode m) → NoDoubleSpace (renderText t))
      ∧ (renderText t).head? ≠ some ' '
      ∧ (TrimSpace t1 ≠ [] → TrimSpace t2 ≠ [] →
          renderText (.mk .ElementNode "span".toList attrs
              [.mk .TextNode t1 [] [], .mk .TextNode t2 [] []])
            = TrimSpace t1 ++ " ".toList ++ TrimSpace t2) := by
  refine ⟨?_, ?_, ?_⟩
  · intro h
    have h0 : NoDoubleSpace ([] : Str) := List.chain'_nil
    exact List.Chain'.infix (renderNode_noDouble t [] h h0) (trimSpace_isInfix _)
  · intro h
    have := trimSpace_head _ _ h
    revert this
    decide
  · intro h1 h2
    obtain ⟨c1, hc1, hs1⟩ := trimSpace_ne_nil_head t1 h1
    obtain ⟨c2, hc2, hs2⟩ := trimSpace_ne_nil_getLast t2 h2
    have hr : renderNode [] (.mk .ElementNode "span".toList attrs
        [.mk .TextNode t1 [] [], .mk .TextNode t2 [] []]) false
        = TrimSpace t1 ++ " ".toList ++ TrimSpace t2 := by
      rw [renderNode]
      simp only [renderChildren, renderNode_text_first t1 h1]
      rw [renderNode_text_next _ t2 h2 h1 (fun c hc => trimSpace_getLast t1 c hc)]
      simp
    unfold renderText
    rw [hr]
    apply trimSpace_eq_self
    · intro c hc
      rw [List.append_assoc, List.head?_append, hc1] at hc
      cases hc
      exact hs1
    · intro c hc
      rw [List.getLast?_append, hc2] at hc
      cases hc
      exact hs2

/-- Witness of `C9_whitespace_normalization`: a paragraph with two text nodes
around an element. -/
theorem C9_whitespace_normalization_witness :
    TrimSpace " hello ".toList ≠ [] ∧ TrimSpace "\n world\n".toList ≠ []
      ∧ renderText (.mk .ElementNode "span".toList []
            [.mk .TextNode " hello ".toList [] [], .mk .TextNode "\n world\n".toList [] []])
          = "hello world".toList :=
  ⟨by decide, by decide,
    ((C9_whitespace_normalization (text "x") [] " hello ".toList "\n world\n".toList).2.2
      (by decide) (by decide)).trans (by decide)⟩

/-- C9 as stated fails: a text node with two spaces inside its text is rendered
with both spaces, in a tree without any `pre` element. -/
theorem C9_counterexample :
    renderText (elem "article" [] [elem "p" [] [text "a  b"]]) = "a  b".toList
      ∧ [' ', ' '] <:+: renderText (elem "article" [] [elem "p" [] [text "a  b"]])
      ∧ ¬ NoDoubleSpace (renderText (elem "article" [] [elem "p" [] [text "a  b"]])) := by
  have h : renderText (elem "article" [] [elem "p" [] [text "a  b"]]) = "a  b".toList := by
    decide
  refine ⟨h, ?_, ?_⟩
  · rw [h]
    exact ⟨['a'], ['b'], rfl⟩
  · rw [h]
    unfold NoDoubleSpace
    simp

/-- C10 (amended): for every article made of a `p` element with a non-blank
text `T` followed by a `pre` element with text `X`, `renderNode` appends `X`
verbatim and `renderText` returns the trimmed whole,
`TrimSpace (TrimSpace T ++ "\n\n" ++ X)`; when `X` ends in a character that is
not white space, this is the trimmed `T`, then `"\n\n"`, then `X` unmodified. -/
theorem C10_preformatted (a0 a1 a2 : List Attribute) (T X : Str) (hT : TrimSpace T ≠ []) :
    renderText
        (.mk .ElementNode "article".toList a0
          [.mk .ElementNode "p".toList a1 [.mk .TextNode T [] []],
           .mk .ElementNode "pre".toList a2 [.mk .TextNode X [] []]])
      = TrimSpace (TrimSpace T ++ "\n\n".toList ++ X)
    ∧ ((∃ c, X.getLast? = some c ∧ isSpace c = false) →
        renderText
          (.mk .ElementNode "article".toList a0
            [.mk .ElementNode "p".toList a1 [.mk .TextNode T [] []],
             .mk .ElementNode "pre".toList a2 [.mk .TextNode X [] []]])
        = TrimSpace T ++ "\n\n".toList ++ X) := by
  have hr := renderNode_p_pre a0 a1 a2 T X hT
  refine ⟨by unfold renderText; rw [hr], ?_⟩
  rintro ⟨c, hc, hs⟩
  unfold renderText
  rw [hr]
  obtain ⟨c1, hc1, hs1⟩ := trimSpace_ne_nil_head T hT
  apply trimSpace_eq_self
  · intro d hd
    rw [List.append_assoc, List.head?_append, hc1] at hd
    cases hd
    exact hs1
  · intro d hd
    rw [List.getLast?_append, hc] at hd
    cases hd
    exact hs

/-- Witness of `C10_preformatted`: the scenario `<p>` then `<pre>foo\nbar</pre>`. -/
theorem C10_preformatted_witness :
    TrimSpace " Some text. ".toList ≠ []
      ∧ renderText
          (.mk .ElementNode "article".toList []
            [.mk .ElementNode "p".toList [] [.mk .TextNode " Some text. ".toList [] []],
             .mk .ElementNode "pre".toList [] [.mk .TextNode "foo\nbar".toList [] []]])
        = "Some text.\n\nfoo\nbar".toList :=
  ⟨by decide,
    ((C10_preformatted [] [] [] " Some text. ".toList "foo\nbar".toList (by decide)).2
      ⟨'r', by decide, by decide⟩).trans (by decide)⟩

/-- C10 as stated fails: a `pre` text that ends in a newline loses that newline,
because `renderText` trims the whole output. -/
theorem C10_counterexample :
    renderText (elem "article" [] [elem "p" [] [text "Intro"], elem "pre" [] [text "foo\nbar\n"]])
        = "Intro\n\nfoo\nbar".toList
      ∧ renderText
          (elem "article" [] [elem "p" [] [text "Intro"], elem "pre" [] [text "foo\nbar\n"]])
        ≠ TrimSpace "Intro".toList ++ "\n\n".toList ++ "foo\nbar\n".toList := by
  decide

theorem trimSpace_idem (s : Str) : TrimSpace (TrimSpace s) = TrimSpace s :=
  trimSpace_eq_self _ (trimSpace_head s) (trimSpace_getLast s)

/-- C11: the text `FetchPart` returns on success is not empty and has no
leading or trailing white space; when the article found for the part renders to
a string that is empty after trimming, `FetchPart` fails with the error
"part N is empty". -/
theorem C11_trimmed_nonempty (part : Int) (page : Page) :
    (∀ text, FetchPart part page = .ok text →
        text ≠ [] ∧ TrimSpace text = text
          ∧ (∀ c, text.head? = some c → isSpace c = false)
          ∧ (∀ c, text.getLast? = some c → isSpace c = false))
      ∧ (∀ doc article, page = .doc doc → 1 ≤ part →
          findArticleWithPart doc ("part-".toList ++ fmtInt part) = some article →
          TrimSpace (renderNode [] article false) = [] →
          FetchPart part page = .error (.empty part)) := by
  constructor
  · intro text h
    unfold FetchPart at h
    split at h
    · cases h
    · cases page with
      | failed => cases h
      | doc doc =>
        simp only at h
        cases hf : findArticleWithPart doc ("part-".toList ++ fmtInt part) with
        | none =>
          rw [hf] at h
          cases h
        | some article =>
          rw [hf] at h
          simp only at h
          split at h
          · cases h
          · rename_i hne
            cases h
            have hid : TrimSpace (renderText article) = renderText article := trimSpace_idem _
            rw [hid] at hne
            exact ⟨hne, hid, trimSpace_head _, trimSpace_getLast _⟩
  · intro doc article hp h1 hf he
    subst hp
    unfold FetchPart
    rw [if_neg (by omega)]
    simp only [hf]
    have : TrimSpace (renderText article) = [] := by
      unfold renderText
      rw [trimSpace_idem]
      exact he
    rw [if_pos this]

/-- Witness of `C11_trimmed_nonempty`: an article with a heading and a
paragraph is returned trimmed, and an article whose heading has no text gives
the error "part 1 is empty". -/
theorem C11_trimmed_nonempty_witness :
    (FetchPart 1 (.doc (elem "body" []
        [elem "article" [("class", "description")]
          [elem "h3" [("id", "part-1")] [text " Part 1 "], elem "p" [] [text "\n  Go.\n"]]]))
      = .ok "Part 1\n\nGo.".toList
      ∧ "Part 1\n\nGo.".toList ≠ [])
    ∧ FetchPart 1 (.doc (elem "article" [("class", "description")]
          [elem "h3" [("id", "part-1")] []]))
        = .error (.empty 1) :=
  ⟨⟨by rfl,
      ((C11_trimmed_nonempty 1 (.doc (elem "body" []
        [elem "article" [("class", "description")]
          [elem "h3" [("id", "part-1")] [text " Part 1 "], elem "p" [] [text "\n  Go.\n"]]]))).1
        "Part 1\n\nGo.".toList (by rfl)).1⟩,
    (C11_trimmed_nonempty 1 (.doc (elem "article" [("class", "description")]
        [elem "h3" [("id", "part-1")] []]))).2 _ _ rfl (by decide) (by rfl) (by decide)⟩

end Puzzletext

namespace Bench

open Puzzletext

/-- C12: `formatDuration` on the nanosecond counts 999, 1500, 2000000,
1000000000 and 1234000 returns "999 ns", "1.5 us", "2 ms", "1 s" and
"1.23 ms". -/
theorem C12_reference_values :
    formatDuration "999".toList = some "999 ns".toList
      ∧ formatDuration "1500".toList = some "1.5 us".toList
      ∧ formatDuration "2000000".toList = some "2 ms".toList
      ∧ formatDuration "1000000000".toList = some "1 s".toList
      ∧ formatDuration "1234000".toList = some "1.23 ms".toList := by
  decide

theorem trimRight_snoc_ne (l : Str) {x c : Char} (h : x ≠ c) :
    TrimRight (l ++ [x]) c = l ++ [x] := by
  unfold TrimRight
  rw [List.reverse_append]
  simp [List.dropWhile_cons, h]

theorem trimRight_snoc_eq (l : Str) (c : Char) : TrimRight (l ++ [c]) c = TrimRight l c := by
  unfold TrimRight
  rw [List.reverse_append]
  simp [List.dropWhile_cons]

theorem trimRight_of_not_mem (l : Str) {c : Char} (h : c ∉ l) : TrimRight l c = l := by
  induction l using List.reverseRecOn with
  | nil => rfl
  | append_singleton l x _ =>
    apply trimRight_snoc_ne
    rintro rfl
    exact h (by simp)

theorem digit_eq_zero_iff {a : Nat} (h : a < 10) : Char.ofNat (48 + a) = '0' ↔ a = 0 := by
  revert a
  decide

theorem digit_ne_point {a : Nat} (h : a < 10) : Char.ofNat (48 + a) ≠ '.' := by
  revert a
  decide

theorem point_not_mem_fmtNat (n : Nat) : '.' ∉ (Summary.fmtNat n).map Char.ofNat := by
  intro h
  obtain ⟨x, hx, hc⟩ := List.mem_map.mp h
  rcases Summary.digitsAux_mem _ _ _ _ hx with h0 | h0
  · simp at h0
  · obtain ⟨a, rfl⟩ : ∃ a, x = 48 + a := ⟨x - 48, by omega⟩
    exact digit_ne_point (by omega) hc

/-- The two calls of `strings.TrimRight` in `formatDuration` strip the trailing
fractional zeros and a bare decimal point, nothing else. -/
theorem trim_formatFloat (x : F64) :
    TrimRight (TrimRight (FormatFloat x) '0') '.' = strippedDecimal x := by
  unfold FormatFloat strippedDecimal
  simp only
  generalize roundHalfEven (100 * x.num) x.den = q
  have h1 : q % 100 / 10 < 10 := by omega
  have h2 : q % 10 < 10 := by omega
  have e3 : ∀ (l : Str) (a b : Char), l ++ ['.', a, b] = (l ++ ['.', a]) ++ [b] := by
    intro l a b; simp
  have e2 : ∀ (l : Str) (a : Char), l ++ ['.', a] = (l ++ ['.']) ++ [a] := by
    intro l a; simp
  by_cases hb : q % 10 = 0
  · have hb0 : Char.ofNat (48 + q % 10) = '0' := (digit_eq_zero_iff h2).mpr hb
    by_cases ha : q % 100 / 10 = 0
    · have ha0 : Char.ofNat (48 + q % 100 / 10) = '0' := (digit_eq_zero_iff h1).mpr ha
      have hq : q % 100 = 0 := by omega
      rw [if_pos hq, hb0, ha0, e3, trimRight_snoc_eq, e2, trimRight_snoc_eq,
        trimRight_snoc_ne _ (by decide), trimRight_snoc_eq,
        trimRight_of_not_mem _ (point_not_mem_fmtNat _)]
    · have ha0 : Char.ofNat (48 + q % 100 / 10) ≠ '0' := fun h => ha ((digit_eq_zero_iff h1).mp h)
      have hq : ¬ q % 100 = 0 := by omega
      rw [if_neg hq, if_pos hb, hb0, e3, trimRight_snoc_eq, e2, trimRight_snoc_ne _ ha0,
        trimRight_snoc_ne _ (digit_ne_point h1)]
  · have hb0 : Char.ofNat (48 + q % 10) ≠ '0' := fun h => hb ((digit_eq_zero_iff h2).mp h)
    have hq : ¬ q % 100 = 0 := by omega
    rw [if_neg hq, if_neg hb, e3, trimRight_snoc_ne _ hb0, trimRight_snoc_ne _ (digit_ne_point h2)]

/-- C13: for every nanosecond text that parses to the value `value`, the unit
is `s` when `value >= 1e9`, `ms` when `1e6 <= value < 1e9`, `us` when
`1e3 <= value < 1e6` and `ns` otherwise; the printed number is the value
divided by the scale of the unit, rendered with two decimal places and stripped
of trailing fractional zeros and of a bare decimal point, followed by one space
and the unit. -/
theorem C13_format_rule (nsText : Str) (value : F64) (h : ParseFloat nsText = some value) :
    (10 ^ 9 * value.den ≤ value.num →
        formatDuration nsText = some (strippedDecimal (fdiv value (10 ^ 9)) ++ " s".toList))
      ∧ (value.num < 10 ^ 9 * value.den → 10 ^ 6 * value.den ≤ value.num →
        formatDuration nsText = some (strippedDecimal (fdiv value (10 ^ 6)) ++ " ms".toList))
      ∧ (value.num < 10 ^ 6 * value.den → 10 ^ 3 * value.den ≤ value.num →
        formatDuration nsText = some (strippedDecimal (fdiv value (10 ^ 3)) ++ " us".toList))
      ∧ (value.num < 10 ^ 3 * value.den →
        formatDuration nsText = some (strippedDecimal value ++ " ns".toList)) := by
  have hd6 : 10 ^ 6 * value.den ≤ 10 ^ 9 * value.den :=
    Nat.mul_le_mul_right _ (by norm_num)
  have hd3 : 10 ^ 3 * value.den ≤ 10 ^ 6 * value.den :=
    Nat.mul_le_mul_right _ (by norm_num)
  unfold formatDuration
  rw [h]
  simp only [fge, trim_formatFloat, decide_eq_true_eq]
  refine ⟨?_, ?_, ?_, ?_⟩
  · intro h9
    rw [if_pos h9]
    simp
  · intro h9 h6
    rw [if_neg (by omega), if_pos h6]
    simp
  · intro h6 h3
    rw [if_neg (by omega), if_neg (by omega), if_pos h3]
    simp
  · intro h3
    rw [if_neg (by omega), if_neg (by omega), if_neg (by omega)]
    simp

/-- Witness of `C13_format_rule`: 1234000 ns is at least 1e6 and below 1e9, and
is printed as 1.23 ms. -/
theorem C13_format_rule_witness :
    ParseFloat "1234000".toList = some ⟨1234000 * 2 ^ 32, 2 ^ 32⟩
      ∧ formatDuration "1234000".toList
        = some (strippedDecimal (fdiv ⟨1234000 * 2 ^ 32, 2 ^ 32⟩ (10 ^ 6)) ++ " ms".toList)
      ∧ strippedDecimal (fdiv ⟨1234000 * 2 ^ 32, 2 ^ 32⟩ (10 ^ 6)) = "1.23".toList :=
  ⟨by decide,
    (C13_format_rule "1234000".toList ⟨1234000 * 2 ^ 32, 2 ^ 32⟩ (by decide)).2.1
      (by decide) (by decide),
    by decide⟩

theorem lastFor_nil (k : Str) : lastFor k [] = none := rfl

theorem lastFor_cons_some {k v : Str} {ms : List (Str × Str)} (m : Str × Str)
    (h : lastFor k ms = some v) : lastFor k (m :: ms) = some v := by
  unfold lastFor at *
  rw [List.filter_cons]
  split
  · cases hf : List.filter (fun m => decide (m.1 = k)) ms with
    | nil => simp [hf] at h
    | cons x xs =>
      rw [hf] at h
      rw [List.getLast?_cons_cons]
      exact h
  · exact h

theorem lastFor_cons_none {k : Str} {ms : List (Str × Str)} (m : Str × Str)
    (h : lastFor k ms = none) :
    lastFor k (m :: ms) = if m.1 = k then some m.2 else none := by
  unfold lastFor at *
  have hf : List.filter (fun m => decide (m.1 = k)) ms = [] := by
    simpa using h
  rw [List.filter_cons, hf]
  by_cases hk : m.1 = k
  · simp [hk]
  · simp [hk]

theorem setPart_part (row : Result) (part value k : Str)
    (hk : k = "1".toList ∨ k = "2".toList ∨ k = "3".toList) :
    (setPart row part value).part k = if part = k then value else row.part k := by
  have e12 : "1".toList ≠ "2".toList := by decide
  have e13 : "1".toList ≠ "3".toList := by decide
  have e23 : "2".toList ≠ "3".toList := by decide
  unfold setPart
  by_cases h1 : part = "1".toList
  · rw [if_pos h1]
    rcases hk with rfl | rfl | rfl
    · rw [if_pos h1]
      unfold Result.part
      simp only [e12, e13, e23, e12.symm, e13.symm, e23.symm, if_true, if_false]
    · rw [if_neg (by rw [h1]; exact e12)]
      unfold Result.part
      simp only [e12, e13, e23, e12.symm, e13.symm, e23.symm, if_true, if_false]
    · rw [if_neg (by rw [h1]; exact e13)]
      unfold Result.part
      simp only [e12, e13, e23, e12.symm, e13.symm, e23.symm, if_true, if_false]
  · rw [if_neg h1]
    by_cases h2 : part = "2".toList
    · rw [if_pos h2]
      rcases hk with rfl | rfl | rfl
      · rw [if_neg h1]
        unfold Result.part
        simp only [e12, e13, e23, e12.symm, e13.symm, e23.symm, if_true, if_false]
      · rw [if_pos h2]
        unfold Result.part
        simp only [e12, e13, e23, e12.symm, e13.symm, e23.symm, if_true, if_false]
      · rw [if_neg (by rw [h2]; exact e23)]
        unfold Result.part
        simp only [e12, e13, e23, e12.symm, e13.symm, e23.symm, if_true, if_false]
    · rw [if_neg h2]
      by_cases h3 : part = "3".toList
      · rw [if_pos h3]
        rcases hk with rfl | rfl | rfl
        · rw [if_neg h1]
          unfold Result.part
          simp only [e12, e13, e23, e12.symm, e13.symm, e23.symm, if_true, if_false]
        · rw [if_neg h2]
          unfold Result.part
          simp only [e12, e13, e23, e12.symm, e13.symm, e23.symm, if_true, if_false]
        · rw [if_pos h3]
          unfold Result.part
          simp only [e12, e13, e23, e12.symm, e13.symm, e23.symm, if_true, if_false]
      · rw [if_neg h3]
        rcases hk with rfl | rfl | rfl
        · rw [if_neg h1]
        · rw [if_neg h2]
        · rw [if_neg h3]

theorem setPart_puzzleID (row : Result) (part value : Str) :
    (setPart row part value).PuzzleID = row.PuzzleID := by
  unfold setPart
  split
  · rfl
  · split
    · rfl
    · split
      · rfl
      · rfl

/-- Invariant of the scanning loop: on success the identifier is unchanged, and
every part field holds the formatted duration of the last matching line for
that part, or its former value when no line matches for the part. -/
theorem scanLoop_ok :
    ∀ (lines : List Str) (row out : Result), scanLoop lines row = .ok out →
      out.PuzzleID = row.PuzzleID
        ∧ ∀ k : Str, (k = "1".toList ∨ k = "2".toList ∨ k = "3".toList) →
          (∀ v, lastFor k (lines.filterMap (fun raw => benchLineRe (dropCR raw))) = some v →
              formatDuration v = some (out.part k))
            ∧ (lastFor k (lines.filterMap (fun raw => benchLineRe (dropCR raw))) = none →
              out.part k = row.part k) := by
  intro lines
  induction lines with
  | nil =>
    intro row out h
    rw [scanLoop] at h
    cases h
    refine ⟨rfl, fun k _ => ⟨?_, fun _ => rfl⟩⟩
    intro v hv
    simp [lastFor_nil] at hv
  | cons raw rest ih =>
    intro row out h
    rw [scanLoop] at h
    split at h
    · cases h
    · cases hm : benchLineRe (dropCR raw) with
      | none =>
        rw [hm] at h
        simp only at h
        have := ih row out h
        simpa [List.filterMap_cons, hm] using this
      | some m =>
        obtain ⟨part, nsText⟩ := m
        rw [hm] at h
        simp only at h
        cases hf : formatDuration nsText with
        | none =>
          rw [hf] at h
          cases h
        | some value =>
          rw [hf] at h
          simp only at h
          obtain ⟨hid, hparts⟩ := ih _ out h
          refine ⟨by rw [hid, setPart_puzzleID], ?_⟩
          intro k hk
          obtain ⟨h1, h2⟩ := hparts k hk
          rw [List.filterMap_cons, hm]
          simp only
          constructor
          · intro v hv
            cases hl : lastFor k (rest.filterMap (fun raw => benchLineRe (dropCR raw))) with
            | some w =>
              rw [lastFor_cons_some _ hl] at hv
              cases hv
              exact h1 _ hl
            | none =>
              rw [lastFor_cons_none _ hl] at hv
              simp only at hv
              split at hv
              · rename_i hpk
                cases hv
                rw [h2 hl, setPart_part _ _ _ _ hk, if_pos hpk]
                exact hf
              · cases hv
          · intro hnone
            cases hl : lastFor k (rest.filterMap (fun raw => benchLineRe (dropCR raw))) with
            | some w =>
              rw [lastFor_cons_some _ hl] at hnone
              cases hnone
            | none =>
              rw [lastFor_cons_none _ hl] at hnone
              simp only at hnone
              split at hnone
              · cases hnone
              · rename_i hpk
                rw [h2 hl, setPart_part _ _ _ _ hk, if_neg hpk]

/-- The scanning loop succeeds when no line is too long and every matching
line holds a duration that `formatDuration` accepts. -/
theorem scanLoop_total :
    ∀ (lines : List Str) (row : Result), (∀ raw ∈ lines, utf8Len raw < MaxScanTokenSize) →
      (∀ m ∈ lines.filterMap (fun raw => benchLineRe (dropCR raw)),
        (formatDuration m.2).isSome = true) →
      ∃ out, scanLoop lines row = .ok out := by
  intro lines
  induction lines with
  | nil =>
    intro row _ _
    exact ⟨row, by rw [scanLoop]⟩
  | cons raw rest ih =>
    intro row hlen hfmt
    rw [scanLoop, if_neg (by have := hlen raw (List.mem_cons_self _ _); omega)]
    have hlen2 : ∀ r ∈ rest, utf8Len r < MaxScanTokenSize :=
      fun r hr => hlen r (List.mem_cons_of_mem _ hr)
    cases hm : benchLineRe (dropCR raw) with
    | none =>
      simp only
      apply ih row hlen2
      intro m hmem
      apply hfmt
      rw [List.filterMap_cons, hm]
      exact hmem
    | some m =>
      obtain ⟨part, nsText⟩ := m
      simp only
      have hfm : ∀ m ∈ rest.filterMap (fun raw => benchLineRe (dropCR raw)),
          (formatDuration m.2).isSome = true := by
        intro m hmem
        apply hfmt
        rw [List.filterMap_cons, hm]
        exact List.mem_cons_of_mem _ hmem
      have hhead : (formatDuration nsText).isSome = true := by
        apply hfmt (part, nsText)
        rw [List.filterMap_cons, hm]
        exact List.mem_cons_self _ _
      cases hf : formatDuration nsText with
      | none =>
        rw [hf] at hhead
        cases hhead
      | some value =>
        simp only
        exact ih _ hlen2 hfm

/-- C14: last-wins. When no line of the output is too long for the scanner and
every matching line holds a duration that `formatDuration` accepts, `runBench`
returns a result; and in every result `runBench` returns, the field of each part
that has a matching line holds the formatted duration of the last matching line
for that part. -/
theorem C14_last_wins (text : Str) (puzzleID : Int) :
    ((∀ raw ∈ rawLines text, utf8Len raw < MaxScanTokenSize) →
        (∀ m ∈ matchedLines text, (formatDuration m.2).isSome = true) →
        ∃ row, runBench (.output text) puzzleID = .ok row)
      ∧ ∀ row, runBench (.output text) puzzleID = .ok row →
          ∀ k v : Str, (k = "1".toList ∨ k = "2".toList ∨ k = "3".toList) →
            lastFor k (matchedLines text) = some v →
            formatDuration v = some (row.part k) := by
  constructor
  · intro hlen hfmt
    exact scanLoop_total _ _ hlen hfmt
  · intro row h k v hk hv
    exact ((scanLoop_ok _ _ _ h).2 k hk).1 v hv

/-- Witness of `C14_last_wins`: two lines for part 1, the later one wins. -/
theorem C14_last_wins_witness :
    runBench (.output ("BenchmarkSolve/part1-8 100 1500 ns/op\n"
        ++ "BenchmarkSolve/part1-8 200 999 ns/op\n").toList) 7
      = .ok ⟨7, "999 ns".toList, [], []⟩
    ∧ lastFor "1".toList (matchedLines ("BenchmarkSolve/part1-8 100 1500 ns/op\n"
        ++ "BenchmarkSolve/part1-8 200 999 ns/op\n").toList) = some "999".toList
    ∧ formatDuration "999".toList
      = some ((⟨7, "999 ns".toList, [], []⟩ : Result).part "1".toList) :=
  ⟨by rfl, by decide,
    (C14_last_wins ("BenchmarkSolve/part1-8 100 1500 ns/op\n"
        ++ "BenchmarkSolve/part1-8 200 999 ns/op\n").toList 7).2
      ⟨7, "999 ns".toList, [], []⟩ (by rfl) "1".toList "999".toList (Or.inl rfl) (by decide)⟩

theorem rawLinesAux_line (l b : Str) (hl : '\n' ∉ l) :
    ∀ cur : Str, rawLinesAux (l ++ '\n' :: b) cur = (cur.reverse ++ l) :: rawLinesAux b [] := by
  induction l with
  | nil =>
    intro cur
    simp [rawLinesAux]
  | cons c l ih =>
    intro cur
    have hc : c ≠ '\n' := fun h => hl (by simp [h])
    have hl2 : '\n' ∉ l := fun h => hl (List.mem_cons_of_mem _ h)
    rw [List.cons_append, rawLinesAux, if_neg hc, ih hl2]
    simp

theorem rawLinesAux_split (a rest : Str) :
    ∀ cur : Str, rawLinesAux (a ++ '\n' :: rest) cur
      = rawLinesAux (a ++ ['\n']) cur ++ rawLinesAux rest [] := by
  induction a with
  | nil =>
    intro cur
    simp [rawLinesAux]
  | cons c a ih =>
    intro cur
    rw [List.cons_append, List.cons_append, rawLinesAux, rawLinesAux]
    split
    · rw [ih]
      simp
    · rw [ih]

theorem rawLines_append (a rest : Str) (ha : a = [] ∨ a.getLast? = some '\n') :
    rawLines (a ++ rest) = rawLines a ++ rawLines rest := by
  rcases ha with rfl | ha
  · simp [rawLines, rawLinesAux]
  · have h := List.dropLast_append_getLast? '\n' ha
    unfold rawLines
    rw [← h, List.append_assoc, List.singleton_append, rawLinesAux_split]

theorem scanLoop_append (xs ys : List Str) :
    ∀ row : Result, scanLoop (xs ++ ys) row
      = match scanLoop xs row with
        | .ok r => scanLoop ys r
        | .error e => .error e := by
  induction xs with
  | nil =>
    intro row
    simp [scanLoop]
  | cons x xs ih =>
    intro row
    rw [List.cons_append, scanLoop, scanLoop]
    split
    · rfl
    · cases hm : benchLineRe (dropCR x) with
      | none => exact ih row
      | some m =>
        obtain ⟨part, nsText⟩ := m
        simp only
        cases formatDuration nsText with
        | none => rfl
        | some value => exact ih _

/-- C15 (amended): a line that does not match the benchmark pattern and is
shorter than the 64 KiB the scanner accepts can be inserted into or deleted from
the output without changing what `runBench` returns; in every result the
identifier is the one passed in and a part with no matching line has the empty
string in its field. -/
theorem C15_ignores_lines (a l b : Str) (puzzleID : Int)
    (ha : a = [] ∨ a.getLast? = some '\n') (hl : '\n' ∉ l)
    (hm : benchLineRe (dropCR l) = none) (hlen : utf8Len l < MaxScanTokenSize) :
    runBench (.output (a ++ l ++ '\n' :: b)) puzzleID = runBench (.output (a ++ b)) puzzleID
      ∧ ∀ text row, runBench (.output text) puzzleID = .ok row →
          row.PuzzleID = puzzleID
            ∧ ∀ k : Str, (k = "1".toList ∨ k = "2".toList ∨ k = "3".toList) →
                lastFor k (matchedLines text) = none → row.part k = [] := by
  constructor
  · unfold runBench
    simp only
    have h1 : rawLines (a ++ l ++ '\n' :: b) = rawLines a ++ l :: rawLines b := by
      rw [List.append_assoc, rawLines_append _ _ ha]
      congr 1
      unfold rawLines
      rw [rawLinesAux_line l b hl]
      simp
    rw [h1, rawLines_append _ _ ha, scanLoop_append, scanLoop_append]
    cases scanLoop (rawLines a) _ with
    | error e => rfl
    | ok r =>
      simp only
      rw [scanLoop, if_neg (by omega), hm]
  · intro text row h
    obtain ⟨hid, hparts⟩ := scanLoop_ok _ _ _ h
    refine ⟨hid, ?_⟩
    intro k hk hnone
    rw [(hparts k hk).2 hnone]
    rcases hk with rfl | rfl | rfl <;> rfl

/-- Witness of `C15_ignores_lines`: the line `PASS` between two benchmark
lines. -/
theorem C15_ignores_lines_witness :
    benchLineRe (dropCR "PASS".toList) = none
      ∧ runBench (.output ("BenchmarkSolve/part1-8 100 1500 ns/op\n".toList ++ "PASS".toList
            ++ '\n' :: "BenchmarkSolve/part2-8 200 999 ns/op\n".toList)) 7
        = runBench (.output ("BenchmarkSolve/part1-8 100 1500 ns/op\n".toList
            ++ "BenchmarkSolve/part2-8 200 999 ns/op\n".toList)) 7
      ∧ runBench (.output ("BenchmarkSolve/part1-8 100 1500 ns/op\n".toList
            ++ "BenchmarkSolve/part2-8 200 999 ns/op\n".toList)) 7
        = .ok ⟨7, "1.5 us".toList, "999 ns".toList, []⟩ :=
  ⟨by decide,
    (C15_ignores_lines "BenchmarkSolve/part1-8 100 1500 ns/op\n".toList "PASS".toList
      "BenchmarkSolve/part2-8 200 999 ns/op\n".toList 7 (Or.inr (by decide)) (by decide)
      (by decide) (by decide)).1,
    by rfl⟩

theorem utf8Len_replicate (n : Nat) : utf8Len (List.replicate n 'x') = n := by
  unfold utf8Len
  have h : Char.utf8Size 'x' = 1 := by decide
  simp [List.map_replicate, List.sum_replicate, h]

theorem rawLines_replicate (n : Nat) :
    rawLines (List.replicate n 'x' ++ ['\n']) = [List.replicate n 'x'] := by
  have hx : '\n' ∉ List.replicate n 'x' := by
    intro h
    have := List.eq_of_mem_replicate h
    revert this
    decide
  unfold rawLines
  rw [rawLinesAux_line _ _ hx]
  simp [rawLinesAux]

theorem benchLineRe_replicate (n : Nat) :
    benchLineRe (dropCR (List.replicate (n + 1) 'x')) = none := by
  have hd : dropCR (List.replicate (n + 1) 'x') = List.replicate (n + 1) 'x' := by
    unfold dropCR
    rw [if_neg]
    rw [List.getLast?_replicate]
    simp
  rw [hd, List.replicate_succ]
  unfold benchLineRe
  rw [if_neg]
  simp [List.isPrefixOf]

/-- C15 as stated fails: the empty output gives an empty result, and after
inserting one line of 65536 characters `x`, which does not match the benchmark
pattern, `runBench` returns the error "parse bench output". -/
theorem C15_counterexample :
    runBench (.output []) 7 = .ok ⟨7, [], [], []⟩
      ∧ benchLineRe (dropCR (List.replicate 65536 'x')) = none
      ∧ runBench (.output (List.replicate 65536 'x' ++ ['\n'])) 7 = .error .output := by
  refine ⟨by rfl, benchLineRe_replicate 65535, ?_⟩
  unfold runBench
  simp only
  rw [rawLines_replicate, scanLoop, if_pos]
  rw [utf8Len_replicate]
  decide

end Bench

namespace Score

open Puzzletext

theorem findFirst_eq_none_iff {α : Type} (m : Str → Option α) :
    ∀ s : Str, findFirst m s = none ↔ ∀ i, m (s.drop i) = none := by
  intro s
  induction s with
  | nil => simp [findFirst]
  | cons c cs ih =>
    rw [findFirst]
    cases hm : m (c :: cs) with
    | some x =>
      simp only [reduceCtorEq, false_iff, not_forall]
      exact ⟨0, by simp [hm]⟩
    | none =>
      simp only
      rw [ih]
      constructor
      · intro h i
        cases i with
        | zero => simpa using hm
        | succ i => simpa using h i
      · intro h i
        simpa using h (i + 1)

theorem findFirst_eq_some {α : Type} (m : Str → Option α) (x : α) :
    ∀ (s : Str) (i : Nat), m (s.drop i) = some x → (∀ j < i, m (s.drop j) = none) →
      findFirst m s = some x := by
  intro s
  induction s with
  | nil =>
    intro i h _
    rw [findFirst]
    simpa using h
  | cons c cs ih =>
    intro i h hmin
    rw [findFirst]
    cases i with
    | zero =>
      have h0 : m (c :: cs) = some x := by simpa using h
      rw [h0]
    | succ i =>
      have h0 : m (c :: cs) = none := by simpa using hmin 0 (Nat.succ_pos i)
      rw [h0]
      simp only
      apply ih i (by simpa using h)
      intro j hj
      simpa using hmin (j + 1) (by omega)

theorem takeWhile_run (p : Char → Bool) (d : Str) (rest : Str) (hd : d.all p = true)
    (hr : ∀ y, rest.head? = some y → p y = false) :
    (d ++ rest).takeWhile p = d ∧ (d ++ rest).dropWhile p = rest := by
  induction d with
  | nil =>
    cases rest with
    | nil => simp
    | cons y rest =>
      have := hr y rfl
      simp [List.takeWhile_cons, List.dropWhile_cons, this]
  | cons c d ih =>
    simp only [List.all_cons, Bool.and_eq_true] at hd
    have := ih hd.2
    simp [List.takeWhile_cons, List.dropWhile_cons, hd.1, this.1, this.2]

theorem all_takeWhile (p : Char → Bool) (l : Str) : (l.takeWhile p).all p = true := by
  rw [List.all_eq_true]
  intro x hx
  exact List.mem_takeWhile_imp hx

theorem scoreReAt_eq_some_iff (s d : Str) : scoreReAt s = some d ↔ ScoreAt s d := by
  unfold scoreReAt ScoreAt
  constructor
  · intro h
    split at h
    · rename_i hp
      obtain ⟨r, hr⟩ := List.isPrefixOf_iff_prefix.mp hp
      have hdrop : List.drop "const score = ".toList.length s = r := by
        rw [← hr, List.drop_left]
      rw [hdrop] at h
      simp only at h
      split at h
      · rename_i hc
        cases h
        cases hrest : r.dropWhile isDigit with
        | nil => simp [hrest] at hc
        | cons y post =>
          have hy : y = ';' := by
            have := hc.2
            rw [hrest] at this
            simpa using this
          subst hy
          refine ⟨post, ?_, hc.1, all_takeWhile _ _⟩
          rw [← hr, List.append_assoc, ← hrest, List.takeWhile_append_dropWhile]
      · cases h
    · cases h
  · rintro ⟨post, rfl, hne, hd⟩
    have hp : "const score = ".toList.isPrefixOf ("const score = ".toList ++ d ++ ';' :: post)
        = true := by
      rw [List.isPrefixOf_iff_prefix, List.append_assoc]
      exact List.prefix_append _ _
    have hdrop : List.drop "const score = ".toList.length
        ("const score = ".toList ++ d ++ ';' :: post) = d ++ ';' :: post := by
      rw [List.append_assoc, List.drop_left]
    obtain ⟨h1, h2⟩ := takeWhile_run isDigit d (';' :: post) hd
      (fun y hy => by cases hy; decide)
    rw [if_pos hp, hdrop]
    simp only [h1, h2]
    rw [if_pos ⟨hne, rfl⟩]

theorem totalReAt_eq_some_iff (s d : Str) : totalReAt s = some d ↔ TotalAt s d := by
  unfold totalReAt TotalAt
  constructor
  · intro h
    split at h
    · rename_i hp
      obtain ⟨r, hr⟩ := List.isPrefixOf_iff_prefix.mp hp
      have hdrop : List.drop "completed <span class=\"score\">?</span>/".toList.length s = r := by
        rw [← hr, List.drop_left]
      rw [hdrop] at h
      simp only at h
      split at h
      · rename_i hc
        cases h
        obtain ⟨post, hpost⟩ := List.isPrefixOf_iff_prefix.mp hc.2
        refine ⟨post, ?_, hc.1, all_takeWhile _ _⟩
        rw [← hr, List.append_assoc, List.append_assoc, hpost,
          List.takeWhile_append_dropWhile]
      · cases h
    · cases h
  · rintro ⟨post, rfl, hne, hd⟩
    have hp : "completed <span class=\"score\">?</span>/".toList.isPrefixOf
        ("completed <span class=\"score\">?</span>/".toList ++ d ++ " parts".toList ++ post)
        = true := by
      rw [List.isPrefixOf_iff_prefix, List.append_assoc, List.append_assoc]
      exact List.prefix_append _ _
    have hdrop : List.drop "completed <span class=\"score\">?</span>/".toList.length
        ("completed <span class=\"score\">?</span>/".toList ++ d ++ " parts".toList ++ post)
        = d ++ (" parts".toList ++ post) := by
      rw [List.append_assoc, List.append_assoc, List.drop_left]
    obtain ⟨h1, h2⟩ := takeWhile_run isDigit d (" parts".toList ++ post) hd
      (fun y hy => by
        have : y = ' ' := by
          have e : (" parts".toList ++ post) = ' ' :: ("parts".toList ++ post) := rfl
          rw [e] at hy
          cases hy
          rfl
        subst this
        decide)
    rw [if_pos hp, hdrop]
    simp only [h1, h2]
    rw [if_pos ⟨hne, List.isPrefixOf_iff_prefix.mpr (List.prefix_append _ _)⟩]

theorem head_not_sign {d : Str} (hd : d.all isDigit = true) :
    ¬ (d.head? = some '-' ∨ d.head? = some '+') := by
  cases d with
  | nil => simp
  | cons c d =>
    simp only [List.all_cons, Bool.and_eq_true] at hd
    rintro (h | h)
    · have hc : c = '-' := by simpa using h
      rw [hc] at hd
      exact absurd hd.1 (by decide)
    · have hc : c = '+' := by simpa using h
      rw [hc] at hd
      exact absurd hd.1 (by decide)

theorem atoi_digits {d : Str} (hne : d ≠ []) (hd : d.all isDigit = true) :
    Atoi d = if 2 ^ 63 ≤ Bench.digitsValue d then none else some (Bench.digitsValue d : Int) := by
  have hs := head_not_sign hd
  have hm : ¬ d.head? = some '-' := fun h => hs (Or.inl h)
  unfold Atoi
  simp only [if_neg hs, if_neg hm]
  rw [if_neg (by simp [hne, hd])]
  rfl

theorem atoiValue_digits {d : Str} (hne : d ≠ []) (hd : d.all isDigit = true) :
    AtoiValue d = if Bench.digitsValue d < 2 ^ 63 then (Bench.digitsValue d : Int)
      else 2 ^ 63 - 1 := by
  have hs := head_not_sign hd
  have hm : ¬ d.head? = some '-' := fun h => hs (Or.inl h)
  by_cases h : 2 ^ 63 ≤ Bench.digitsValue d
  · have hA : Atoi d = none := by rw [atoi_digits hne hd, if_pos h]
    unfold AtoiValue
    rw [hA]
    simp only [if_neg hs, if_neg hm]
    rw [if_neg (by simp [hne, hd]), if_neg (not_lt.mpr h)]
  · have hA : Atoi d = some (Bench.digitsValue d : Int) := by
      rw [atoi_digits hne hd, if_neg h]
    unfold AtoiValue
    rw [hA]
    simp only
    rw [if_pos (not_le.mp h)]

theorem scoreRe_eq_none_iff (text : Str) :
    scoreRe text = none ↔ ¬ ∃ pre d post, text = pre ++ "const score = ".toList ++ d ++ ';' :: post
      ∧ d ≠ [] ∧ d.all isDigit = true := by
  unfold scoreRe
  rw [findFirst_eq_none_iff]
  constructor
  · rintro h ⟨pre, d, post, rfl, hne, hd⟩
    have h1 := h pre.length
    rw [List.append_assoc, List.append_assoc, List.drop_left] at h1
    have h2 : scoreReAt ("const score = ".toList ++ (d ++ ';' :: post)) = some d := by
      rw [scoreReAt_eq_some_iff]
      exact ⟨post, by simp, hne, hd⟩
    rw [h2] at h1
    cases h1
  · intro h i
    cases hm : scoreReAt (text.drop i) with
    | none => rfl
    | some d =>
      exfalso
      obtain ⟨post, hpost, hne, hd⟩ := (scoreReAt_eq_some_iff _ _).mp hm
      apply h
      refine ⟨text.take i, d, post, ?_, hne, hd⟩
      rw [List.append_assoc, List.append_assoc]
      rw [List.append_assoc] at hpost
      rw [← hpost, List.take_append_drop]

theorem fetch_score_found {year : Int} {text d : Str} (hy : 1000 ≤ year)
    (h : scoreRe text = some d) :
    Fetch year (.body text)
      = match Atoi d with
        | none => .error .parseScore
        | some score =>
          .ok (score, match totalRe text with
            | some t => AtoiValue t
            | none => 0) := by
  unfold Fetch
  rw [if_neg (by omega)]
  simp only [h]

/-- C16: for a year the scraper accepts, `Fetch` fails with the error
"score not found; are you logged in?" exactly on the bodies that contain no
text of the form `const score = <digits>;`, whether or not the total pattern is
present; an error carries no score and no total. -/
theorem C16_score_required (year : Int) (text : Str) (hy : 1000 ≤ year) :
    Fetch year (.body text) = .error .scoreNotFound
      ↔ ¬ ∃ pre d post, text = pre ++ "const score = ".toList ++ d ++ ';' :: post
          ∧ d ≠ [] ∧ d.all isDigit = true := by
  rw [← scoreRe_eq_none_iff]
  cases h : scoreRe text with
  | none =>
    unfold Fetch
    rw [if_neg (by omega)]
    simp only [h]
  | some d =>
    rw [fetch_score_found hy h]
    cases Atoi d with
    | none => simp
    | some score => simp

/-- Witness of `C16_score_required`: a page of a visitor who is not logged in,
with the total pattern present. -/
theorem C16_score_required_witness :
    (1000 : Int) ≤ 2025
      ∧ Fetch 2025
          (.body "<p>completed <span class=\"score\">?</span>/90 parts</p>".toList)
        = .error .scoreNotFound :=
  ⟨by decide,
    by
      rw [C16_score_required 2025 _ (by decide)]
      rw [← scoreRe_eq_none_iff]
      decide⟩

/-- C17 (amended): let the first match of the score pattern in a body have the
digits `d`. When the value of `d` is below `2 ^ 63`, `Fetch` succeeds with that
score, whatever the total: the total is 0 when the total pattern does not occur,
and otherwise the number captured by its first match (or `2 ^ 63 - 1` when that
number does not fit an `int`). When the value of `d` is `2 ^ 63` or more, `Fetch`
fails with the error "parse score". -/
theorem C17_total_best_effort (year : Int) (text d : Str) (i : Nat) (hy : 1000 ≤ year)
    (hi : ScoreAt (text.drop i) d) (hmin : ∀ j < i, ∀ d', ¬ ScoreAt (text.drop j) d') :
    (2 ^ 63 ≤ Bench.digitsValue d → Fetch year (.body text) = .error .parseScore)
      ∧ (Bench.digitsValue d < 2 ^ 63 →
          ((∀ j t, ¬ TotalAt (text.drop j) t) →
              Fetch year (.body text) = .ok ((Bench.digitsValue d : Int), 0))
            ∧ ∀ k t, TotalAt (text.drop k) t → (∀ j < k, ∀ t', ¬ TotalAt (text.drop j) t') →
                Fetch year (.body text)
                  = .ok ((Bench.digitsValue d : Int),
                      if Bench.digitsValue t < 2 ^ 63 then (Bench.digitsValue t : Int)
                      else 2 ^ 63 - 1)) := by
  have hscore : scoreRe text = some d := by
    apply findFirst_eq_some scoreReAt d text i ((scoreReAt_eq_some_iff _ _).mpr hi)
    intro j hj
    cases hm : scoreReAt (text.drop j) with
    | none => rfl
    | some d' => exact absurd ((scoreReAt_eq_some_iff _ _).mp hm) (hmin j hj d')
  obtain ⟨_, _, hne, hd⟩ := hi
  rw [fetch_score_found hy hscore, atoi_digits hne hd]
  refine ⟨?_, ?_⟩
  · intro hbig
    rw [if_pos hbig]
  · intro hsmall
    rw [if_neg (by omega)]
    simp only
    refine ⟨?_, ?_⟩
    · intro hno
      have htot : totalRe text = none := by
        unfold totalRe
        rw [findFirst_eq_none_iff]
        intro j
        cases hm : totalReAt (text.drop j) with
        | none => rfl
        | some t => exact absurd ((totalReAt_eq_some_iff _ _).mp hm) (hno j t)
      rw [htot]
    · intro k t hk hkmin
      have htot : totalRe text = some t := by
        apply findFirst_eq_some totalReAt t text k ((totalReAt_eq_some_iff _ _).mpr hk)
        intro j hj
        cases hm : totalReAt (text.drop j) with
        | none => rfl
        | some t' => exact absurd ((totalReAt_eq_some_iff _ _).mp hm) (hkmin j hj t')
      obtain ⟨_, _, htne, htd⟩ := hk
      rw [htot]
      simp only
      rw [atoiValue_digits htne htd]

theorem not_scoreAt_of_none {s : Str} (h : scoreReAt s = none) (d : Str) : ¬ ScoreAt s d := by
  intro hd
  rw [(scoreReAt_eq_some_iff _ _).mpr hd] at h
  cases h

theorem not_totalAt_of_none {text : Str} (h : totalRe text = none) (j : Nat) (t : Str) :
    ¬ TotalAt (text.drop j) t := by
  intro ht
  have := (findFirst_eq_none_iff totalReAt text).mp h j
  rw [(totalReAt_eq_some_iff _ _).mpr ht] at this
  cases this

/-- Witness of `C17_total_best_effort`: a body with the score 42 at offset 2
and no total. -/
theorem C17_total_best_effort_witness :
    ScoreAt ("x const score = 42; y".toList.drop 2) "42".toList
      ∧ Bench.digitsValue "42".toList < 2 ^ 63
      ∧ Fetch 2025 (.body "x const score = 42; y".toList) = .ok (42, 0) :=
  ⟨⟨" y".toList, by decide, by decide, by decide⟩, by decide,
    (((C17_total_best_effort 2025 "x const score = 42; y".toList "42".toList 2 (by decide)
      ⟨" y".toList, by decide, by decide, by decide⟩
      (fun j hj d => not_scoreAt_of_none (by interval_cases j <;> decide) d)).2
        (by decide)).1 (not_totalAt_of_none (by decide))).trans (by rfl)⟩

/-- C17 as stated fails: a body that holds the score pattern with digits too
large for an `int`, and no total pattern, does not give a score; `Fetch` returns
the error "parse score". -/
theorem C17_counterexample :
    scoreRe "const score = 9223372036854775808;".toList = some "9223372036854775808".toList
      ∧ totalRe "const score = 9223372036854775808;".toList = none
      ∧ Fetch 2025 (.body "const score = 9223372036854775808;".toList) = .error .parseScore :=
  ⟨by decide, by decide, by rfl⟩

end Score

namespace Summary

open Puzzletext

/-- C18: for the summary of 2025 with score 5 and total 0, `formatSummary` of
summary.go prints the pointers line `Pointers (2025): 5/0`, with the digit 0,
while `formatPointerLine` of score/readme.go prints `Pointers (2025): 5/?` for the
same values. -/
theorem C18_unknown_total_printed_as_zero :
    formatSummary ⟨2025, 5, 0, [], []⟩ [] []
        = ("# Flip Flop\n\n## Year : 2025\n\n### Pointers\n\nPointers (2025): 5/0\n\n"
            ++ "### Benchmarks\n\nNo benchmarks yet.").toList
      ∧ "Pointers (2025): 5/0".toList ∈ summaryLines ⟨2025, 5, 0, [], []⟩ [] []
      ∧ "Pointers (2025): 5/?".toList ∉ summaryLines ⟨2025, 5, 0, [], []⟩ [] []
      ∧ Score.formatPointerLine 2025 5 0 = "Pointers (2025): 5/?".toList := by
  decide

end Summary

namespace Bench

open Puzzletext

theorem runBench_puzzleID {cmd : CmdOutput} {puzzleID : Int} {row : Result}
    (h : runBench cmd puzzleID = .ok row) : row.PuzzleID = puzzleID := by
  cases cmd with
  | failed => cases h
  | output text => exact (scanLoop_ok _ _ _ h).1

/-- The identifiers of the rows the loop of `Collect` gathers are those of the
accepted entries, in the order of the entries. -/
theorem collectLoop_ids (run : Str → CmdOutput) :
    ∀ (entries : List dirEntry) (acc rows : List Result),
      collectLoop run entries acc = .ok rows →
      rows.map (fun r => r.PuzzleID)
        = acc.map (fun r => r.PuzzleID) ++ entries.filterMap puzzleDirID := by
  intro entries
  induction entries with
  | nil =>
    intro acc rows h
    rw [collectLoop] at h
    cases h
    simp
  | cons e rest ih =>
    intro acc rows h
    rw [collectLoop] at h
    by_cases hc : (!e.isDir || !HasPrefix e.name "puzzle".toList) = true
    · rw [if_pos hc] at h
      have hp : puzzleDirID e = none := by
        unfold puzzleDirID
        rw [if_pos hc]
      rw [List.filterMap_cons, hp]
      exact ih acc rows h
    · rw [if_neg hc] at h
      have hp : puzzleDirID e = parsePuzzleID e.name := by
        unfold puzzleDirID
        rw [if_neg hc]
      rw [List.filterMap_cons, hp]
      cases hid : parsePuzzleID e.name with
      | none =>
        rw [hid] at h
        exact ih acc rows h
      | some puzzleID =>
        rw [hid] at h
        simp only at h
        cases hr : runBench (run e.name) puzzleID with
        | error err =>
          rw [hr] at h
          cases h
        | ok row =>
          rw [hr] at h
          simp only at h
          rw [ih _ rows h, List.map_append, List.append_assoc]
          simp [runBench_puzzleID hr]

/-- An entry contributes a row exactly when it is a directory whose name is
`puzzle` followed by a text that `strconv.Atoi` accepts. -/
theorem puzzleDirID_eq_some_iff (e : dirEntry) (id : Int) :
    puzzleDirID e = some id
      ↔ e.isDir = true ∧ ∃ v, e.name = "puzzle".toList ++ v ∧ Atoi v = some id := by
  unfold puzzleDirID parsePuzzleID
  constructor
  · intro h
    split at h
    · cases h
    · rename_i hc
      simp only [Bool.or_eq_true, Bool.not_eq_true', not_or, Bool.not_eq_false] at hc
      obtain ⟨v, hv⟩ := (hasPrefix_iff _ _).mp hc.2
      refine ⟨hc.1, v, hv, ?_⟩
      rw [hv, trimPrefix_append] at h
      exact h
  · rintro ⟨hd, v, hv, ha⟩
    have hp : HasPrefix e.name "puzzle".toList = true := (hasPrefix_iff _ _).mpr ⟨v, hv⟩
    have hc : ¬ (!e.isDir || !HasPrefix e.name "puzzle".toList) = true := by
      rw [hd, hp]
      decide
    rw [if_neg hc, hv, trimPrefix_append]
    exact ha

theorem isDigit_bounds {c : Char} (h : isDigit c = true) : 48 ≤ c.toNat ∧ c.toNat ≤ 57 := by
  unfold isDigit at h
  simpa using h

theorem puzzleDirID_two_digits (e : dirEntry) (a b : Char) (hd : e.isDir = true)
    (hn : e.name = "puzzle".toList ++ [a, b]) (ha : isDigit a = true) (hb : isDigit b = true) :
    puzzleDirID e = some ((10 * (a.toNat - 48) + (b.toNat - 48) : Nat) : Int) := by
  rw [puzzleDirID_eq_some_iff]
  refine ⟨hd, [a, b], hn, ?_⟩
  have hv : digitsValue [a, b] = 10 * (a.toNat - 48) + (b.toNat - 48) := by
    simp [digitsValue]
    omega
  have ha2 := isDigit_bounds ha
  have hb2 := isDigit_bounds hb
  rw [Score.atoi_digits (by simp) (by simp [ha, hb]), hv, if_neg]
  have : (2 : Nat) ^ 63 = 9223372036854775808 := by norm_num
  omega

end Bench

namespace Summary

open Puzzletext

theorem pointersRow_puzzleID (puzzleID : Int) (parts : List Int) :
    (pointersRow puzzleID parts).PuzzleID = puzzleID := by
  unfold pointersRow
  generalize hr : ({ PuzzleID := puzzleID, Part1 := false, Part2 := false, Part3 := false }
    : PuzzlePointers) = row
  have h0 : row.PuzzleID = puzzleID := by rw [← hr]
  clear hr
  induction parts generalizing row with
  | nil => exact h0
  | cons p ps ih =>
    rw [List.foldl_cons]
    apply ih
    split
    · exact h0
    · split
      · exact h0
      · split
        · exact h0
        · exact h0

/-- The identifiers of the rows the loop of `collectPointers` gathers are those
of the accepted entries, in the order of the entries. -/
theorem pointersLoop_ids (available : Int → Option (List Int)) :
    ∀ (entries : List Bench.dirEntry) (acc rows : List PuzzlePointers),
      pointersLoop available entries acc = .ok rows →
      rows.map (fun r => r.PuzzleID)
        = acc.map (fun r => r.PuzzleID) ++ entries.filterMap Bench.puzzleDirID := by
  intro entries
  induction entries with
  | nil =>
    intro acc rows h
    rw [pointersLoop] at h
    cases h
    simp
  | cons e rest ih =>
    intro acc rows h
    rw [pointersLoop] at h
    by_cases hc : (!e.isDir || !HasPrefix e.name "puzzle".toList) = true
    · rw [if_pos hc] at h
      have hp : Bench.puzzleDirID e = none := by
        unfold Bench.puzzleDirID
        rw [if_pos hc]
      rw [List.filterMap_cons, hp]
      exact ih acc rows h
    · rw [if_neg hc] at h
      have hp : Bench.puzzleDirID e = Atoi (TrimPrefix e.name "puzzle".toList) := by
        unfold Bench.puzzleDirID Bench.parsePuzzleID
        rw [if_neg hc]
      rw [List.filterMap_cons, hp]
      cases hid : Atoi (TrimPrefix e.name "puzzle".toList) with
      | none =>
        rw [hid] at h
        exact ih acc rows h
      | some puzzleID =>
        rw [hid] at h
        simp only at h
        cases hr : available puzzleID with
        | none =>
          rw [hr] at h
          cases h
        | some parts =>
          rw [hr] at h
          simp only at h
          rw [ih _ rows h, List.map_append, List.append_assoc]
          simp [pointersRow_puzzleID]

/-- What a successful `Build` is made of: the listing was read, both loops
succeeded, and the two tables are what `sort.Slice` makes of the rows of the
loops with the comparison of `PuzzleID`. -/
theorem build_ok {year : Int} {page : Score.YearPage}
    {sortSlice : (α : Type) → (α → α → Bool) → List α → List α}
    {listing : Option (List Bench.dirEntry)} {run : Str → Bench.CmdOutput}
    {available : Int → Option (List Int)} {summary : YearSummary}
    (h : Build year page sortSlice listing run available = .ok summary) :
    ∃ entries benchRows puzzleRows, listing = some entries
      ∧ Bench.collectLoop run
          (sortSlice Bench.dirEntry (fun a b => decide (a.name < b.name)) entries) []
        = .ok benchRows
      ∧ pointersLoop available entries [] = .ok puzzleRows
      ∧ summary.Bench
        = sortSlice Bench.Result (fun a b => decide (a.PuzzleID < b.PuzzleID)) benchRows
      ∧ summary.Puzzles
        = sortSlice PuzzlePointers (fun a b => decide (a.PuzzleID < b.PuzzleID)) puzzleRows := by
  unfold Build at h
  cases hf : Score.Fetch year page with
  | error e =>
    rw [hf] at h
    cases h
  | ok st =>
    obtain ⟨sc, tot⟩ := st
    rw [hf] at h
    simp only at h
    cases listing with
    | none =>
      simp [Bench.Collect, Bench.readDirSorted] at h
    | some entries =>
      simp only [Bench.Collect, Bench.readDirSorted, collectPointers] at h
      cases hb : Bench.collectLoop run
          (sortSlice Bench.dirEntry (fun a b => decide (a.name < b.name)) entries) [] with
      | error e =>
        rw [hb] at h
        cases h
      | ok benchRows =>
        rw [hb] at h
        simp only at h
        cases hp : pointersLoop available entries [] with
        | error e =>
          rw [hp] at h
          cases h
        | ok puzzleRows =>
          rw [hp] at h
          simp only at h
          cases h
          exact ⟨entries, benchRows, puzzleRows, rfl, hb, hp, rfl, rfl⟩

/-- The comparison of an integer key by `<` is a strict weak ordering. -/
theorem strictWeak_key {α : Type} (key : α → Int) :
    Bench.StrictWeak (fun a b : α => decide (key a < key b)) := by
  constructor
  · intro a b h
    simp only [decide_eq_true_eq, decide_eq_false_iff_not] at h ⊢
    omega
  · intro a b c h
    simp only [decide_eq_true_eq] at h ⊢
    omega

/-- The insertion sort meets the contract of `sort.Slice`. -/
theorem sortSliceInsertion_contract : Bench.SortSliceContract Bench.sortSliceInsertion := by
  intro α less l
  refine ⟨List.perm_insertionSort _ l, fun hw => ?_⟩
  haveI : IsTotal α (fun a b => less b a = false) := ⟨fun a b => by
    cases hba : less b a with
    | false => exact Or.inl rfl
    | true => exact Or.inr (hw.1 b a hba)⟩
  haveI : IsTrans α (fun a b => less b a = false) := ⟨fun a b c hab hbc => by
    cases hca : less c a with
    | false => rfl
    | true =>
      rcases hw.2 c b a hca with h | h
      · rw [hbc] at h
        cases h
      · rw [hab] at h
        cases h⟩
  exact List.sorted_insertionSort _ l

/-- What the contract of `sort.Slice` gives for the comparison of `PuzzleID` the
code passes: the rows come out in ascending order of the key. -/
theorem sorted_of_contract {α : Type}
    {sortSlice : (α : Type) → (α → α → Bool) → List α → List α}
    (hs : Bench.SortSliceContract sortSlice) (key : α → Int) (l : List α) :
    (sortSlice α (fun a b => decide (key a < key b)) l).Sorted (fun a b => key a ≤ key b) := by
  have h := (hs α (fun a b => decide (key a < key b)) l).2 (strictWeak_key key)
  refine List.Pairwise.imp ?_ h
  intro a b hab
  simp only [decide_eq_false_iff_not] at hab
  omega

/-- C19 (amended): in every summary `Build` returns, the rows of the benchmark
table and the rows of the pointers table are, one for one, the entries of the
year directory that are directories named `puzzle` followed by a text that
`strconv.Atoi` accepts (an optional sign and decimal digits, within `int`); every
other entry is skipped. A directory named `puzzle` followed by two decimal
digits is always among them. Of `sort.Slice` only that it permutes the slice is
used. -/
theorem C19_directory_filter (year : Int) (page : Score.YearPage)
    (sortSlice : (α : Type) → (α → α → Bool) → List α → List α)
    (entries : List Bench.dirEntry) (run : Str → Bench.CmdOutput)
    (available : Int → Option (List Int)) (summary : YearSummary)
    (hperm : ∀ (α : Type) (less : α → α → Bool) (l : List α), (sortSlice α less l).Perm l)
    (h : Build year page sortSlice (some entries) run available = .ok summary) :
    (summary.Bench.map (fun r => r.PuzzleID)).Perm (entries.filterMap Bench.puzzleDirID)
      ∧ (summary.Puzzles.map (fun r => r.PuzzleID)).Perm (entries.filterMap Bench.puzzleDirID)
      ∧ (∀ (e : Bench.dirEntry) (id : Int), Bench.puzzleDirID e = some id
          ↔ e.isDir = true ∧ ∃ v, e.name = "puzzle".toList ++ v ∧ Atoi v = some id)
      ∧ (∀ (e : Bench.dirEntry) (a b : Char), e.isDir = true →
          e.name = "puzzle".toList ++ [a, b] → isDigit a = true → isDigit b = true →
          Bench.puzzleDirID e = some ((10 * (a.toNat - 48) + (b.toNat - 48) : Nat) : Int)) := by
  obtain ⟨entries2, benchRows, puzzleRows, hl, hb, hp, hB, hP⟩ := build_ok h
  cases hl
  refine ⟨?_, ?_, Bench.puzzleDirID_eq_some_iff, Bench.puzzleDirID_two_digits⟩
  · have h1 := Bench.collectLoop_ids run _ _ _ hb
    rw [hB]
    refine ((hperm _ _ benchRows).map _).trans ?_
    rw [h1]
    simpa using (hperm _ _ entries).filterMap Bench.puzzleDirID
  · have h1 := pointersLoop_ids available _ _ _ hp
    rw [hP]
    refine ((hperm _ _ puzzleRows).map _).trans ?_
    rw [h1]
    simp

/-- Witness of `C19_directory_filter`: a year directory with two puzzle
directories, a directory of notes and a file. -/
theorem C19_directory_filter_witness :
    Build 2025 (.body "const score = 3;".toList) Bench.sortSliceInsertion
        (some [⟨"puzzle12".toList, true⟩, ⟨"puzzle02".toList, true⟩, ⟨"notes".toList, true⟩,
          ⟨"puzzle03".toList, false⟩])
        (fun _ => .output []) (fun _ => some [1, 2])
      = .ok ⟨2025, 3, 0, [⟨2, [], [], []⟩, ⟨12, [], [], []⟩],
          [⟨2, true, true, false⟩, ⟨12, true, true, false⟩]⟩
    ∧ ([2, 12] : List Int).Perm
        (([⟨"puzzle12".toList, true⟩, ⟨"puzzle02".toList, true⟩, ⟨"notes".toList, true⟩,
          ⟨"puzzle03".toList, false⟩] : List Bench.dirEntry).filterMap Bench.puzzleDirID) :=
  ⟨by rfl,
    (C19_directory_filter 2025 (.body "const score = 3;".toList) Bench.sortSliceInsertion
      [⟨"puzzle12".toList, true⟩, ⟨"puzzle02".toList, true⟩, ⟨"notes".toList, true⟩,
        ⟨"puzzle03".toList, false⟩]
      (fun _ => .output []) (fun _ => some [1, 2])
      ⟨2025, 3, 0, [⟨2, [], [], []⟩, ⟨12, [], [], []⟩],
        [⟨2, true, true, false⟩, ⟨12, true, true, false⟩]⟩
      (fun α less l => (sortSliceInsertion_contract α less l).1) (by rfl)).1⟩

/-- C19 as stated fails: the directories `puzzle7`, `puzzle007`, `puzzle-1` and
`puzzle+3`, none of which is `puzzle` followed by two digits, each contribute a
row to both tables, with the identifiers 7, 7, -1 and 3. -/
theorem C19_counterexample :
    Build 2025 (.body "const score = 3;".toList) Bench.sortSliceInsertion
        (some [⟨"puzzle7".toList, true⟩, ⟨"puzzle007".toList, true⟩, ⟨"puzzle-1".toList, true⟩,
          ⟨"puzzle+3".toList, true⟩])
        (fun _ => .output []) (fun _ => some [])
      = .ok ⟨2025, 3, 0,
          [⟨-1, [], [], []⟩, ⟨3, [], [], []⟩, ⟨7, [], [], []⟩, ⟨7, [], [], []⟩],
          [⟨-1, false, false, false⟩, ⟨3, false, false, false⟩, ⟨7, false, false, false⟩,
            ⟨7, false, false, false⟩]⟩ := by
  rfl

/-- C20: in every summary `Build` returns, the benchmark table is a permutation
of the rows gathered from the accepted directories and is in ascending order of
`PuzzleID`, and so is the pointers table. The order follows from the comparison
`PuzzleID < PuzzleID` that `Collect` and `collectPointers` pass to `sort.Slice`
and from the contract of `sort.Slice`, which puts no element before one that is
less. -/
theorem C20_ordering (year : Int) (page : Score.YearPage)
    (sortSlice : (α : Type) → (α → α → Bool) → List α → List α)
    (listing : Option (List Bench.dirEntry)) (run : Str → Bench.CmdOutput)
    (available : Int → Option (List Int)) (summary : YearSummary)
    (hs : Bench.SortSliceContract sortSlice)
    (h : Build year page sortSlice listing run available = .ok summary) :
    ∃ entries benchRows puzzleRows, listing = some entries
      ∧ Bench.collectLoop run
          (sortSlice Bench.dirEntry (fun a b => decide (a.name < b.name)) entries) []
        = .ok benchRows
      ∧ pointersLoop available entries [] = .ok puzzleRows
      ∧ summary.Bench.Perm benchRows
      ∧ summary.Bench.Sorted (fun a b => a.PuzzleID ≤ b.PuzzleID)
      ∧ summary.Puzzles.Perm puzzleRows
      ∧ summary.Puzzles.Sorted (fun a b => a.PuzzleID ≤ b.PuzzleID) := by
  obtain ⟨entries, benchRows, puzzleRows, hl, hb, hp, hB, hP⟩ := build_ok h
  refine ⟨entries, benchRows, puzzleRows, hl, hb, hp, ?_, ?_, ?_, ?_⟩
  · rw [hB]
    exact (hs _ _ benchRows).1
  · rw [hB]
    exact sorted_of_contract hs (fun r : Bench.Result => r.PuzzleID) benchRows
  · rw [hP]
    exact (hs _ _ puzzleRows).1
  · rw [hP]
    exact sorted_of_contract hs (fun r : PuzzlePointers => r.PuzzleID) puzzleRows

/-- Witness of `C20_ordering`: the directories are listed as `puzzle12`,
`puzzle02`, and both tables come out in the order 2, 12. -/
theorem C20_ordering_witness :
    Bench.SortSliceContract Bench.sortSliceInsertion
    ∧ Build 2025 (.body "const score = 3;".toList) Bench.sortSliceInsertion
        (some [⟨"puzzle12".toList, true⟩, ⟨"puzzle02".toList, true⟩])
        (fun _ => .output []) (fun _ => some [1, 2])
      = .ok ⟨2025, 3, 0, [⟨2, [], [], []⟩, ⟨12, [], [], []⟩],
          [⟨2, true, true, false⟩, ⟨12, true, true, false⟩]⟩
    ∧ ∃ entries benchRows puzzleRows,
        some [(⟨"puzzle12".toList, true⟩ : Bench.dirEntry), ⟨"puzzle02".toList, true⟩]
          = some entries
        ∧ Bench.collectLoop (fun _ => .output [])
            (Bench.sortSliceInsertion Bench.dirEntry (fun a b => decide (a.name < b.name))
              entries) []
          = .ok benchRows
        ∧ pointersLoop (fun _ => some [1, 2]) entries [] = .ok puzzleRows
        ∧ ([⟨2, [], [], []⟩, ⟨12, [], [], []⟩] : List Bench.Result).Perm benchRows
        ∧ ([⟨2, [], [], []⟩, ⟨12, [], [], []⟩] : List Bench.Result).Sorted
            (fun a b => a.PuzzleID ≤ b.PuzzleID)
        ∧ ([⟨2, true, true, false⟩, ⟨12, true, true, false⟩] : List PuzzlePointers).Perm
            puzzleRows
        ∧ ([⟨2, true, true, false⟩, ⟨12, true, true, false⟩] : List PuzzlePointers).Sorted
            (fun a b => a.PuzzleID ≤ b.PuzzleID) :=
  ⟨sortSliceInsertion_contract, by rfl,
    C20_ordering 2025 (.body "const score = 3;".toList) Bench.sortSliceInsertion
      (some [⟨"puzzle12".toList, true⟩, ⟨"puzzle02".toList, true⟩])
      (fun _ => .output []) (fun _ => some [1, 2])
      ⟨2025, 3, 0, [⟨2, [], [], []⟩, ⟨12, [], [], []⟩],
        [⟨2, true, true, false⟩, ⟨12, true, true, false⟩]⟩
      sortSliceInsertion_contract (by rfl)⟩

end Summary

namespace Puzzletext

theorem findArticleWithPart_eq_none_iff (t : Node) (partID : Str) :
    findArticleWithPart t partID = none ↔ ∀ m ∈ nodes t, ¬ ArticleWithPart partID m := by
  rw [findArticleWithPart_eq, List.find?_eq_none]
  simp

theorem fetchPart_partNotFound (t : Node) (N N' : Int) (A : List Int)
    (h : FetchPart N (.doc t) = .error (.partNotFound N' A)) :
    1 ≤ N ∧ N' = N ∧ A = availableParts t
      ∧ findArticleWithPart t ("part-".toList ++ fmtInt N) = none := by
  unfold FetchPart at h
  by_cases h1 : N < 1
  · rw [if_pos h1] at h
    cases h
  · rw [if_neg h1] at h
    simp only at h
    cases hf : findArticleWithPart t ("part-".toList ++ fmtInt N) with
    | none =>
      rw [hf] at h
      simp only at h
      injection h with h
      injection h with h2 h3
      exact ⟨by omega, h2.symm, h3.symm, rfl⟩
    | some art =>
      rw [hf] at h
      simp only at h
      split at h <;> cases h

/-- C21 (amended): when `FetchPart` fails with "part N not found", the request
was for a part `N ≥ 1`, the reported set is `availableParts` of the whole tree,
and no `article` element with class `description` of the tree has a descendant
`h3` whose id is exactly `part-N`; `N` is absent from the reported set provided
every `h3` of the tree whose id parses to `N` carries the id `part-N` itself and
is a descendant of an `article` element with class `description`. -/
theorem C21_part_not_found (t : Node) (N : Int) (A : List Int)
    (h : FetchPart N (.doc t) = .error (.partNotFound N A)) :
    1 ≤ N ∧ A = availableParts t
      ∧ (∀ m ∈ nodes t, ¬ ArticleWithPart ("part-".toList ++ fmtInt N) m)
      ∧ ((∀ m ∈ nodes t, H3Part m N →
            IsH3WithId ("part-".toList ++ fmtInt N) m
              ∧ ∃ art ∈ nodes t, art.type = .ElementNode ∧ art.Data = "article".toList
                  ∧ (∃ a ∈ art.Attr, a.Key = "class".toList
                      ∧ "description".toList ∈ Fields a.Val)
                  ∧ m ∈ nodesList art.children) → N ∉ A) := by
  obtain ⟨h1, -, h3, h4⟩ := fetchPart_partNotFound t N N A h
  have h5 := (findArticleWithPart_eq_none_iff t _).mp h4
  refine ⟨h1, h3, h5, ?_⟩
  intro hall hmem
  rw [h3, mem_availableParts] at hmem
  obtain ⟨m, hm, hp⟩ := hmem
  obtain ⟨hid, art, hart, ht, hd, hc, hin⟩ := hall m hm hp
  exact h5 art hart ⟨ht, hd, hc, m, hin, hid⟩

/-- Witness of `C21_part_not_found`: a page holding only part 1, asked for
part 2, fails with the set `[1]`, which does not contain 2. -/
theorem C21_part_not_found_witness :
    FetchPart 2 (.doc (elem "article" [("class", "description")]
        [elem "h3" [("id", "part-1")] [text "Part 1"]]))
      = .error (.partNotFound 2 [1])
    ∧ (2 : Int) ∉ ([1] : List Int) :=
  ⟨rfl,
    (C21_part_not_found (elem "article" [("class", "description")]
        [elem "h3" [("id", "part-1")] [text "Part 1"]]) 2 [1] rfl).2.2.2
      (by
        intro m hm hp
        exfalso
        have hmem : (2 : Int) ∈ availableParts (elem "article" [("class", "description")]
            [elem "h3" [("id", "part-1")] [text "Part 1"]]) :=
          (mem_availableParts _ _).mpr ⟨m, hm, hp⟩
        revert hmem
        decide)⟩

/-- C21 (counterexample): a page whose heading `part-1` stands outside every
`article` element with class `description`: the request for part 1 fails with
"part 1 not found", and the reported set of available parts is `[1]`, which
contains the requested part. -/
theorem C21_counterexample :
    FetchPart 1 (.doc (elem "body" [] [elem "h3" [("id", "part-1")] [text "Part 1"]]))
      = .error (.partNotFound 1 [1])
    ∧ (1 : Int) ∈ availableParts (elem "body" [] [elem "h3" [("id", "part-1")] [text "Part 1"]]) :=
  ⟨rfl, by decide⟩

end Puzzletext

namespace Summary

theorem markersMissing_block {P : Bytes} (c T : Bytes) (hS : NoOcc readmeStart P (block c T))
    (hE : NoOcc readmeEnd P (block c T)) : markersMissing (P ++ block c T) = false := by
  rw [markersMissing_eq_false_iff]
  have hs := firstOcc_start_block c T hS
  have hinf : readmeEnd <:+: P ++ block c T :=
    ⟨P ++ readmeStart ++ 10 :: (c ++ [10]), T, by simp [block]⟩
  obtain ⟨e, he⟩ := exists_firstOcc_of_infix hinf
  refine ⟨P.length, e, hs, he, ?_⟩
  by_contra hle
  have hle : e ≤ P.length := by omega
  rcases Nat.lt_or_ge e P.length with h | h
  · exact hE e h he.1
  · have heq : e = P.length := by omega
    have h1 := he.1
    rw [heq, List.drop_left] at h1
    exact end_not_prefix_start _ h1

/-- C22 (amended): create branch of `UpdateReadme`. When the document does not
exist (and the write succeeds), the patch writes the header line
`# FlipFlop <year>`, an empty line, the start marker on a line of its own, the
content, and the end marker on a line of its own followed by a newline. Patching
that new document again takes the replace branch, for every content; when the
content does not contain the end marker, the second patch with the same content
leaves the document unchanged. -/
theorem C22_create_branch (y : Int) (c : Bytes) :
    ∃ w, UpdateReadme .notExist true y c = .ok w
      ∧ w = ascii "# FlipFlop " ++ fmtInt y ++ ascii "\n" ++ ascii "\n" ++ readmeStart
            ++ ascii "\n" ++ c ++ ascii "\n" ++ readmeEnd ++ ascii "\n"
      ∧ markersMissing w = false
      ∧ (¬ readmeEnd <:+: c → UpdateReadme (.data w) true y c = .ok w) := by
  refine ⟨_, updateReadme_create y c, ?_, ?_, ?_⟩
  · simp [block, ascii]
  · exact markersMissing_block c _ (noOcc_start_of_not_mem _ (lt_not_mem_header y))
      (noOcc_end_of_not_mem _ (lt_not_mem_header y))
  · intro hc
    exact updateReadme_block_fixed _ y (noOcc_start_of_not_mem _ (lt_not_mem_header y))
      (noOcc_end_of_not_mem _ (lt_not_mem_header y)) hc

/-- Witness of `C22_create_branch`: the document created for the year 2025 and
the content `new`, and its second patch. -/
theorem C22_create_branch_witness :
    ¬ readmeEnd <:+: ascii "new"
      ∧ UpdateReadme .notExist true 2025 (ascii "new")
          = .ok (ascii ("# FlipFlop 2025\n\n<!-- GOFF:POINTERS:START -->\nnew\n"
              ++ "<!-- GOFF:POINTERS:END -->\n"))
      ∧ UpdateReadme (.data (ascii ("# FlipFlop 2025\n\n<!-- GOFF:POINTERS:START -->\nnew\n"
              ++ "<!-- GOFF:POINTERS:END -->\n"))) true 2025 (ascii "new")
          = .ok (ascii ("# FlipFlop 2025\n\n<!-- GOFF:POINTERS:START -->\nnew\n"
              ++ "<!-- GOFF:POINTERS:END -->\n")) := by
  obtain ⟨w, h1, h2, -, h4⟩ := C22_create_branch 2025 (ascii "new")
  have hc : ¬ readmeEnd <:+: ascii "new" := by decide
  have hw : w = ascii ("# FlipFlop 2025\n\n<!-- GOFF:POINTERS:START -->\nnew\n"
      ++ "<!-- GOFF:POINTERS:END -->\n") := by rw [h2]; decide
  rw [← hw]
  exact ⟨hc, h1, h4 hc⟩

set_option maxRecDepth 100000 in
/-- C22 (counterexample): a summary whose benchmark row holds the end marker as
the text of part 1, so that the content `formatSummary` returns contains the end
marker. The patch creates the document `w1`; the second patch with the same
summary takes the replace branch, ends the region at the end marker inside the
content and keeps what followed it, so the document `w2` it writes is `w1`
without its last newline, followed by the rest of the table row, a newline, the
end marker and a newline. -/
theorem C22_counterexample :
    ∃ w1 w2,
      UpdateReadme .notExist true 2025
          ((formatSummary ⟨2025, 0, 0, [⟨1, "<!-- GOFF:POINTERS:END -->".toList, [], []⟩], []⟩
            [] []).map Char.toNat) = .ok w1
        ∧ UpdateReadme (.data w1) true 2025
          ((formatSummary ⟨2025, 0, 0, [⟨1, "<!-- GOFF:POINTERS:END -->".toList, [], []⟩], []⟩
            [] []).map Char.toNat) = .ok w2
        ∧ w2 = w1.dropLast ++ ascii " | - | - |\n<!-- GOFF:POINTERS:END -->\n"
        ∧ w2 ≠ w1 :=
  ⟨_, _, rfl, rfl, by decide, by decide⟩

/-- C27: `UpdateReadme` is idempotent on well-formed documents. For every
document with exactly one occurrence of the start marker, at offset `s`, and
exactly one of the end marker, at offset `e`, with `s < e`, and every content
that contains neither marker, the patch succeeds, the written document again has
exactly one occurrence of the start marker and exactly one of the end marker,
the start marker first, and patching the written document again with the same
content writes the same bytes. -/
theorem C27_idempotent_well_formed (d c : Bytes) (s e : Nat) (y : Int)
    (hs : ∀ j, readmeStart <+: d.drop j ↔ j = s)
    (he : ∀ j, readmeEnd <+: d.drop j ↔ j = e) (hlt : s < e)
    (hcS : ¬ readmeStart <:+: c) (hcE : ¬ readmeEnd <:+: c) :
    ∃ w, UpdateReadme (.data d) true y c = .ok w
      ∧ (∃ s1 e1, (∀ j, readmeStart <+: w.drop j ↔ j = s1)
          ∧ (∀ j, readmeEnd <+: w.drop j ↔ j = e1) ∧ s1 < e1)
      ∧ UpdateReadme (.data w) true y c = .ok w := by
  have hfs : FirstOcc readmeStart d s :=
    ⟨(hs s).mpr rfl, fun j hj h => absurd ((hs j).mp h) (by omega)⟩
  have hfe : FirstOcc readmeEnd d e :=
    ⟨(he e).mpr rfl, fun j hj h => absurd ((he j).mp h) (by omega)⟩
  have hTS : ¬ readmeStart <:+: d.drop (e + 26) := by
    rw [not_infix_iff_forall_drop]
    intro j h
    rw [List.drop_drop] at h
    have := (hs _).mp h
    omega
  have hTE : ¬ readmeEnd <:+: d.drop (e + 26) := by
    rw [not_infix_iff_forall_drop]
    intro j h
    rw [List.drop_drop] at h
    have := (he _).mp h
    omega
  have hS : NoOcc readmeStart (d.take s) (block c (d.drop (e + 26))) :=
    noOcc_take _ hfs hfs.2 (le_refl _)
  have hE : NoOcc readmeEnd (d.take s) (block c (d.drop (e + 26))) :=
    noOcc_take _ hfs (fun j hj => hfe.2 j (by omega)) (by decide)
  refine ⟨_, updateReadme_replace y c hfs hfe hlt, ?_, ?_⟩
  · obtain ⟨s1, e1, h1, h2, h3, -⟩ := block_invariant hS hE hcS hcE hTS hTE
    exact ⟨s1, e1, h1, h2, h3⟩
  · exact updateReadme_block_fixed _ y hS hE hcE

/-- Witness of `C27_idempotent_well_formed`: a document with one region between
hand-written lines, patched with `new`. -/
theorem C27_idempotent_well_formed_witness :
    ∃ w, UpdateReadme
          (.data (ascii "a\n<!-- GOFF:POINTERS:START -->\nold\n<!-- GOFF:POINTERS:END -->\nz\n"))
          true 2025 (ascii "new") = .ok w
      ∧ (∃ s1 e1, (∀ j, readmeStart <+: w.drop j ↔ j = s1)
          ∧ (∀ j, readmeEnd <+: w.drop j ↔ j = e1) ∧ s1 < e1)
      ∧ UpdateReadme (.data w) true 2025 (ascii "new") = .ok w :=
  C27_idempotent_well_formed
    (ascii "a\n<!-- GOFF:POINTERS:START -->\nold\n<!-- GOFF:POINTERS:END -->\nz\n")
    (ascii "new") 2 35 2025
    (occ_block_start (P := ascii "a\n") (c := ascii "old") (T := ascii "\nz\n")
      (noOcc_start_of_not_mem _ (by decide)) (by decide) (by decide))
    (occ_block_end (P := ascii "a\n") (c := ascii "old") (T := ascii "\nz\n")
      (noOcc_end_of_not_mem _ (by decide)) (by decide) (by decide))
    (by decide) (by decide) (by decide)

end Summary

namespace Workflow

open Puzzletext

theorem mapSet_filter_pos (ps : List Int) (x : Int) :
    (mapSet ps x).filter (fun v => decide (0 < v))
      = if x > 0 then mapSet (ps.filter (fun v => decide (0 < v))) x
        else ps.filter (fun v => decide (0 < v)) := by
  unfold mapSet
  by_cases hx : x > 0
  · rw [if_pos hx]
    by_cases hm : x ∈ ps
    · have hm2 : x ∈ ps.filter (fun v => decide (0 < v)) := by
        rw [List.mem_filter]
        exact ⟨hm, by simpa using hx⟩
      rw [if_pos hm, if_pos hm2]
    · have hm2 : x ∉ ps.filter (fun v => decide (0 < v)) := fun h => hm (List.mem_filter.mp h).1
      rw [if_neg hm, if_neg hm2, List.filter_append]
      simp [hx]
  · rw [if_neg hx]
    by_cases hm : x ∈ ps
    · rw [if_pos hm]
    · rw [if_neg hm, List.filter_append]
      simp [hx]

theorem collectAttrs_filter_pos (attrs : List Attribute) :
    ∀ ps : List Int, Workflow.collectAttrs attrs (ps.filter (fun v => decide (0 < v)))
      = (Puzzletext.collectAttrs attrs ps).filter (fun v => decide (0 < v)) := by
  induction attrs with
  | nil => intro ps; rfl
  | cons a attrs ih =>
    intro ps
    unfold Workflow.collectAttrs Puzzletext.collectAttrs at ih ⊢
    rw [List.foldl_cons, List.foldl_cons]
    by_cases h : a.Key = "id".toList ∧ HasPrefix a.Val "part-".toList
    · rw [if_pos h, if_pos h]
      cases hA : Atoi (TrimPrefix a.Val "part-".toList) with
      | none => exact ih ps
      | some part =>
        simp only
        rw [← ih (mapSet ps part), mapSet_filter_pos]
    · rw [if_neg h, if_neg h]
      exact ih ps

mutual
theorem collectParts_filter_pos :
    ∀ (n : Node) (ps : List Int),
      Workflow.collectParts n (ps.filter (fun v => decide (0 < v)))
        = (Puzzletext.collectParts n ps).filter (fun v => decide (0 < v))
  | .mk type Data Attr children, ps => by
    rw [Workflow.collectParts, Puzzletext.collectParts]
    by_cases h : type = .ElementNode ∧ Data = "h3".toList
    · rw [if_pos h, if_pos h, collectAttrs_filter_pos]
      exact collectPartsChildren_filter_pos children _
    · rw [if_neg h, if_neg h]
      exact collectPartsChildren_filter_pos children _
theorem collectPartsChildren_filter_pos :
    ∀ (cs : List Node) (ps : List Int),
      Workflow.collectPartsChildren cs (ps.filter (fun v => decide (0 < v)))
        = (Puzzletext.collectPartsChildren cs ps).filter (fun v => decide (0 < v))
  | [], ps => by rw [Workflow.collectPartsChildren, Puzzletext.collectPartsChildren]
  | c :: cs, ps => by
    rw [Workflow.collectPartsChildren, Puzzletext.collectPartsChildren,
      collectParts_filter_pos c ps]
    exact collectPartsChildren_filter_pos cs _
end

theorem extractAvailableParts_eq (t : Node) :
    extractAvailableParts t = (availableParts t).filter (fun v => decide (0 < v)) := by
  unfold extractAvailableParts availableParts
  have h := collectParts_filter_pos t []
  rw [List.filter_nil] at h
  rw [h]
  apply List.eq_of_perm_of_sorted (r := (· ≤ ·))
  · exact (List.perm_insertionSort _ _).trans ((List.perm_insertionSort _ _).filter _).symm
  · exact List.sorted_insertionSort _ _
  · exact (List.sorted_insertionSort (· ≤ ·) _).filter _

/-- C26: on every tree, `extractAvailableParts` of the workflow returns the
sub-sequence of the strictly positive elements of `availableParts` of
puzzletext.go; the two agree on every tree on which `availableParts` returns no
zero and no negative number. -/
theorem C26_scanners_related (t : Node) :
    extractAvailableParts t = (availableParts t).filter (fun v => decide (0 < v))
      ∧ ((∀ v ∈ availableParts t, 0 < v) → extractAvailableParts t = availableParts t) := by
  refine ⟨extractAvailableParts_eq t, fun h => ?_⟩
  rw [extractAvailableParts_eq, List.filter_eq_self]
  intro v hv
  simpa using h v hv

/-- Witness of `C26_scanners_related`: a page with the parts 2 and 1. -/
theorem C26_scanners_related_witness :
    extractAvailableParts (elem "article" []
        [elem "h3" [("id", "part-2")] [], elem "h3" [("id", "part-1")] []]) = [1, 2]
      ∧ extractAvailableParts (elem "article" []
          [elem "h3" [("id", "part-2")] [], elem "h3" [("id", "part-1")] []])
        = availableParts (elem "article" []
          [elem "h3" [("id", "part-2")] [], elem "h3" [("id", "part-1")] []]) :=
  ⟨by decide,
    (C26_scanners_related (elem "article" []
      [elem "h3" [("id", "part-2")] [], elem "h3" [("id", "part-1")] []])).2 (by decide)⟩

end Workflow

namespace Summary

open Puzzletext

theorem pointersFold_eq (parts : List Int) :
    ∀ row : PuzzlePointers,
      parts.foldl
          (fun row part =>
            if part = 1 then { row with Part1 := true }
            else if part = 2 then { row with Part2 := true }
            else if part = 3 then { row with Part3 := true }
            else row) row
        = { PuzzleID := row.PuzzleID, Part1 := row.Part1 || decide ((1 : Int) ∈ parts),
            Part2 := row.Part2 || decide ((2 : Int) ∈ parts),
            Part3 := row.Part3 || decide ((3 : Int) ∈ parts) } := by
  induction parts with
  | nil => intro row; simp
  | cons p ps ih =>
    intro row
    rw [List.foldl_cons, ih]
    by_cases h1 : p = 1
    · subst h1
      simp
    · by_cases h2 : p = 2
      · subst h2
        simp
      · by_cases h3 : p = 3
        · subst h3
          simp
        · rw [if_neg h1, if_neg h2, if_neg h3]
          simp [List.mem_cons, Ne.symm h1, Ne.symm h2, Ne.symm h3]

theorem pointersRow_eq (puzzleID : Int) (parts : List Int) :
    pointersRow puzzleID parts
      = { PuzzleID := puzzleID, Part1 := decide ((1 : Int) ∈ parts),
          Part2 := decide ((2 : Int) ∈ parts), Part3 := decide ((3 : Int) ∈ parts) } := by
  unfold pointersRow
  rw [pointersFold_eq]
  simp

/-- C28: the row of `collectPointers`. For a directory entry that is accepted
(a directory whose name is `puzzle` followed by a number `strconv.Atoi` parses
to `puzzleID`) and a scanner result `parts`, the loop appends the row built from
`puzzleID` and `parts`; the row carries `puzzleID`, its flag of part k, for k
in 1, 2, 3, is true exactly when k occurs in `parts`, the numbers outside 1..3
change nothing (the row is that of the list without them), and the loop of the
workflow builds the same row. -/
theorem C28_pointers_population (available : Int → Option (List Int)) (entry : Bench.dirEntry)
    (rest : List Bench.dirEntry) (puzzles : List PuzzlePointers) (puzzleID : Int)
    (parts : List Int) (hd : entry.isDir = true)
    (hp : HasPrefix entry.name "puzzle".toList = true)
    (ha : Atoi (TrimPrefix entry.name "puzzle".toList) = some puzzleID)
    (hv : available puzzleID = some parts) :
    pointersLoop available (entry :: rest) puzzles
        = pointersLoop available rest (puzzles ++ [pointersRow puzzleID parts])
      ∧ (pointersRow puzzleID parts).PuzzleID = puzzleID
      ∧ ((pointersRow puzzleID parts).Part1 = true ↔ (1 : Int) ∈ parts)
      ∧ ((pointersRow puzzleID parts).Part2 = true ↔ (2 : Int) ∈ parts)
      ∧ ((pointersRow puzzleID parts).Part3 = true ↔ (3 : Int) ∈ parts)
      ∧ pointersRow puzzleID (parts.filter (fun p => decide (1 ≤ p ∧ p ≤ 3)))
          = pointersRow puzzleID parts
      ∧ Workflow.pointersRow puzzleID parts = pointersRow puzzleID parts := by
  refine ⟨?_, ?_, ?_, ?_, ?_, ?_, rfl⟩
  · rw [pointersLoop, hd, hp]
    simp only [Bool.not_true, Bool.or_self, Bool.false_eq_true, if_false]
    rw [ha]
    simp only
    rw [hv]
  · rw [pointersRow_eq]
  · rw [pointersRow_eq]
    simp
  · rw [pointersRow_eq]
    simp
  · rw [pointersRow_eq]
    simp
  · rw [pointersRow_eq, pointersRow_eq]
    simp [List.mem_filter]

/-- Witness of `C28_pointers_population`: the directory `puzzle07` with the
scanner result `[0, 2, 5, 3]`. -/
theorem C28_pointers_population_witness :
    pointersLoop (fun _ => some [0, 2, 5, 3]) [⟨"puzzle07".toList, true⟩] []
        = .ok [{ PuzzleID := 7, Part1 := false, Part2 := true, Part3 := true }]
      ∧ (pointersRow 7 [0, 2, 5, 3]).PuzzleID = 7
      ∧ ((pointersRow 7 [0, 2, 5, 3]).Part1 = true ↔ (1 : Int) ∈ ([0, 2, 5, 3] : List Int)) :=
  have h := C28_pointers_population (fun _ => some [0, 2, 5, 3]) ⟨"puzzle07".toList, true⟩ [] []
    7 [0, 2, 5, 3] rfl (by decide) (by decide) rfl
  ⟨by rfl, h.2.1, h.2.2.1⟩

end Summary

namespace Puzzletext

theorem renderNode_scriptOrStyle (b : Str) (n : Node) (inPre : Bool)
    (h : isScriptOrStyle n = true) : renderNode b n inPre = b := by
  obtain ⟨type, Data, Attr, children⟩ := n
  unfold isScriptOrStyle at h
  rw [decide_eq_true_iff] at h
  have ht : type = .ElementNode := h.1
  have hd : Data = "script".toList ∨ Data = "style".toList := h.2
  subst ht
  rw [renderNode, if_pos hd]

theorem isScriptOrStyle_stripNode (n : Node) : isScriptOrStyle (stripNode n) = isScriptOrStyle n := by
  obtain ⟨type, Data, Attr, children⟩ := n
  rw [stripNode]
  rfl

mutual
theorem renderNode_strip : ∀ (n : Node) (b : Str) (inPre : Bool),
    renderNode b (stripNode n) inPre = renderNode b n inPre
  | .mk type Data Attr children, b, inPre => by
    rw [stripNode]
    cases type <;> simp only [renderNode, renderChildren_strip children]
theorem renderChildren_strip : ∀ (cs : List Node) (b : Str) (inPre : Bool),
    renderChildren b (stripList cs) inPre = renderChildren b cs inPre
  | [], b, inPre => by rw [stripList]
  | c :: cs, b, inPre => by
    rw [stripList]
    by_cases h : isScriptOrStyle c = true
    · rw [if_pos h, renderChildren, renderNode_scriptOrStyle b c inPre h]
      exact renderChildren_strip cs b inPre
    · rw [if_neg h, renderChildren, renderChildren, renderNode_strip c b inPre]
      exact renderChildren_strip cs _ inPre
end

mutual
theorem nodes_stripNode : ∀ (n : Node), ∀ m ∈ nodesList (stripNode n).children,
    isScriptOrStyle m = false
  | .mk type Data Attr children => by
    rw [stripNode]
    exact nodesList_stripList children
theorem nodesList_stripList : ∀ (cs : List Node), ∀ m ∈ nodesList (stripList cs),
    isScriptOrStyle m = false
  | [] => by
    rw [stripList, nodesList]
    intro m hm
    cases hm
  | c :: cs => by
    rw [stripList]
    by_cases h : isScriptOrStyle c = true
    · rw [if_pos h]
      exact nodesList_stripList cs
    · rw [if_neg h, nodesList]
      intro m hm
      rw [List.mem_append] at hm
      rcases hm with hm | hm
      · have hc := nodes_stripNode c
        obtain ⟨type, Data, Attr, children⟩ := c
        rw [stripNode] at hm hc
        rw [nodes, List.mem_cons] at hm
        rcases hm with rfl | hm
        · have := isScriptOrStyle_stripNode (.mk type Data Attr children)
          rw [stripNode] at this
          rw [this]
          simpa using h
        · exact hc m hm
      · exact nodesList_stripList cs m hm
end

/-- C25: `renderNode` skips `script` and `style` elements. In both modes and for
every content of the builder, rendering a sequence of sibling trees gives the
text of rendering the sequence with every `script` and `style` element deleted
together with its subtree; the same holds for one tree (which renders to nothing
when its root is itself deleted), for a tree whose root is kept, and for
`renderText`. No `script` or `style` element is left in the stripped sequence. -/
theorem C25_script_style_skipped (n : Node) (cs : List Node) (b : Str) (inPre : Bool) :
    renderChildren b (stripList cs) inPre = renderChildren b cs inPre
      ∧ renderChildren b (stripList [n]) inPre = renderNode b n inPre
      ∧ renderNode b (stripNode n) inPre = renderNode b n inPre
      ∧ renderText (stripNode n) = renderText n
      ∧ (∀ m ∈ nodesList (stripList cs), isScriptOrStyle m = false) := by
  refine ⟨renderChildren_strip cs b inPre, ?_, renderNode_strip n b inPre, ?_,
    nodesList_stripList cs⟩
  · rw [renderChildren_strip, renderChildren, renderChildren]
  · unfold renderText
    rw [renderNode_strip]

end Puzzletext

namespace Bench

open Puzzletext

theorem formatDuration_eq_none_iff (nsText : Str) :
    formatDuration nsText = none ↔ ParseFloat nsText = none := by
  unfold formatDuration
  cases ParseFloat nsText <;> simp

/-- A line that matches the pattern with a duration `formatDuration` rejects
makes the scanning loop fail, whatever the other lines are. -/
theorem scanLoop_error_of_mem {raw part nsText : Str}
    (hm : benchLineRe (dropCR raw) = some (part, nsText)) (hv : formatDuration nsText = none) :
    ∀ (lines : List Str) (row : Result), raw ∈ lines →
      (scanLoop lines row = .error .duration ∨ scanLoop lines row = .error .output)
        ∧ ((∀ l ∈ lines, utf8Len l < MaxScanTokenSize) → scanLoop lines row = .error .duration) := by
  intro lines
  induction lines with
  | nil =>
    intro row h
    cases h
  | cons x xs ih =>
    intro row hmem
    rw [scanLoop]
    by_cases hlen : MaxScanTokenSize ≤ utf8Len x
    · rw [if_pos hlen]
      refine ⟨Or.inr rfl, fun hall => ?_⟩
      have := hall x (List.mem_cons_self _ _)
      omega
    · rw [if_neg hlen]
      cases hb : benchLineRe (dropCR x) with
      | none =>
        simp only
        have hx : raw ∈ xs := by
          rcases List.mem_cons.mp hmem with rfl | h
          · rw [hm] at hb
            cases hb
          · exact h
        exact ⟨(ih row hx).1, fun hall =>
          (ih row hx).2 (fun l hl => hall l (List.mem_cons_of_mem _ hl))⟩
      | some g =>
        obtain ⟨p, v⟩ := g
        simp only
        cases hf : formatDuration v with
        | none => exact ⟨Or.inl rfl, fun _ => rfl⟩
        | some out =>
          simp only
          have hx : raw ∈ xs := by
            rcases List.mem_cons.mp hmem with rfl | h
            · rw [hm] at hb
              injection hb with hb
              injection hb with h1 h2
              rw [h2, hf] at hv
              cases hv
            · exact h
          exact ⟨(ih _ hx).1, fun hall =>
            (ih _ hx).2 (fun l hl => hall l (List.mem_cons_of_mem _ hl))⟩

/-- C23: parse errors of a benchmark duration propagate. For every output text
with a line that matches `benchLineRe` and whose captured value
`strconv.ParseFloat` rejects, `runBench` returns an error and no result,
whatever the other lines are: the error "parse bench duration", or the error
"parse bench output" of a line too long for the scanner; it is "parse bench
duration" when every line fits the scanner. -/
theorem C23_parse_errors_propagate (text raw part nsText : Str) (puzzleID : Int)
    (hmem : raw ∈ rawLines text) (hm : benchLineRe (dropCR raw) = some (part, nsText))
    (hv : ParseFloat nsText = none) :
    (runBench (.output text) puzzleID = .error .duration
        ∨ runBench (.output text) puzzleID = .error .output)
      ∧ ((∀ l ∈ rawLines text, utf8Len l < MaxScanTokenSize) →
          runBench (.output text) puzzleID = .error .duration) := by
  unfold runBench
  exact scanLoop_error_of_mem hm ((formatDuration_eq_none_iff _).mpr hv) _ _ hmem

/-- Witness of `C23_parse_errors_propagate`: a valid line for part 1 and a line
for part 2 whose value is `1.2.3`. -/
theorem C23_parse_errors_propagate_witness :
    benchLineRe (dropCR "BenchmarkSolve/part2-8 100 1.2.3 ns/op".toList)
        = some ("2".toList, "1.2.3".toList)
      ∧ ParseFloat "1.2.3".toList = none ∧ ParseFloat ".".toList = none
      ∧ runBench (.output ("BenchmarkSolve/part1-8 100 1500 ns/op\n"
          ++ "BenchmarkSolve/part2-8 100 1.2.3 ns/op\n").toList) 7 = .error .duration :=
  ⟨by decide, by decide, by decide,
    (C23_parse_errors_propagate ("BenchmarkSolve/part1-8 100 1500 ns/op\n"
        ++ "BenchmarkSolve/part2-8 100 1.2.3 ns/op\n").toList
      "BenchmarkSolve/part2-8 100 1.2.3 ns/op".toList "2".toList "1.2.3".toList 7
      (by decide) (by decide) (by decide)).2 (by decide)⟩

end Bench

namespace Summary

open Puzzletext

/-- `repoSlugRe` needs a backslash after `github`: it matches no text without a
backslash, and `parseRepoSlug` then returns the empty string. -/
theorem parseRepoSlug_no_backslash (url : Str) (h : Char.ofNat 92 ∉ url) :
    parseRepoSlug url = [] := by
  unfold parseRepoSlug
  split
  · rfl
  · have hn : repoSlugRe url = none := by
      unfold repoSlugRe
      rw [Score.findFirst_eq_none_iff]
      intro i
      unfold repoSlugReAt
      rw [if_neg]
      intro hp
      obtain ⟨r, hr⟩ := List.isPrefixOf_iff_prefix.mp hp
      apply h
      apply List.mem_of_mem_drop (n := i)
      rw [← hr]
      simp
    rw [hn]

/-- C29: `parseRepoSlug` returns the empty string for GitHub remote URLs of both
forms, `https://github.com/<owner>/<repo>.git` and
`git@github.com:<owner>/<repo>.git`, here with the owner `Galzzly` and the
repository `flip-flop`: the pattern `repoSlugRe` asks for a backslash after
`github`. It does return `Galzzly/flip-flop` for a text with that backslash. -/
theorem C29_slug_not_parsed :
    parseRepoSlug "https://github.com/Galzzly/flip-flop.git".toList = []
      ∧ parseRepoSlug "git@github.com:Galzzly/flip-flop.git".toList = []
      ∧ parseRepoSlug ("https://github".toList ++ Char.ofNat 92
          :: ".com/Galzzly/flip-flop.git".toList) = "Galzzly/flip-flop".toList := by
  refine ⟨?_, ?_, ?_⟩ <;> decide

end Summary

namespace Filepath

open Puzzletext

theorem splitSlash_ne_nil (s : Str) : splitSlash s ≠ [] := by
  induction s with
  | nil => simp [splitSlash]
  | cons c cs ih =>
    rw [splitSlash]
    split
    · simp
    · split <;> simp

theorem splitSlash_append (X Y : Str) :
    splitSlash (X ++ '/' :: Y) = splitSlash X ++ splitSlash Y := by
  induction X with
  | nil => simp [splitSlash]
  | cons c X ih =>
    rw [List.cons_append, splitSlash, splitSlash, ih]
    by_cases hc : c = '/'
    · rw [if_pos hc, if_pos hc, List.cons_append]
    · rw [if_neg hc, if_neg hc]
      cases hX : splitSlash X with
      | nil => exact absurd hX (splitSlash_ne_nil X)
      | cons e es => simp

theorem splitSlash_of_not_mem {a : Str} (h : '/' ∉ a) : splitSlash a = [a] := by
  induction a with
  | nil => rfl
  | cons c a ih =>
    rw [List.mem_cons, not_or] at h
    rw [splitSlash, if_neg (fun hc => h.1 hc.symm), ih h.2]

theorem splitSlash_mem (s : Str) : ∀ e ∈ splitSlash s, '/' ∉ e := by
  induction s with
  | nil =>
    intro e he
    simp [splitSlash] at he
    subst he
    simp
  | cons c cs ih =>
    intro e he
    rw [splitSlash] at he
    by_cases hc : c = '/'
    · rw [if_pos hc] at he
      rcases List.mem_cons.mp he with rfl | he
      · simp
      · exact ih e he
    · rw [if_neg hc] at he
      cases hX : splitSlash cs with
      | nil => exact absurd hX (splitSlash_ne_nil cs)
      | cons x xs =>
        rw [hX] at he ih
        simp only at he
        rcases List.mem_cons.mp he with rfl | he
        · intro hm
          rcases List.mem_cons.mp hm with h | h
          · exact hc h.symm
          · exact ih x (List.mem_cons_self _ _) h
        · exact ih e (List.mem_cons_of_mem _ he)

theorem splitSlash_length (s : Str) : (splitSlash s).length ≤ s.length + 1 := by
  induction s with
  | nil => simp [splitSlash]
  | cons c cs ih =>
    rw [splitSlash]
    split
    · simp
      omega
    · split
      · simp
      · rename_i e es hX
        rw [hX] at ih
        simp at ih ⊢
        omega

theorem cleanForm_nil (r : Bool) : CleanForm r [] :=
  ⟨fun _ h => absurd h (List.not_mem_nil _), fun _ h => absurd h (List.not_mem_nil _),
    List.chain'_nil⟩

theorem cleanForm_tail {r : Bool} {a : Str} {st : List Str} (h : CleanForm r (a :: st)) :
    CleanForm r st :=
  ⟨fun e he => h.1 e (List.mem_cons_of_mem _ he),
    fun hr hm => h.2.1 hr (List.mem_cons_of_mem _ hm), h.2.2.tail⟩

theorem cleanForm_cons {r : Bool} {a : Str} {st : List Str} (ha : IsElem a)
    (hd : a ≠ "..".toList) (h : CleanForm r st) : CleanForm r (a :: st) := by
  refine ⟨?_, ?_, ?_⟩
  · intro e he
    rcases List.mem_cons.mp he with rfl | he
    · exact ha
    · exact h.1 e he
  · intro hr hm
    rcases List.mem_cons.mp hm with hm | hm
    · exact hd hm.symm
    · exact h.2.1 hr hm
  · cases st with
    | nil => exact List.chain'_singleton _
    | cons b st =>
      rw [List.chain'_cons]
      exact ⟨fun hc => absurd hc hd, h.2.2⟩

/-- The elements `Clean` keeps stay in clean form. -/
theorem cleanForm_step {r : Bool} {out : List Str} {e : Str} (h : CleanForm r out)
    (he : '/' ∉ e) : CleanForm r (cleanStep r out e) := by
  unfold cleanStep
  by_cases h1 : e = [] ∨ e = ".".toList
  · rw [if_pos h1]
    exact h
  · rw [if_neg h1]
    rw [not_or] at h1
    by_cases h2 : e = "..".toList
    · rw [if_pos h2]
      cases out with
      | nil =>
        simp only
        cases r with
        | true => simpa using h
        | false =>
          simp only [Bool.false_eq_true, if_false]
          refine ⟨?_, by simp, List.chain'_singleton _⟩
          intro x hx
          rw [List.mem_singleton] at hx
          subst hx
          exact ⟨h1.1, he, h1.2⟩
      | cons top rest =>
        simp only
        by_cases h3 : top = "..".toList
        · rw [if_pos h3]
          refine ⟨?_, ?_, ?_⟩
          · intro x hx
            rcases List.mem_cons.mp hx with rfl | hx
            · exact ⟨h1.1, he, h1.2⟩
            · exact h.1 x hx
          · intro hr
            exact absurd (by rw [h3]; exact List.mem_cons_self _ _) (h.2.1 hr)
          · rw [List.chain'_cons]
            exact ⟨fun _ => h3, h.2.2⟩
        · rw [if_neg h3]
          exact cleanForm_tail h
    · rw [if_neg h2]
      exact cleanForm_cons ⟨h1.1, he, h1.2⟩ h2 h

theorem cleanForm_foldl {r : Bool} (es : List Str) (hes : ∀ e ∈ es, '/' ∉ e) :
    ∀ out, CleanForm r out → CleanForm r (es.foldl (cleanStep r) out) := by
  induction es with
  | nil => intro out h; exact h
  | cons e es ih =>
    intro out h
    rw [List.foldl_cons]
    exact ih (fun x hx => hes x (List.mem_cons_of_mem _ hx)) _
      (cleanForm_step h (hes e (List.mem_cons_self _ _)))

theorem cleanStep_length (r : Bool) (out : List Str) (e : Str) :
    (cleanStep r out e).length ≤ out.length + 1 := by
  unfold cleanStep
  split
  · omega
  · split
    · split
      · split <;> simp
      · split
        · simp
        · simp
          omega
    · simp

theorem foldl_cleanStep_length (r : Bool) (es : List Str) :
    ∀ out, (es.foldl (cleanStep r) out).length ≤ out.length + es.length := by
  induction es with
  | nil => intro out; simp
  | cons e es ih =>
    intro out
    rw [List.foldl_cons]
    have h1 := ih (cleanStep r out e)
    have h2 := cleanStep_length r out e
    simp only [List.length_cons]
    omega

/-- An element in clean form on top of the elements below it is kept by
`Clean`. -/
theorem cleanStep_cleanForm {r : Bool} {a : Str} {out : List Str} (h : CleanForm r (a :: out)) :
    cleanStep r out a = a :: out := by
  have ha := h.1 a (List.mem_cons_self _ _)
  unfold cleanStep
  rw [if_neg (by rw [not_or]; exact ⟨ha.1, ha.2.2⟩)]
  by_cases h2 : a = "..".toList
  · rw [if_pos h2]
    cases out with
    | nil =>
      simp only
      cases r with
      | true => exact absurd (by rw [h2]; exact List.mem_cons_self _ _) (h.2.1 rfl)
      | false => rfl
    | cons top rest =>
      simp only
      have h3 : top = "..".toList := (List.chain'_cons.mp h.2.2).1 h2
      rw [if_pos h3]
  · rw [if_neg h2]

theorem foldl_cleanForm {r : Bool} :
    ∀ st : List Str, CleanForm r st → st.reverse.foldl (cleanStep r) [] = st := by
  intro st
  induction st with
  | nil => intro _; rfl
  | cons a st ih =>
    intro h
    rw [List.reverse_cons, List.foldl_append, ih (cleanForm_tail h)]
    simp only [List.foldl_cons, List.foldl_nil]
    exact cleanStep_cleanForm h

theorem pathOf_cons_cons (r : Bool) (a b : Str) (rest : List Str) :
    pathOf r (a :: b :: rest) = pathOf r (b :: rest) ++ '/' :: a := rfl

theorem pathOf_ne_nil {r : Bool} {st : List Str} (h : ∀ e ∈ st, e ≠ []) : pathOf r st ≠ [] := by
  match st with
  | [] => cases r <;> simp [pathOf]
  | [a] =>
    cases r
    · simpa [pathOf] using h a (List.mem_cons_self _ _)
    · simp [pathOf]
  | a :: b :: rest =>
    rw [pathOf_cons_cons]
    simp

theorem cleanForm_ne_nil {r : Bool} {st : List Str} (h : CleanForm r st) : ∀ e ∈ st, e ≠ [] :=
  fun e he => (h.1 e he).1

theorem head_ne_slash {a : Str} (hne : a ≠ []) (h : '/' ∉ a) : a.head? ≠ some '/' := by
  cases a with
  | nil => exact absurd rfl hne
  | cons c a =>
    intro hc
    simp only [List.head?_cons, Option.some.injEq] at hc
    exact h (by rw [hc]; exact List.mem_cons_self _ _)

theorem head_append_of_ne_nil {X : Str} (Y : Str) (h : X ≠ []) : (X ++ Y).head? = X.head? := by
  cases X with
  | nil => exact absurd rfl h
  | cons c X => rfl

/-- A path in clean form begins with the separator exactly when it is rooted. -/
theorem head_pathOf {r : Bool} :
    ∀ {st : List Str}, CleanForm r st → decide ((pathOf r st).head? = some '/') = r
  | [], _ => by cases r <;> decide
  | [a], h => by
    have ha := h.1 a (List.mem_cons_self _ _)
    cases r
    · simpa [pathOf] using head_ne_slash ha.1 ha.2.1
    · simp [pathOf]
  | a :: b :: rest, h => by
    rw [pathOf_cons_cons,
      head_append_of_ne_nil _ (pathOf_ne_nil (cleanForm_ne_nil (cleanForm_tail h)))]
    exact head_pathOf (cleanForm_tail h)

/-- The elements of a path in clean form. -/
theorem splitSlash_pathOf {r : Bool} :
    ∀ {st : List Str}, CleanForm r st → st ≠ [] →
      splitSlash (pathOf r st) = (if r then [[]] else []) ++ st.reverse
  | [], _, hne => absurd rfl hne
  | [a], h, _ => by
    have ha := h.1 a (List.mem_cons_self _ _)
    cases r
    · simp [pathOf, splitSlash_of_not_mem ha.2.1]
    · simp [pathOf, splitSlash, splitSlash_of_not_mem ha.2.1]
  | a :: b :: rest, h, _ => by
    have ha := h.1 a (List.mem_cons_self _ _)
    rw [pathOf_cons_cons, splitSlash_append, splitSlash_of_not_mem ha.2.1,
      splitSlash_pathOf (cleanForm_tail h) (by simp)]
    simp

theorem foldl_cleanStep_nil_cons (r : Bool) (es : List Str) :
    (([] : Str) :: es).foldl (cleanStep r) [] = es.foldl (cleanStep r) [] := rfl

/-- Lemma B: `Clean` leaves a path in clean form unchanged. -/
theorem clean_pathOf {r : Bool} {st : List Str} (h : CleanForm r st) :
    Clean (pathOf r st) = pathOf r st := by
  unfold Clean
  simp only [head_pathOf h]
  by_cases hst : st = []
  · subst hst
    cases r <;> rfl
  · rw [splitSlash_pathOf h hst]
    cases r
    · simp only [Bool.false_eq_true, if_false, List.nil_append]
      rw [foldl_cleanForm st h]
    · simp only [if_true, List.singleton_append]
      rw [foldl_cleanStep_nil_cons, foldl_cleanForm st h]

/-- A path with a last element `a` is a text `X`, empty or ending with the
separator, followed by `a`. -/
theorem pathOf_cons_split (r : Bool) (a : Str) (st : List Str) :
    ∃ X, pathOf r (a :: st) = X ++ a ∧ (X = [] ∨ X.getLast? = some '/')
      ∧ X = (if st = [] then (if r then "/".toList else []) else pathOf r st ++ "/".toList) := by
  match st with
  | [] =>
    cases r
    · exact ⟨[], rfl, Or.inl rfl, rfl⟩
    · exact ⟨"/".toList, rfl, Or.inr rfl, rfl⟩
  | b :: rest =>
    refine ⟨pathOf r (b :: rest) ++ "/".toList, ?_, Or.inr ?_, ?_⟩
    · rw [pathOf_cons_cons]
      simp
    · simp
    · simp

theorem all_ne_slash {a : Str} (h : '/' ∉ a) : a.all (fun c => decide (c ≠ '/')) = true := by
  rw [List.all_eq_true]
  intro x hx
  rw [decide_eq_true_iff]
  rintro rfl
  exact h hx

theorem base_append {X a : Str} (hne : a ≠ []) (ha : '/' ∉ a)
    (hX : X = [] ∨ X.getLast? = some '/') : Base (X ++ a) = a := by
  unfold Base
  rw [if_neg (by simp [hne])]
  have hrev : (X ++ a).reverse = a.reverse ++ X.reverse := List.reverse_append _ _
  have hne2 : a.reverse ≠ [] := by simpa using hne
  have hd : (a.reverse ++ X.reverse).dropWhile (fun c => decide (c = '/'))
      = a.reverse ++ X.reverse := by
    cases har : a.reverse with
    | nil => exact absurd har hne2
    | cons c cs =>
      have hc : c ≠ '/' := by
        rintro rfl
        apply ha
        rw [← List.mem_reverse, har]
        exact List.mem_cons_self _ _
      rw [List.cons_append, List.dropWhile_cons, if_neg (by simpa using hc)]
  have ht := (Score.takeWhile_run (fun c => decide (c ≠ '/')) a.reverse X.reverse
    (by rw [List.all_reverse]; exact all_ne_slash ha)
    (by
      intro y hy
      rcases hX with rfl | hX
      · simp at hy
      · rw [List.head?_reverse, hX] at hy
        simp only [Option.some.injEq] at hy
        subst hy
        decide)).1
  simp only [hrev, hd, List.reverse_reverse, ht]
  rw [if_neg hne]

theorem dir_append {X a : Str} (ha : '/' ∉ a) (hX : X = [] ∨ X.getLast? = some '/') :
    Dir (X ++ a) = Clean X := by
  unfold Dir
  have hd := (Score.takeWhile_run (fun c => decide (c ≠ '/')) a.reverse X.reverse
    (by rw [List.all_reverse]; exact all_ne_slash ha)
    (by
      intro y hy
      rcases hX with rfl | hX
      · simp at hy
      · rw [List.head?_reverse, hX] at hy
        simp only [Option.some.injEq] at hy
        subst hy
        decide)).2
  rw [List.reverse_append, hd, List.reverse_reverse]

/-- The last element of a path in clean form is its `Base`. -/
theorem base_pathOf {r : Bool} {a : Str} {st : List Str} (h : CleanForm r (a :: st)) :
    Base (pathOf r (a :: st)) = a := by
  obtain ⟨X, hX, hX2, -⟩ := pathOf_cons_split r a st
  have ha := h.1 a (List.mem_cons_self _ _)
  rw [hX, base_append ha.1 ha.2.1 hX2]

theorem clean_append_slash {P : Str} (hP : P ≠ []) : Clean (P ++ "/".toList) = Clean P := by
  unfold Clean
  have h1 : (P ++ "/".toList).head? = P.head? := head_append_of_ne_nil _ hP
  have h2 : splitSlash (P ++ "/".toList) = splitSlash P ++ [[]] := by
    have := splitSlash_append P []
    simpa [splitSlash] using this
  simp only [h1, h2, List.foldl_append, List.foldl_cons, List.foldl_nil]
  congr 1

/-- The `Dir` of a path in clean form is the path without its last element. -/
theorem dir_pathOf {r : Bool} {a : Str} {st : List Str} (h : CleanForm r (a :: st)) :
    Dir (pathOf r (a :: st)) = pathOf r st := by
  obtain ⟨X, hX, hX2, hX3⟩ := pathOf_cons_split r a st
  have ha := h.1 a (List.mem_cons_self _ _)
  rw [hX, dir_append ha.2.1 hX2, hX3]
  by_cases hst : st = []
  · subst hst
    cases r <;> rfl
  · rw [if_neg hst, clean_append_slash (pathOf_ne_nil (cleanForm_ne_nil (cleanForm_tail h))),
      clean_pathOf (cleanForm_tail h)]

theorem dir_pathOf_nil (r : Bool) : Dir (pathOf r []) = pathOf r [] := by
  cases r <;> rfl

theorem pathOf_length {r : Bool} :
    ∀ {st : List Str}, (∀ e ∈ st, e ≠ []) → st.length ≤ (pathOf r st).length
  | [], _ => by simp
  | [a], h => by
    have ha := List.length_pos.mpr (h a (List.mem_cons_self _ _))
    cases r
    · simp only [pathOf, Bool.false_eq_true, if_false, List.length_singleton]
      omega
    · simp [pathOf]
  | a :: b :: rest, h => by
    have ih := @pathOf_length r (b :: rest) (fun e he => h e (List.mem_cons_of_mem _ he))
    rw [pathOf_cons_cons]
    simp only [List.length_append, List.length_cons] at ih ⊢
    omega

theorem pathOf_cons_ne {r : Bool} {a : Str} {st : List Str} (h : CleanForm r (a :: st)) :
    pathOf r st ≠ pathOf r (a :: st) := by
  have ha := h.1 a (List.mem_cons_self _ _)
  match st with
  | [] =>
    cases r
    · intro hc
      exact ha.2.2 hc.symm
    · intro hc
      change ['/'] = '/' :: a at hc
      injection hc with _ h2
      exact ha.1 h2.symm
  | b :: rest =>
    intro hc
    have := congrArg List.length hc
    rw [pathOf_cons_cons] at this
    simp at this

/-- Every path has a clean form: `Clean` returns a path in clean form, of no
more elements than the path has separators, plus one. -/
theorem clean_cleanForm (path : Str) :
    ∃ r st, CleanForm r st ∧ Clean path = pathOf r st ∧ st.length ≤ path.length + 1 := by
  refine ⟨decide (path.head? = some '/'), _, ?_, rfl, ?_⟩
  · exact cleanForm_foldl _ (splitSlash_mem path) _ (cleanForm_nil _)
  · have h1 := foldl_cleanStep_length (decide (path.head? = some '/')) (splitSlash path) []
    have h2 := splitSlash_length path
    simp only [List.length_nil] at h1
    omega

end Filepath

namespace Puzzle

open Puzzletext Filepath

theorem isName_isElem {e : Str} (h : IsName e) : IsElem e := ⟨h.1, h.2.1, h.2.2.1⟩

theorem cleanForm_cons_name {r : Bool} {a : Str} {st : List Str} (ha : IsName a)
    (h : CleanForm r st) : CleanForm r (a :: st) :=
  cleanForm_cons (isName_isElem ha) ha.2.2.2 h

theorem cleanForm_append_names {r : Bool} {st : List Str} (h : CleanForm r st) :
    ∀ rs : List Str, (∀ e ∈ rs, IsName e) → CleanForm r (rs ++ st) := by
  intro rs
  induction rs with
  | nil => intro _; exact h
  | cons a rs ih =>
    intro hn
    exact cleanForm_cons_name (hn a (List.mem_cons_self _ _))
      (ih (fun e he => hn e (List.mem_cons_of_mem _ he)))

theorem digit_char : ∀ a : Nat, a < 10 →
    isDigit (Char.ofNat (48 + a)) = true ∧ (Char.ofNat (48 + a)).toNat - 48 = a
      ∧ Char.ofNat (48 + a) ≠ '/' := by
  decide

theorem fmtNat_four {n : Nat} (h1 : 1000 ≤ n) (h2 : n ≤ 9999) :
    Summary.fmtNat n = [48 + n / 1000, 48 + n / 100 % 10, 48 + n / 10 % 10, 48 + n % 10] := by
  unfold Summary.fmtNat
  obtain ⟨k, hk⟩ : ∃ k, n + 1 = k + 4 := ⟨n - 3, by omega⟩
  rw [hk, Summary.digitsAux, if_neg (by omega), Summary.digitsAux, if_neg (by omega),
    Summary.digitsAux, if_neg (by omega), Summary.digitsAux, if_pos (by omega)]
  have e1 : n / 10 / 10 / 10 = n / 1000 := by omega
  have e2 : n / 10 / 10 % 10 = n / 100 % 10 := by omega
  rw [e1, e2]

/-- The text of a year from 1000 to 9999: four digits that `yearRe` matches and
`strconv.Atoi` reads back. -/
theorem year_text {year : Int} (h1 : 1000 ≤ year) (h2 : year ≤ 9999) :
    IsName (fmtInt year) ∧ yearRe (fmtInt year) = true ∧ Atoi (fmtInt year) = some year := by
  obtain ⟨n, rfl⟩ := Int.eq_ofNat_of_zero_le (by omega : 0 ≤ year)
  have hn1 : 1000 ≤ n := by omega
  have hn2 : n ≤ 9999 := by omega
  have hf : fmtInt (n : Int) = [Char.ofNat (48 + n / 1000), Char.ofNat (48 + n / 100 % 10),
      Char.ofNat (48 + n / 10 % 10), Char.ofNat (48 + n % 10)] := by
    show (Summary.fmtNat n).map Char.ofNat = _
    rw [fmtNat_four hn1 hn2]
    rfl
  have d3 := digit_char (n / 1000) (by omega)
  have d2 := digit_char (n / 100 % 10) (by omega)
  have d1 := digit_char (n / 10 % 10) (by omega)
  have d0 := digit_char (n % 10) (by omega)
  have hall : (fmtInt (n : Int)).all isDigit = true := by
    rw [hf]
    simp [d3.1, d2.1, d1.1, d0.1]
  refine ⟨⟨?_, ?_, ?_, ?_⟩, ?_, ?_⟩
  · rw [hf]
    simp
  · rw [hf]
    simp only [List.mem_cons, List.mem_nil_iff, or_false, not_or]
    exact ⟨fun h => d3.2.2 h.symm, fun h => d2.2.2 h.symm, fun h => d1.2.2 h.symm,
      fun h => d0.2.2 h.symm⟩
  · rw [hf]
    intro h
    have := congrArg List.length h
    simp at this
  · rw [hf]
    intro h
    have := congrArg List.length h
    simp at this
  · unfold yearRe
    rw [hall, hf]
    rfl
  · rw [Score.atoi_digits (by rw [hf]; simp) hall]
    have hv : Bench.digitsValue (fmtInt (n : Int)) = n := by
      rw [hf]
      simp only [Bench.digitsValue, List.foldl_cons, List.foldl_nil, d3.2.1, d2.2.1, d1.2.1,
        d0.2.1]
      omega
    rw [hv, if_neg]
    have : (2 : Nat) ^ 63 = 9223372036854775808 := by norm_num
    omega

theorem fmtNat_small {n : Nat} (h : n < 10) : Summary.fmtNat n = [48 + n] := by
  unfold Summary.fmtNat
  rw [Summary.digitsAux, if_pos h]

theorem fmtNat_two {n : Nat} (h1 : 10 ≤ n) (h2 : n ≤ 99) :
    Summary.fmtNat n = [48 + n / 10, 48 + n % 10] := by
  unfold Summary.fmtNat
  obtain ⟨k, hk⟩ : ∃ k, n + 1 = k + 2 := ⟨n - 1, by omega⟩
  rw [hk, Summary.digitsAux, if_neg (by omega), Summary.digitsAux, if_pos (by omega)]

theorem fmtInt02_two {n : Nat} (h2 : n ≤ 99) :
    Summary.fmtInt02 (n : Int) = [Char.ofNat (48 + n / 10), Char.ofNat (48 + n % 10)] := by
  have hf : fmtInt (n : Int) = (Summary.fmtNat n).map Char.ofNat := rfl
  unfold Summary.fmtInt02
  rw [hf]
  by_cases h : n < 10
  · rw [fmtNat_small h]
    have e1 : n / 10 = 0 := by omega
    have e2 : n % 10 = n := by omega
    rw [e1, e2]
    rfl
  · rw [fmtNat_two (by omega) h2]
    rfl

/-- The name of the directory of a day from 1 to 99: `puzzleRe` matches it,
`yearRe` does not, and `strconv.Atoi` reads the day back from the capture. -/
theorem day_text {day : Int} (h1 : 1 ≤ day) (h2 : day ≤ 99) :
    IsName ("puzzle".toList ++ Summary.fmtInt02 day)
      ∧ puzzleRe ("puzzle".toList ++ Summary.fmtInt02 day) = some (Summary.fmtInt02 day)
      ∧ yearRe ("puzzle".toList ++ Summary.fmtInt02 day) = false
      ∧ Atoi (Summary.fmtInt02 day) = some day := by
  obtain ⟨n, rfl⟩ := Int.eq_ofNat_of_zero_le (by omega : 0 ≤ day)
  have hn2 : n ≤ 99 := by omega
  have hf := fmtInt02_two hn2
  have d1 := digit_char (n / 10) (by omega)
  have d0 := digit_char (n % 10) (by omega)
  have hall : (Summary.fmtInt02 (n : Int)).all isDigit = true := by
    rw [hf]
    simp [d1.1, d0.1]
  refine ⟨⟨by simp, ?_, ?_, ?_⟩, ?_, ?_, ?_⟩
  · rw [hf]
    intro h
    rcases List.mem_append.mp h with h | h
    · revert h
      decide
    · simp only [List.mem_cons, List.mem_nil_iff, or_false] at h
      rcases h with h | h
      · exact d1.2.2 h.symm
      · exact d0.2.2 h.symm
  · rw [hf]
    intro h
    have := congrArg List.length h
    simp at this
  · rw [hf]
    intro h
    have := congrArg List.length h
    simp at this
  · unfold puzzleRe
    have hd : ("puzzle".toList ++ Summary.fmtInt02 (n : Int)).drop 6 = Summary.fmtInt02 (n : Int) :=
      List.drop_left' rfl
    rw [hd, if_pos ⟨(hasPrefix_iff _ _).mpr ⟨_, rfl⟩, by rw [hf]; rfl, hall⟩]
  · unfold yearRe
    rw [hf]
    rfl
  · rw [Score.atoi_digits (by rw [hf]; simp) hall]
    have hv : Bench.digitsValue (Summary.fmtInt02 (n : Int)) = n := by
      rw [hf]
      simp only [Bench.digitsValue, List.foldl_cons, List.foldl_nil, d1.2.1, d0.2.1]
      omega
    rw [hv, if_neg]
    have : (2 : Nat) ^ 63 = 9223372036854775808 := by norm_num
    omega

/-- The path `Join` builds from a root and two names: a path in clean form that
ends with the two names. -/
theorem join_cleanForm (root : Str) {Y D : Str} (hY : IsName Y) (hD : IsName D) :
    ∃ r st, CleanForm r (D :: Y :: st) ∧ Filepath.Join [root, Y, D] = pathOf r (D :: Y :: st) := by
  by_cases hroot : root = []
  · subst hroot
    have hcf : CleanForm false [D, Y] :=
      cleanForm_cons_name hD (cleanForm_cons_name hY (cleanForm_nil _))
    refine ⟨false, [], hcf, ?_⟩
    have hj : Filepath.Join [[], Y, D] = Clean (pathOf false [D, Y]) := by
      unfold Filepath.Join
      rw [List.dropWhile_cons, if_pos (by simp), List.dropWhile_cons,
        if_neg (by simpa using hY.1)]
      simp [Summary.Join, pathOf]
    rw [hj, clean_pathOf hcf]
  · have hst : CleanForm (decide (root.head? = some '/'))
        ((splitSlash root).foldl (cleanStep (decide (root.head? = some '/'))) []) :=
      cleanForm_foldl _ (splitSlash_mem root) _ (cleanForm_nil _)
    have hcY := cleanForm_cons_name hY hst
    have hcD := cleanForm_cons_name hD hcY
    refine ⟨_, _, hcD, ?_⟩
    have hj : Filepath.Join [root, Y, D] = Clean (root ++ '/' :: (Y ++ '/' :: D)) := by
      unfold Filepath.Join
      rw [List.dropWhile_cons, if_neg (by simpa using hroot)]
      simp [Summary.Join]
    rw [hj]
    unfold Clean
    have hh : (root ++ '/' :: (Y ++ '/' :: D)).head? = root.head? :=
      head_append_of_ne_nil _ hroot
    have hs : splitSlash (root ++ '/' :: (Y ++ '/' :: D)) = splitSlash root ++ [Y, D] := by
      rw [splitSlash_append, splitSlash_append, splitSlash_of_not_mem hY.2.1,
        splitSlash_of_not_mem hD.2.1]
      rfl
    simp only [hh, hs, List.foldl_append, List.foldl_cons, List.foldl_nil]
    rw [cleanStep_cleanForm hcY, cleanStep_cleanForm hcD]

theorem subPath_pathOf (r : Bool) :
    ∀ (names : List Str) (b : Str) (rest : List Str),
      subPath (pathOf r (b :: rest)) names = pathOf r (names.reverse ++ b :: rest) := by
  intro names
  induction names with
  | nil => intro b rest; rfl
  | cons n ns ih =>
    intro b rest
    have h : subPath (pathOf r (b :: rest)) (n :: ns) = subPath (pathOf r (n :: b :: rest)) ns :=
      rfl
    rw [h, ih, List.reverse_cons, List.append_assoc]
    rfl

theorem inferStep_found {r : Bool} {D Y m : Str} {st : List Str} {y d : Int}
    (hcf : CleanForm r (D :: Y :: st)) (hD : puzzleRe D = some m) (hY : yearRe Y = true)
    (hy : Atoi Y = some y) (hd : Atoi m = some d) :
    inferStep (pathOf r (D :: Y :: st)) = some (.ok (y, d)) := by
  unfold inferStep
  rw [base_pathOf hcf, hD]
  simp only
  rw [dir_pathOf hcf, base_pathOf (cleanForm_tail hcf), if_pos hY, hy]
  simp only
  rw [hd]

theorem inferStep_none {r : Bool} {n p : Str} {st : List Str}
    (hcf : CleanForm r (n :: p :: st)) (h : yearRe p = true → puzzleRe n = none) :
    inferStep (pathOf r (n :: p :: st)) = none := by
  unfold inferStep
  rw [base_pathOf hcf]
  cases hn : puzzleRe n with
  | none => rfl
  | some m =>
    simp only
    rw [dir_pathOf hcf, base_pathOf (cleanForm_tail hcf), if_neg]
    intro hp
    rw [h hp] at hn
    cases hn

/-- From a directory below the puzzle directory the loop of `InferFromDir` goes
up to the puzzle directory and returns its year and day. -/
theorem inferLoop_found {r : Bool} {D Y m : Str} {st : List Str} {y d : Int}
    (hcf : CleanForm r (D :: Y :: st)) (hD : puzzleRe D = some m) (hY : yearRe Y = true)
    (hy : Atoi Y = some y) (hd : Atoi m = some d) :
    ∀ (rs : List Str) (fuel : Nat), (∀ e ∈ rs, IsName e) →
      (rs ++ [D]).Chain' (fun n p => yearRe p = true → puzzleRe n = none) →
      rs.length + 1 ≤ fuel →
      inferLoop fuel (pathOf r (rs ++ D :: Y :: st)) = some (.ok (y, d)) := by
  intro rs
  induction rs with
  | nil =>
    intro fuel _ _ hf
    obtain ⟨f, rfl⟩ : ∃ f, fuel = f + 1 := ⟨fuel - 1, by simp at hf; omega⟩
    rw [List.nil_append, inferLoop, inferStep_found hcf hD hY hy hd]
  | cons n rs ih =>
    intro fuel hn hc hf
    obtain ⟨f, rfl⟩ : ∃ f, fuel = f + 1 := ⟨fuel - 1, by simp at hf; omega⟩
    have hcf2 : CleanForm r (n :: (rs ++ D :: Y :: st)) :=
      cleanForm_append_names hcf (n :: rs) hn
    have hstep : inferStep (pathOf r (n :: (rs ++ D :: Y :: st))) = none := by
      cases rs with
      | nil =>
        apply inferStep_none hcf2
        exact (List.chain'_cons.mp hc).1
      | cons p rs =>
        apply inferStep_none hcf2
        exact (List.chain'_cons.mp hc).1
    rw [List.cons_append, inferLoop, hstep]
    simp only
    rw [dir_pathOf hcf2, if_neg (pathOf_cons_ne hcf2)]
    apply ih f (fun e he => hn e (List.mem_cons_of_mem _ he)) (List.Chain'.tail hc)
    simp only [List.length_cons] at hf
    omega

/-- The loop of `InferFromDir` returns within one iteration more than the path
has elements: it stops at the latest at the path without elements, `/` or `.`,
which is its own `Dir`. -/
theorem inferLoop_returns {r : Bool} :
    ∀ (st : List Str) (fuel : Nat), CleanForm r st → st.length + 1 ≤ fuel →
      (inferLoop fuel (pathOf r st)).isSome = true := by
  intro st
  induction st with
  | nil =>
    intro fuel _ hf
    obtain ⟨f, rfl⟩ : ∃ f, fuel = f + 1 := ⟨fuel - 1, by simp at hf; omega⟩
    rw [inferLoop]
    cases inferStep (pathOf r []) with
    | some x => rfl
    | none =>
      simp only
      rw [if_pos (dir_pathOf_nil r)]
      rfl
  | cons a st ih =>
    intro fuel hcf hf
    obtain ⟨f, rfl⟩ : ∃ f, fuel = f + 1 := ⟨fuel - 1, by simp at hf; omega⟩
    rw [inferLoop]
    cases inferStep (pathOf r (a :: st)) with
    | some x => rfl
    | none =>
      simp only
      rw [dir_pathOf hcf, if_neg (pathOf_cons_ne hcf)]
      apply ih f (cleanForm_tail hcf)
      simp only [List.length_cons] at hf
      omega

/-- `InferFromDir` returns for every path: the iterations it is given suffice. -/
theorem inferFromDir_returns (path : Str) : (InferFromDir path).isSome = true := by
  unfold InferFromDir
  obtain ⟨r, st, hcf, hcl, hlen⟩ := clean_cleanForm path
  rw [hcl]
  exact inferLoop_returns st _ hcf (by omega)

/-- `InferFromDir` on a directory reached from the puzzle directory through
ordinary names, none of them a `puzzleNN` directly inside a four-digit name. -/
theorem inferFromDir_subPath (root : Str) (year day : Int) (names : List Str)
    (hy1 : 1000 ≤ year) (hy2 : year ≤ 9999) (hd1 : 1 ≤ day) (hd2 : day ≤ 99)
    (hn : ∀ e ∈ names, IsName e)
    (hc : names.Chain' (fun p n => ¬ (yearRe p = true ∧ (puzzleRe n).isSome = true))) :
    InferFromDir (subPath (Dir root year day) names) = some (.ok (year, day)) := by
  obtain ⟨hY, hYre, hYa⟩ := year_text hy1 hy2
  obtain ⟨hD, hDre, hDy, hDa⟩ := day_text hd1 hd2
  obtain ⟨r, st, hcf, hj⟩ := join_cleanForm root hY hD
  have hdir : Dir root year day
      = pathOf r (("puzzle".toList ++ Summary.fmtInt02 day) :: fmtInt year :: st) := hj
  have hn2 : ∀ e ∈ names.reverse, IsName e := fun e he => hn e (List.mem_reverse.mp he)
  have hcf2 := cleanForm_append_names hcf names.reverse hn2
  have hchain : (names.reverse ++ ["puzzle".toList ++ Summary.fmtInt02 day]).Chain'
      (fun n p => yearRe p = true → puzzleRe n = none) := by
    have h1 : (("puzzle".toList ++ Summary.fmtInt02 day) :: names).Chain'
        (fun p n => yearRe p = true → puzzleRe n = none) := by
      cases names with
      | nil => exact List.chain'_singleton _
      | cons a rest =>
        rw [List.chain'_cons]
        refine ⟨fun h => ?_, hc.imp ?_⟩
        · rw [hDy] at h
          cases h
        · intro p n hpn hp
          cases hq : puzzleRe n with
          | none => rfl
          | some m => exact absurd ⟨hp, by rw [hq]; rfl⟩ hpn
    have h2 := List.chain'_reverse.mpr h1
    rw [List.reverse_cons] at h2
    exact h2
  unfold InferFromDir
  rw [hdir, subPath_pathOf, clean_pathOf hcf2]
  apply inferLoop_found hcf hDre hYre hYa hDa names.reverse _ hn2 hchain
  have hlen := @pathOf_length r _ (cleanForm_ne_nil hcf2)
  simp only [List.length_append, List.length_cons, List.length_reverse] at hlen ⊢
  omega

/-- C30 (amended): round trip of the puzzle directory. For every root path,
every year from 1000 to 9999 and every day from 1 to 99, `InferFromDir` applied
to the path `Dir` builds returns the year and the day without error, and so does
`InferFromDir` applied to a directory reached from there through ordinary names
(not empty, without separator, neither `.` nor `..`) among which no `puzzleNN`
stands directly inside a directory with a name of four digits. For every path
the upward search of `InferFromDir` terminates. -/
theorem C30_round_trip (root : Str) (year day : Int) (names : List Str)
    (hy1 : 1000 ≤ year) (hy2 : year ≤ 9999) (hd1 : 1 ≤ day) (hd2 : day ≤ 99)
    (hn : ∀ e ∈ names, IsName e)
    (hc : names.Chain' (fun p n => ¬ (yearRe p = true ∧ (puzzleRe n).isSome = true))) :
    InferFromDir (Dir root year day) = some (.ok (year, day))
      ∧ InferFromDir (subPath (Dir root year day) names) = some (.ok (year, day))
      ∧ ∀ path, (InferFromDir path).isSome = true :=
  ⟨inferFromDir_subPath root year day [] hy1 hy2 hd1 hd2
      (fun _ h => absurd h (List.not_mem_nil _)) List.chain'_nil,
    inferFromDir_subPath root year day names hy1 hy2 hd1 hd2 hn hc,
    inferFromDir_returns⟩

/-- Witness of `C30_round_trip`: day 7 of the year 2024 under `/home/u/repo`,
and the directory `input/puzzle09` below it. -/
theorem C30_round_trip_witness :
    Dir "/home/u/repo".toList 2024 7 = "/home/u/repo/2024/puzzle07".toList
      ∧ subPath (Dir "/home/u/repo".toList 2024 7) ["input".toList, "puzzle09".toList]
          = "/home/u/repo/2024/puzzle07/input/puzzle09".toList
      ∧ InferFromDir "/home/u/repo/2024/puzzle07".toList = some (.ok (2024, 7))
      ∧ InferFromDir "/home/u/repo/2024/puzzle07/input/puzzle09".toList
          = some (.ok (2024, 7)) :=
  have h := C30_round_trip "/home/u/repo".toList 2024 7 ["input".toList, "puzzle09".toList]
    (by decide) (by decide) (by decide) (by decide) (by decide)
    (List.chain'_cons.mpr ⟨by decide, List.chain'_singleton _⟩)
  ⟨by decide, by decide, h.1, h.2.1⟩

/-- C30 (counterexample): below the puzzle directory of day 1 of 2024, the
directory `1234/puzzle07/sub` is not itself named `puzzleNN`, and `InferFromDir`
returns the year 1234 and the day 7 for it. -/
theorem C30_counterexample :
    subPath (Dir "/repo".toList 2024 1) ["1234".toList, "puzzle07".toList, "sub".toList]
        = "/repo/2024/puzzle01/1234/puzzle07/sub".toList
      ∧ puzzleRe "sub".toList = none
      ∧ InferFromDir "/repo/2024/puzzle01/1234/puzzle07/sub".toList = some (.ok (1234, 7)) :=
  ⟨by decide, by decide, by rfl⟩

end Puzzle
